import Mathlib

/-!
The `refs` command of go-ipfs: reference graph walker.

A shallow embedding of `core/commands/refs.go` (`RefWriter.visit`,
`RefWriter.WriteEdge`, `RefWriter.writeRefsRecursive`, `RefWriter.WriteRefs`
and the producer loop of `RefsCmd.Run`).

Modelling conventions

* Go `string` is a list of characters (`GoString`); Go `int` is `Int` (the
  recursion depth and the edge count never come near `2^63`).
* `*cid.Cid` is its canonical byte form (`Cid.Bytes`), which is what the
  `seen` map is keyed by.  The textual form `c.String()` belongs to the
  external `go-cid` package and is taken as a parameter `str`.
* `ipld.DAGService` is a function from a CID to either a node or an error:
  a node fetch always returns.
* In `writeRefsRecursive` the nodes are delivered by `ng.Get(rw.Ctx)` on the
  promises of one `ipld.GetDAG` batch per node, so a fetch can also fail
  because the context is done or because another promise of the batch failed.
  `writeLinksVia`, `writeRefsRecursiveVia` and `produceVia` leave what each
  fetch delivers open (`NodePromises`); `writeLinks`, `writeRefsRecursive` and
  `produce` are their instance `NodePromises.lookup`, where the CID alone
  decides.  The statements about errors and cancellation hold for every
  `NodePromises`.
* The Go map `seen` is a function `List Nat → Option Int`; the `nil` map and
  the empty map are both the function that is `none` everywhere.
* The output channel `out` is the list of records sent so far.  The field
  `edges` is a ghost log, not present in the source: it records, for every
  record sent by `writeRefsRecursive`, the edge and the depth of the call that
  sent it.
* The recursion of `writeRefsRecursive` need not terminate (non-unique
  unbounded walk of a cyclic graph), so it carries a fuel argument bounding
  the nesting of recursive calls; `none` means the fuel ran out.
-/

namespace Refs

/-- Go strings. -/
abbrev GoString := List Char

/-- A Go `error`, represented by its message (`err.Error()`). -/
abbrev Error := GoString

namespace strings

/-- Go `strings.Replace(s, old, new, -1)` for a non-empty `old`: the leftmost
non-overlapping occurrences of `old` are replaced by `new`, scanning from the
left.  `n` bounds the remaining length of the scan. -/
def replaceFrom (old new : GoString) : Nat → GoString → GoString
  | 0, s => s
  | _ + 1, [] => []
  | n + 1, c :: cs =>
    if old.isPrefixOf (c :: cs) then new ++ replaceFrom old new n ((c :: cs).drop old.length)
    else c :: replaceFrom old new n cs

/-- Go `strings.Replace(s, old, new, -1)`.  For an empty `old` Go inserts `new`
at the beginning of the string and after every character. -/
def Replace (s old new : GoString) : GoString :=
  if old = [] then new ++ s.flatMap (fun c => c :: new)
  else replaceFrom old new s.length s

end strings

/-- The content identifier `*cid.Cid`, given by its canonical byte form. -/
structure Cid where
  Bytes : List Nat
deriving DecidableEq

/-- The link `ipld.Link` (the size hint is not used by the walker). -/
structure Link where
  Name : GoString
  Cid : Cid
deriving DecidableEq

/-- The node `ipld.Node`: its own CID and its ordered links. -/
structure Node where
  Cid : Cid
  Links : List Link
deriving DecidableEq

/-- The output record `RefWrapper`. -/
structure RefWrapper where
  Ref : GoString
  Err : GoString
deriving DecidableEq

/-- An edge written by the walker, with the depth of the call that wrote it. -/
structure Edge where
  src : Cid
  dst : Cid
  name : GoString
  depth : Int
deriving DecidableEq

/-- The cancellation signal `context.Context` as the walker observes it: the
context is done once `doneAfter` records have been sent (`none`: never), and
then reports `err`. -/
structure Context where
  doneAfter : Option Nat
  err : Error

/-- The context error observed after `sent` records: `ctx.Err()` if
`ctx.Done()` is closed. -/
def Context.Err (ctx : Context) (sent : Nat) : Option Error :=
  match ctx.doneAfter with
  | some k => if k ≤ sent then some ctx.err else none
  | none => none

/-- The struct `RefWriter`, plus the ghost log `edges`. -/
structure RefWriter where
  out : List RefWrapper
  DAG : Cid → Except Error Node
  Ctx : Option Context
  Unique : Bool
  MaxDepth : Int
  PrintFmt : GoString
  seen : List Nat → Option Int
  edges : List Edge

/-- The method `RefWriter.visit`: returns `((keepGoing, seenBefore), rw)`. -/
def RefWriter.visit (rw : RefWriter) (c : Cid) (depth : Int) : (Bool × Bool) × RefWriter :=
  let key := c.Bytes
  let ok := (rw.seen key).isSome
  let oldDepth := (rw.seen key).getD 0
  if rw.MaxDepth ≥ 0 ∧ depth > rw.MaxDepth then ((false, ok), rw)
  else if ok = true ∧ rw.MaxDepth < 0 then ((!rw.Unique, ok), rw)
  else if ok = false ∨ oldDepth > depth then
    ((true, ok), { rw with seen := Function.update rw.seen key (some depth) })
  else ((!rw.Unique, ok), rw)

/-- The string that `WriteEdge` renders for an edge. -/
def render (str : Cid → GoString) (fmt : GoString) (src dst : Cid) (linkname : GoString) :
    GoString :=
  if fmt ≠ [] then
    strings.Replace
      (strings.Replace (strings.Replace fmt "<src>".toList (str src)) "<dst>".toList (str dst))
      "<linkname>".toList linkname
  else str dst

/-- The method `RefWriter.WriteEdge`: returns the error (if the context is
done) or sends one record. -/
def RefWriter.WriteEdge (str : Cid → GoString) (rw : RefWriter) (src dst : Cid)
    (linkname : GoString) : Option Error × RefWriter :=
  match rw.Ctx.bind (fun ctx => ctx.Err rw.out.length) with
  | some err => (some err, rw)
  | none =>
    (none, { rw with out := rw.out ++ [⟨render str rw.PrintFmt src dst linkname, []⟩] })

/-- What `writeRefsRecursive` returns: `(count, err)` and the writer after the call. -/
structure Result where
  count : Int
  err : Option Error
  rw : RefWriter

/-- The first half of the loop body of `writeRefsRecursive` for one link `l`
of the node with CID `nc`: consult `visit`, and write the edge if it was not
seen before or duplicates are allowed.  Returns `keepGoing`, the error of
`WriteEdge` (if any) and the writer afterwards. -/
def visitLink (str : Cid → GoString) (rw : RefWriter) (nc : Cid) (l : Link) (depth : Int) :
    Bool × Option Error × RefWriter :=
  let lc := l.Cid
  let v := rw.visit lc depth
  let keepGoing := v.1.1
  let seen := v.1.2
  let rw1 := v.2
  if !keepGoing then (false, none, rw1)
  else if !seen || seen && !rw1.Unique then
    match rw1.WriteEdge str nc lc l.Name with
    | (some err, rw2) => (true, some err, rw2)
    | (none, rw2) => (true, none, { rw2 with edges := rw2.edges ++ [⟨nc, lc, l.Name, depth⟩] })
  else (true, none, rw1)

/-- The loop of `writeRefsRecursive` over the links of a node with CID `nc`;
`recurse` is the recursive call. -/
def writeLinks (str : Cid → GoString) (recurse : RefWriter → Node → Int → Option Result)
    (nc : Cid) (depth : Int) : List Link → Int → RefWriter → Option Result
  | [], count, rw => some ⟨count, none, rw⟩
  | l :: ls, count, rw =>
    match visitLink str rw nc l depth with
    | (false, _, rw1) => writeLinks str recurse nc depth ls count rw1
    | (true, some err, rw2) => some ⟨count, some err, rw2⟩
    | (true, none, rw2) =>
      match rw2.DAG l.Cid with
      | .error err => some ⟨count, some err, rw2⟩
      | .ok nd =>
        match recurse rw2 nd (depth + 1) with
        | none => none
        | some r =>
          match r.err with
          | some err => some ⟨count + r.count, some err, r.rw⟩
          | none => writeLinks str recurse nc depth ls (count + r.count) r.rw

/-- The method `RefWriter.writeRefsRecursive`, with fuel for the nesting of
recursive calls. -/
def RefWriter.writeRefsRecursive (str : Cid → GoString) :
    Nat → RefWriter → Node → Int → Option Result
  | 0, _, _, _ => none
  | fuel + 1, rw, n, depth =>
    writeLinks str (RefWriter.writeRefsRecursive str fuel) n.Cid depth n.Links 0 rw

/-- The method `RefWriter.WriteRefs`: starts directly at depth 1. -/
def RefWriter.WriteRefs (str : Cid → GoString) (fuel : Nat) (rw : RefWriter) (n : Node) :
    Option Result :=
  rw.writeRefsRecursive str fuel n 1

/-- A freshly constructed `RefWriter` as in `RefsCmd.Run`. -/
def RefWriter.fresh (DAG : Cid → Except Error Node) (Ctx : Option Context) (Unique : Bool)
    (PrintFmt : GoString) (MaxDepth : Int) : RefWriter :=
  { out := [], DAG := DAG, Ctx := Ctx, Unique := Unique, MaxDepth := MaxDepth,
    PrintFmt := PrintFmt, seen := fun _ => none, edges := [] }

/-- The record that `WriteEdge` sends for an edge. -/
def Edge.record (str : Cid → GoString) (fmt : GoString) (e : Edge) : RefWrapper :=
  ⟨render str fmt e.src e.dst e.name, []⟩

/-- The configuration of writer `b` (graph, context, options) is that of `a`. -/
def SameConfig (a b : RefWriter) : Prop :=
  b.DAG = a.DAG ∧ b.Ctx = a.Ctx ∧ b.Unique = a.Unique ∧ b.MaxDepth = a.MaxDepth ∧
    b.PrintFmt = a.PrintFmt

/-- Writer `b` is writer `a` after some more edges were written, each by a
call at depth at least `lo` and, when a bound is configured, at most
`MaxDepth`; the output channel received exactly the records of these edges. -/
def Extends (str : Cid → GoString) (lo : Int) (a b : RefWriter) : Prop :=
  SameConfig a b ∧ ∃ new : List Edge, b.edges = a.edges ++ new ∧
    b.out = a.out ++ new.map (Edge.record str a.PrintFmt) ∧
    ∀ e ∈ new, lo ≤ e.depth ∧ (0 ≤ a.MaxDepth → e.depth ≤ a.MaxDepth)

/-- A finite graph: the CIDs listed in `V` are closed under the links of the
nodes that the node source returns for them. -/
def ClosedUnder (DAG : Cid → Except Error Node) (V : List Cid) : Prop :=
  ∀ c ∈ V, ∀ nd, DAG c = .ok nd → ∀ l ∈ nd.Links, l.Cid ∈ V

/-- Every CID recorded in the `seen` map of `a` is still recorded in that of `b`. -/
def SeenGrows (a b : RefWriter) : Prop :=
  ∀ key, a.seen key ≠ none → b.seen key ≠ none

/-- The number of CIDs of `V` that are not yet in the `seen` map. -/
def unseen (rw : RefWriter) (V : List Cid) : Nat :=
  (V.toFinset.filter (fun c => rw.seen c.Bytes = none)).card

/-- The `select` of the producer in `RefsCmd.Run` that reports an error: the
error record is sent, unless the context is done, in which case it may be
dropped.  When the context is done and the consumer is also ready to receive,
Go picks either case; `sendWins` is that pick. -/
def sendError (sendWins : Bool) (ctx : Context) (rw : RefWriter) (err : Error) : RefWriter :=
  match ctx.Err rw.out.length with
  | some _ => if sendWins then { rw with out := rw.out ++ [⟨[], err⟩] } else rw
  | none => { rw with out := rw.out ++ [⟨[], err⟩] }

/-- The loop of the producer goroutine of `RefsCmd.Run` over the resolved
roots: the first error is reported and ends the stream.  The result is the
writer when the channel is closed. -/
def produce (str : Cid → GoString) (fuel : Nat) (sendWins : Bool) (ctx : Context) :
    RefWriter → List Node → Option RefWriter
  | rw, [] => some rw
  | rw, o :: os =>
    match rw.WriteRefs str fuel o with
    | none => none
    | some r =>
      match r.err with
      | some err => some (sendError sendWins ctx r.rw err)
      | none => produce str fuel sendWins ctx r.rw os

/-- The producer goroutine of `RefsCmd.Run`: a fresh `RefWriter` on the request
context, then the loop over the roots. -/
def stream (str : Cid → GoString) (fuel : Nat) (sendWins : Bool) (ctx : Context)
    (DAG : Cid → Except Error Node) (unique : Bool) (format : GoString) (maxDepth : Int)
    (objs : List Node) : Option RefWriter :=
  produce str fuel sendWins ctx (RefWriter.fresh DAG (some ctx) unique format maxDepth) objs

/-- Under `Unique`: every edge written so far has its destination in the `seen`
map, and no two edges written so far have the same destination. -/
def UniqueInv (rw : RefWriter) : Prop :=
  (∀ e ∈ rw.edges, (rw.seen e.dst.Bytes).isSome = true) ∧ (rw.edges.map (fun e => e.dst)).Nodup

/-- The edge for link `l` of the node with CID `nc`, met at depth `depth`. -/
def Edge.ofLink (nc : Cid) (depth : Int) (l : Link) : Edge := ⟨nc, l.Cid, l.Name, depth⟩

/-- The context of the writer is never cancelled. -/
def NeverDone (rw : RefWriter) : Prop :=
  ∀ ctx, rw.Ctx = some ctx → ctx.doneAfter = none

/-- The links of a node that are first sightings: the target CID is not in the
`seen` map and is not the target of an earlier link (`earlier` lists the
targets already passed). -/
def firstSightings (seen : List Nat → Option Int) : List Cid → List Link → List Link
  | _, [] => []
  | earlier, l :: ls =>
    if (seen l.Cid.Bytes).isSome ∨ l.Cid ∈ earlier then firstSightings seen earlier ls
    else l :: firstSightings seen (l.Cid :: earlier) ls

/-- The direct links of a node that a depth-1 listing reports: all of them when
duplicates are allowed, the first sightings under `Unique`. -/
def directLinks (unique : Bool) (seen : List Nat → Option Int) (ls : List Link) : List Link :=
  if unique then firstSightings seen [] ls else ls

/-- A finite graph without missing nodes: every CID of `V` can be fetched and
the links of its node stay in `V`. -/
def FiniteGraph (DAG : Cid → Except Error Node) (V : List Cid) : Prop :=
  ∀ c ∈ V, ∃ nd, DAG c = .ok nd ∧ ∀ l ∈ nd.Links, l.Cid ∈ V

/-- The graph on `V` is acyclic: every link goes to a CID of smaller rank. -/
def RankDecreases (DAG : Cid → Except Error Node) (V : List Cid) (rank : Cid → Nat) : Prop :=
  ∀ c ∈ V, ∀ nd, DAG c = .ok nd → ∀ l ∈ nd.Links, rank l.Cid < rank c

/-- The naive tree walk with no visited set: the pre-order enumeration, in link
order at every node, of the link paths of length `1..k` that start at node `n`,
one edge per path (the last edge of the path, with its depth). -/
def treeWalk (DAG : Cid → Except Error Node) : Nat → Node → Int → List Edge
  | 0, _, _ => []
  | k + 1, n, depth =>
    n.Links.flatMap (fun l =>
      Edge.ofLink n.Cid depth l ::
        (match DAG l.Cid with
         | .ok nd => treeWalk DAG k nd (depth + 1)
         | .error _ => []))

/-- A link path of `k` links from the node `root` to a CID: the direct links of
the root are at length 1, and a link of the node fetched for a CID at length
`k` is at length `k + 1`. -/
inductive LinkPath (DAG : Cid → Except Error Node) (root : Node) : Cid → Nat → Prop
  | direct (l : Link) : l ∈ root.Links → LinkPath DAG root l.Cid 1
  | snoc (c : Cid) (k : Nat) (nd : Node) (l : Link) :
      LinkPath DAG root c k → DAG c = .ok nd → l ∈ nd.Links → LinkPath DAG root l.Cid (k + 1)

/-- The `seen` map `s2` holds every CID of `s1`, at the same or a smaller depth. -/
def SeenLe (s1 s2 : List Nat → Option Int) : Prop :=
  ∀ key m, s1 key = some m → ∃ m2, s2 key = some m2 ∧ m2 ≤ m

/-- The CID `c` is recorded in the `seen` map at depth at most `k`. -/
def RecordedLe (s : List Nat → Option Int) (c : Cid) (k : Int) : Prop :=
  ∃ m, s c.Bytes = some m ∧ m ≤ k

/-- The CID `c` is closed in the `seen` map `s` for the bound `d`: if it is
recorded at a depth `m < d`, every link of its node is recorded at depth at
most `m + 1`. -/
def ClosedAt (DAG : Cid → Except Error Node) (d : Int) (s : List Nat → Option Int) (c : Cid) :
    Prop :=
  ∀ m, s c.Bytes = some m → m < d → ∀ nd, DAG c = .ok nd → ∀ l ∈ nd.Links,
    RecordedLe s l.Cid (m + 1)

/-- Every depth recorded in the `seen` map `s` is the length of a link path
from the root to the recorded CID. -/
def SoundFor (DAG : Cid → Except Error Node) (root : Node) (s : List Nat → Option Int) : Prop :=
  ∀ (c : Cid) (m : Int), s c.Bytes = some m → ∃ j : Nat, m = (j : Int) ∧ LinkPath DAG root c j

/-- The output channel holds the records of the edges written, and nothing
else: no error record was sent. -/
def OnlyEdgeRecords (str : Cid → GoString) (rw : RefWriter) : Prop :=
  rw.out = rw.edges.map (Edge.record str rw.PrintFmt)

/-- The error codes of `cmdkit` that the command sets. -/
inductive ErrorType where
  | ErrNormal
  | ErrClient
deriving DecidableEq

/-- A path `path.Path` of `go-path` (a string type). -/
abbrev Path := GoString

/-- The node `core.IpfsNode` as the command uses it: its DAG service, and
`core.Resolve` with its name system and resolver. -/
structure IpfsNode where
  DAG : Cid → Except Error Node
  Resolve : Path → Except Error Node

/-- The function `objectsForPaths`: parse and resolve every path in order; the
first error is returned and nothing else.  `ParsePath` is `path.ParsePath`. -/
def objectsForPaths (ParsePath : GoString → Except Error Path) (n : IpfsNode) :
    List GoString → Except Error (List Node)
  | [] => .ok []
  | sp :: paths =>
    match ParsePath sp with
    | .error err => .error err
    | .ok p =>
      match n.Resolve p with
      | .error err => .error err
      | .ok o =>
        match objectsForPaths ParsePath n paths with
        | .error err => .error err
        | .ok objects => .ok (o :: objects)

/-- The request as `RefsCmd.Run` reads it.  An option that was not supplied is
`none`; the options framework then hands the declared default to the command
(`"<dst>"` for `format`, `-1` for `max-depth`, `false` for the flags). -/
structure Request where
  Context : Context
  GetNode : Except Error IpfsNode
  unique : Bool
  recursive : Bool
  maxDepth : Option Int
  format : Option GoString
  edges : Bool
  Arguments : List GoString

/-- The function `RefsCmd.Run`: either `res.SetError(err, code)`, or
`res.SetOutput(out)` with the stream that the producer goroutine writes
(`none` when the fuel of the walk runs out). -/
def RefsCmd.Run (str : Cid → GoString) (ParsePath : GoString → Except Error Path) (fuel : Nat)
    (sendWins : Bool) (req : Request) : Except (Error × ErrorType) (Option RefWriter) :=
  let ctx := req.Context
  match req.GetNode with
  | .error err => .error (err, ErrorType.ErrNormal)
  | .ok n =>
    let unique := req.unique
    let recursive := req.recursive
    let maxDepth := req.maxDepth.getD (-1)
    let maxDepth := if !recursive then 1 else maxDepth
    let format := req.format.getD "<dst>".toList
    let edges := req.edges
    if edges = true ∧ format ≠ "<dst>".toList then
      .error ("using format argument with edges is not allowed".toList, ErrorType.ErrClient)
    else
      let format := if edges then "<src> -> <dst>".toList else format
      match objectsForPaths ParsePath n req.Arguments with
      | .error err => .error (err, ErrorType.ErrNormal)
      | .ok objs => .ok (stream str fuel sendWins ctx n.DAG unique format maxDepth objs)

namespace strings

/-- Go `strings.Join(segs, sep)`. -/
def Join (sep : GoString) : List GoString → GoString
  | [] => []
  | [seg] => seg
  | seg :: seg2 :: segs => seg ++ sep ++ Join sep (seg2 :: segs)

/-- Go `strings.Split(s, old)` for a non-empty `old`, with the fuel of
`replaceFrom`: the segments of `s` between the leftmost non-overlapping
occurrences of `old`. -/
def splitFrom (old : GoString) : Nat → GoString → List GoString
  | 0, s => [s]
  | _ + 1, [] => [[]]
  | n + 1, c :: cs =>
    if old.isPrefixOf (c :: cs) then [] :: splitFrom old n ((c :: cs).drop old.length)
    else
      match splitFrom old n cs with
      | [] => [[c]]
      | seg :: segs => (c :: seg) :: segs

end strings

/-- The multihash code `mh.ID` of the identity hash. -/
def mhID : Nat := 0

/-- The interface `cid.Format`.  A format is given by what it answers after
any sequence of `WithCodec` calls: `codecAfter cs` is the result of `GetCodec`
and `sumAfter cs data` the result of `Sum(data)` once `WithCodec` has been
called with the codecs `cs`, in this order. -/
structure Format where
  codecAfter : List Nat → Nat
  sumAfter : List Nat → List Nat → Except Error Cid

/-- The method `GetCodec` of a `cid.Format`. -/
def Format.GetCodec (f : Format) : Nat := f.codecAfter []

/-- The method `WithCodec` of a `cid.Format`. -/
def Format.WithCodec (f : Format) (c : Nat) : Format :=
  ⟨fun cs => f.codecAfter (c :: cs), fun cs => f.sumAfter (c :: cs)⟩

/-- The method `Sum` of a `cid.Format`. -/
def Format.Sum (f : Format) (data : List Nat) : Except Error Cid := f.sumAfter [] data

/-- The struct `Inliner`. -/
structure Inliner where
  base : Format
  limit : Int

/-- The method `Inliner.GetCodec`. -/
def Inliner.GetCodec (p : Inliner) : Nat := p.base.GetCodec

/-- The method `Inliner.WithCodec`. -/
def Inliner.WithCodec (p : Inliner) (c : Nat) : Inliner := ⟨p.base.WithCodec c, p.limit⟩

/-- The method `Inliner.Sum`.  `FormatV1Sum codec hashFun data` is
`cid.FormatV1{Codec: codec, HashFun: hashFun}.Sum(data)` of `go-cid`. -/
def Inliner.Sum (FormatV1Sum : Nat → Nat → List Nat → Except Error Cid) (p : Inliner)
    (data : List Nat) : Except Error Cid :=
  if (data.length : Int) > p.limit then p.base.Sum data
  else FormatV1Sum p.base.GetCodec mhID data

/-- The destinations of the written edges are exactly the CIDs in the `seen` map. -/
def WrittenIsSeen (rw : RefWriter) : Prop :=
  ∀ c : Cid, c ∈ rw.edges.map (fun e => e.dst) ↔ (rw.seen c.Bytes).isSome = true

/-- The CID `c` is closed in the `seen` map `s` of an unbounded walk: if it is
recorded, every link of its node is recorded. -/
def ClosedIn (DAG : Cid → Except Error Node) (s : List Nat → Option Int) (c : Cid) : Prop :=
  (s c.Bytes).isSome = true → ∀ nd, DAG c = .ok nd → ∀ l ∈ nd.Links,
    (s l.Cid.Bytes).isSome = true

/-- The outcome of `ng.Get(rw.Ctx)` in the loop of `writeRefsRecursive`, left
open.  The promises come from one `ipld.GetDAG(rw.Ctx, rw.DAG, n)` for all the
links of the node `n`, so what a promise delivers may depend on the context,
on the other links of the node and on what was sent before.  Node promises
give the node or the error that is delivered to the writer in its state at the
time of the call, for the node `n`, the position of the promise and its link. -/
abbrev NodePromises := RefWriter → Node → Nat → Link → Except Error Node

/-- The node promises that decide every fetch by the CID alone, through the
node source of the writer. -/
def NodePromises.lookup : NodePromises := fun rw _ _ l => rw.DAG l.Cid

/-- The loop of `writeRefsRecursive` over the links of the node `n` from
position `i` on, with the outcome of each `ng.Get(rw.Ctx)` given by `get`;
`recurse` is the recursive call. -/
def writeLinksVia (str : Cid → GoString) (get : NodePromises)
    (recurse : RefWriter → Node → Int → Option Result) (n : Node) (depth : Int) :
    Nat → List Link → Int → RefWriter → Option Result
  | _, [], count, rw => some ⟨count, none, rw⟩
  | i, l :: ls, count, rw =>
    match visitLink str rw n.Cid l depth with
    | (false, _, rw1) => writeLinksVia str get recurse n depth (i + 1) ls count rw1
    | (true, some err, rw2) => some ⟨count, some err, rw2⟩
    | (true, none, rw2) =>
      match get rw2 n i l with
      | .error err => some ⟨count, some err, rw2⟩
      | .ok nd =>
        match recurse rw2 nd (depth + 1) with
        | none => none
        | some r =>
          match r.err with
          | some err => some ⟨count + r.count, some err, r.rw⟩
          | none => writeLinksVia str get recurse n depth (i + 1) ls (count + r.count) r.rw

/-- The method `RefWriter.writeRefsRecursive` with the outcome of every fetch
given by `get`, and fuel for the nesting of recursive calls. -/
def RefWriter.writeRefsRecursiveVia (str : Cid → GoString) (get : NodePromises) :
    Nat → RefWriter → Node → Int → Option Result
  | 0, _, _, _ => none
  | fuel + 1, rw, n, depth =>
    writeLinksVia str get (RefWriter.writeRefsRecursiveVia str get fuel) n depth 0 n.Links 0 rw

/-- The method `RefWriter.WriteRefs` with the outcome of every fetch given by `get`. -/
def RefWriter.WriteRefsVia (str : Cid → GoString) (get : NodePromises) (fuel : Nat)
    (rw : RefWriter) (n : Node) : Option Result :=
  rw.writeRefsRecursiveVia str get fuel n 1

/-- The loop of the producer goroutine of `RefsCmd.Run` with the outcome of
every fetch given by `get`. -/
def produceVia (str : Cid → GoString) (get : NodePromises) (fuel : Nat) (sendWins : Bool)
    (ctx : Context) : RefWriter → List Node → Option RefWriter
  | rw, [] => some rw
  | rw, o :: os =>
    match rw.WriteRefsVia str get fuel o with
    | none => none
    | some r =>
      match r.err with
      | some err => some (sendError sendWins ctx r.rw err)
      | none => produceVia str get fuel sendWins ctx r.rw os

/-- The producer goroutine of `RefsCmd.Run` with the outcome of every fetch
given by `get`. -/
def streamVia (str : Cid → GoString) (get : NodePromises) (fuel : Nat) (sendWins : Bool)
    (ctx : Context) (DAG : Cid → Except Error Node) (unique : Bool) (format : GoString)
    (maxDepth : Int) (objs : List Node) : Option RefWriter :=
  produceVia str get fuel sendWins ctx (RefWriter.fresh DAG (some ctx) unique format maxDepth) objs

/-- The roots `objs` are traversed one after the other from writer `rw`, each
`WriteRefs` returning without error, and the writer ends as `rw2`; the outcome
of every fetch is given by `get`. -/
def TraversesVia (str : Cid → GoString) (get : NodePromises) (fuel : Nat) :
    RefWriter → List Node → RefWriter → Prop
  | rw, [], rw2 => rw2 = rw
  | rw, o :: os, rw2 =>
    ∃ r, rw.WriteRefsVia str get fuel o = some r ∧ r.err = none ∧
      TraversesVia str get fuel r.rw os rw2

/-- The context of the writer is `ctx`, and it is done: `e` is its error. -/
def DoneWith (rw : RefWriter) (ctx : Context) (e : Error) : Prop :=
  rw.Ctx = some ctx ∧ ctx.Err rw.out.length = some e

/-! ## Example graph of the specification scenarios -/

namespace Example

def R : Cid := ⟨[0]⟩
def X : Cid := ⟨[1]⟩
def Y : Cid := ⟨[2]⟩
def Z : Cid := ⟨[3]⟩

def nodeR : Node := ⟨R, [⟨"a".toList, X⟩, ⟨"b".toList, Y⟩]⟩
def nodeX : Node := ⟨X, [⟨"".toList, Y⟩]⟩
def nodeY : Node := ⟨Y, []⟩

def dag : Cid → Except Error Node := fun c =>
  if c = R then .ok nodeR else if c = X then .ok nodeX else if c = Y then .ok nodeY
  else .error "not found".toList

def str : Cid → GoString := fun c =>
  if c = R then "R".toList else if c = X then "X".toList else if c = Y then "Y".toList
  else if c = Z then "Z".toList else "?".toList

/-- The writer of the specification scenarios: fresh, edge format, unique. -/
def scenario (MaxDepth : Int) : RefWriter :=
  RefWriter.fresh dag none true "<src> -> <dst>".toList MaxDepth

/-- The source and destination of the edges written, in order. -/
def written (r : Option Result) : Option (List (Cid × Cid)) :=
  r.map (fun r => r.rw.edges.map (fun e => (e.src, e.dst)))

/-- The references sent to the output channel, in order. -/
def sent (r : Option Result) : Option (List String) :=
  r.map (fun r => r.rw.out.map (fun w => String.mk w.Ref))

/-- A root with two links to the same CID. -/
def twin : Node := ⟨R, [⟨"a".toList, X⟩, ⟨"b".toList, X⟩]⟩

/-- A root whose first link cannot be fetched (`Z` is not in the graph). -/
def broken : Node := ⟨R, [⟨"z".toList, Z⟩, ⟨"y".toList, Y⟩]⟩

/-- A request context that is never cancelled. -/
def background : Context := ⟨none, "context canceled".toList⟩

/-- A request context that is cancelled once one record has been sent. -/
def cancelled1 : Context := ⟨some 1, "context canceled".toList⟩

/-- A graph where `Y` is two and three links away from the root:
`R → X → Y` and `R → Z → X → Y`. -/
def deepR : Node := ⟨R, [⟨"x".toList, X⟩, ⟨"z".toList, Z⟩]⟩
def deepZ : Node := ⟨Z, [⟨"x".toList, X⟩]⟩

def deepDag : Cid → Except Error Node := fun c =>
  if c = R then .ok deepR else if c = X then .ok nodeX else if c = Y then .ok nodeY
  else if c = Z then .ok deepZ else .error "not found".toList

/-- The error and the recorded depth of `c` after a run. -/
def recorded (c : Cid) (r : Option Result) : Option (Option Error × Option Int) :=
  r.map (fun r => (r.err, r.rw.seen c.Bytes))

/-- The fresh writer of a non-unique unbounded run on the scenario graph with
a context that is never cancelled. -/
def plain : RefWriter := RefWriter.fresh dag (some background) false [] (-1)

/-- A cyclic graph: `R → X`, `X → R` and the self-loop `X → X`. -/
def loopR : Node := ⟨R, [⟨"x".toList, X⟩]⟩
def loopX : Node := ⟨X, [⟨"r".toList, R⟩, ⟨"x".toList, X⟩]⟩

def loopDag : Cid → Except Error Node := fun c =>
  if c = R then .ok loopR else if c = X then .ok loopX else .error "not found".toList

/-- A path parser that rejects the path `bad`. -/
def parse : GoString → Except Error Path := fun sp =>
  if sp = "bad".toList then .error "invalid path".toList else .ok sp

/-- A node over the scenario graph that resolves the paths `/ipfs/R` and
`/ipfs/X`. -/
def ipfsNode : IpfsNode :=
  ⟨dag, fun p =>
    if p = "/ipfs/R".toList then .ok nodeR
    else if p = "/ipfs/X".toList then .ok nodeX
    else .error "no link named".toList⟩

/-- A request with default options for the given paths. -/
def request (paths : List GoString) : Request :=
  { Context := background, GetNode := .ok ipfsNode, unique := false, recursive := false,
    maxDepth := none, format := none, edges := false, Arguments := paths }

/-- A request context that is already cancelled. -/
def cancelled0 : Context := ⟨some 0, "context canceled".toList⟩

/-- An unbounded unique writer that has recorded `X` at depth 5. -/
def seenX5 : RefWriter :=
  { RefWriter.fresh dag none true [] (-1) with
    seen := Function.update (fun _ => none) X.Bytes (some 5) }

/-- A writer with the template `<linkname>: <dst>`. -/
def named : RefWriter := RefWriter.fresh dag none false "<linkname>: <dst>".toList (-1)

/-- A base format: its codec is the last one set by `WithCodec` (112 at first)
and its `Sum` puts the codec and the hash code 18 in front of the data. -/
def hashed : Format :=
  ⟨fun cs => cs.getLastD 112, fun cs data => .ok ⟨cs.getLastD 112 :: 18 :: data⟩⟩

/-- A stand-in for `cid.FormatV1{Codec, HashFun}.Sum`: the codec and the hash
code in front of the data. -/
def formatV1Sum : Nat → Nat → List Nat → Except Error Cid :=
  fun codec hashFun data => .ok ⟨codec :: hashFun :: data⟩

/-- An inliner over `hashed` with the limit 2. -/
def inliner : Inliner := ⟨hashed, 2⟩

/-- A graph where the node of `X` links to `Z`, which cannot be fetched:
`R → X → Z` and `R → Y`. -/
def holeX : Node := ⟨X, [⟨"z".toList, Z⟩]⟩

def holeDag : Cid → Except Error Node := fun c =>
  if c = R then .ok nodeR else if c = X then .ok holeX else if c = Y then .ok nodeY
  else .error "not found".toList

/-- A root whose second link cannot be fetched. -/
def late : Node := ⟨R, [⟨"y".toList, Y⟩, ⟨"z".toList, Z⟩]⟩

/-- Node promises of a batch that fails as a whole: if some link of the node
cannot be fetched, every promise of the batch delivers that error. -/
def batch : NodePromises := fun rw n _ l =>
  match n.Links.filterMap
      (fun k => match rw.DAG k.Cid with
        | .error e => some e
        | .ok _ => none) with
  | e :: _ => .error e
  | [] => rw.DAG l.Cid

/-- The references and errors sent to the output channel, in order. -/
def records (rw : Option RefWriter) : Option (List (String × String)) :=
  rw.map (fun w => w.out.map (fun x => (String.mk x.Ref, String.mk x.Err)))

/-- The fresh writer of a non-unique unbounded run on `holeDag` with a context
that is never cancelled. -/
def holed : RefWriter := RefWriter.fresh holeDag (some background) false [] (-1)

/-- The error returned by a call and the records sent so far, in order. -/
def outcome (r : Option Result) : Option (Option String × List (String × String)) :=
  r.map (fun r => (r.err.map String.mk,
    r.rw.out.map (fun x => (String.mk x.Ref, String.mk x.Err))))

/-- The fresh writer of a non-unique unbounded run on the scenario graph with
a context that is already cancelled. -/
def stopped : RefWriter := RefWriter.fresh dag (some cancelled0) false [] (-1)

/-- The fresh writer of a non-unique unbounded run on the scenario graph with
a context that is cancelled once one record has been sent. -/
def stopping : RefWriter := RefWriter.fresh dag (some cancelled1) false [] (-1)

end Example

/-! ## Theorems -/

/-- A CID is determined by its byte form. -/
theorem Cid.eq_of_bytes {a b : Cid} (h : a.Bytes = b.Bytes) : a = b := by
  cases a; cases b; simp_all

/-- Inversion of one iteration of the loop of `writeRefsRecursive`. -/
theorem writeLinks_cons_some {str : Cid → GoString}
    {recurse : RefWriter → Node → Int → Option Result} {nc : Cid} {depth : Int} {l : Link}
    {ls : List Link} {count : Int} {rw : RefWriter} {r : Result}
    (h : writeLinks str recurse nc depth (l :: ls) count rw = some r) :
    ((visitLink str rw nc l depth).1 = false ∧
        writeLinks str recurse nc depth ls count (visitLink str rw nc l depth).2.2 = some r) ∨
    ((visitLink str rw nc l depth).1 = true ∧ ∃ err,
        (visitLink str rw nc l depth).2.1 = some err ∧
        r = ⟨count, some err, (visitLink str rw nc l depth).2.2⟩) ∨
    ((visitLink str rw nc l depth).1 = true ∧ (visitLink str rw nc l depth).2.1 = none ∧
      ∃ err, (visitLink str rw nc l depth).2.2.DAG l.Cid = .error err ∧
        r = ⟨count, some err, (visitLink str rw nc l depth).2.2⟩) ∨
    ((visitLink str rw nc l depth).1 = true ∧ (visitLink str rw nc l depth).2.1 = none ∧
      ∃ nd r1, (visitLink str rw nc l depth).2.2.DAG l.Cid = .ok nd ∧
        recurse (visitLink str rw nc l depth).2.2 nd (depth + 1) = some r1 ∧
        ((∃ err, r1.err = some err ∧ r = ⟨count + r1.count, some err, r1.rw⟩) ∨
         (r1.err = none ∧
            writeLinks str recurse nc depth ls (count + r1.count) r1.rw = some r))) := by
  rw [writeLinks] at h
  rcases hv : visitLink str rw nc l depth with ⟨kg, e, rw2⟩
  rw [hv] at h
  cases kg with
  | false => left; exact ⟨rfl, h⟩
  | true =>
    right
    cases e with
    | some err =>
      left
      simp only [Option.some.injEq] at h
      exact ⟨rfl, err, rfl, h.symm⟩
    | none =>
      right
      simp only at h
      cases hd : rw2.DAG l.Cid with
      | error err =>
        left
        rw [hd] at h
        simp only [Option.some.injEq] at h
        exact ⟨rfl, rfl, err, rfl, h.symm⟩
      | ok nd =>
        right
        rw [hd] at h
        simp only at h
        cases hr : recurse rw2 nd (depth + 1) with
        | none => rw [hr] at h; simp at h
        | some r1 =>
          rw [hr] at h
          simp only at h
          refine ⟨rfl, rfl, nd, r1, rfl, hr, ?_⟩
          cases he : r1.err with
          | some err =>
            left
            rw [he] at h
            simp only [Option.some.injEq] at h
            exact ⟨err, rfl, h.symm⟩
          | none =>
            right
            rw [he] at h
            exact ⟨rfl, h⟩

/-- Relational induction principle: a reflexive and transitive relation on
writers that holds across every single link step at depth at least `depth0`
holds across every call of `writeRefsRecursive` at depth at least `depth0`. -/
theorem writeRefsRecursive_rel (str : Cid → GoString) (P : RefWriter → RefWriter → Prop)
    (depth0 : Int) (hrefl : ∀ rw, P rw rw)
    (htrans : ∀ a b c, P a b → P b c → P a c)
    (hstep : ∀ rw nc l k, depth0 ≤ k → P rw (visitLink str rw nc l k).2.2) :
    ∀ (fuel : Nat) (rw : RefWriter) (n : Node) (depth : Int) (r : Result),
      depth0 ≤ depth → rw.writeRefsRecursive str fuel n depth = some r → P rw r.rw := by
  intro fuel
  induction fuel with
  | zero => intro rw n depth r _ h; simp [RefWriter.writeRefsRecursive] at h
  | succ fuel ih =>
    intro rw n depth r hd h
    rw [RefWriter.writeRefsRecursive] at h
    generalize n.Links = ls at h
    generalize (0 : Int) = count at h
    induction ls generalizing rw count with
    | nil =>
      simp only [writeLinks, Option.some.injEq] at h
      subst h
      exact hrefl rw
    | cons l ls ihl =>
      have hs := hstep rw n.Cid l depth hd
      rcases writeLinks_cons_some h with ⟨_, h1⟩ | ⟨_, err, _, h1⟩ | ⟨_, _, err, _, h1⟩ |
        ⟨_, _, nd, r1, _, hr, h1⟩
      · exact htrans _ _ _ hs (ihl _ _ h1)
      · subst h1; exact hs
      · subst h1; exact hs
      · have h2 := ih _ nd (depth + 1) r1 (by omega) hr
        rcases h1 with ⟨err, _, h1⟩ | ⟨_, h1⟩
        · subst h1; exact htrans _ _ _ hs h2
        · exact htrans _ _ _ hs (htrans _ _ _ h2 (ihl _ _ h1))

theorem sameConfig_refl (a : RefWriter) : SameConfig a a := ⟨rfl, rfl, rfl, rfl, rfl⟩

theorem sameConfig_trans {a b c : RefWriter} (h1 : SameConfig a b) (h2 : SameConfig b c) :
    SameConfig a c := by
  obtain ⟨h11, h12, h13, h14, h15⟩ := h1
  obtain ⟨h21, h22, h23, h24, h25⟩ := h2
  exact ⟨h21.trans h11, h22.trans h12, h23.trans h13, h24.trans h14, h25.trans h15⟩

/-- The method `visit` changes nothing but the `seen` map. -/
theorem visit_frame (rw : RefWriter) (c : Cid) (depth : Int) :
    SameConfig rw (rw.visit c depth).2 ∧ (rw.visit c depth).2.out = rw.out ∧
      (rw.visit c depth).2.edges = rw.edges := by
  unfold RefWriter.visit
  simp only
  split_ifs <;> exact ⟨sameConfig_refl _, rfl, rfl⟩

/-- The method `visit` never asks to explore past a configured bound. -/
theorem visit_keepGoing_le (rw : RefWriter) (c : Cid) (depth : Int)
    (h : (rw.visit c depth).1.1 = true) (hm : 0 ≤ rw.MaxDepth) : depth ≤ rw.MaxDepth := by
  unfold RefWriter.visit at h
  simp only at h
  split_ifs at h with h1 <;> (by_contra hc; exact h1 ⟨hm, by omega⟩)

/-- The method `WriteEdge` either fails and changes nothing, or sends one record. -/
theorem WriteEdge_cases (str : Cid → GoString) (rw : RefWriter) (src dst : Cid)
    (name : GoString) :
    (∃ err, rw.WriteEdge str src dst name = (some err, rw) ∧
        rw.Ctx.bind (fun ctx => ctx.Err rw.out.length) = some err) ∨
    (rw.WriteEdge str src dst name =
        (none, { rw with out := rw.out ++ [⟨render str rw.PrintFmt src dst name, []⟩] }) ∧
      rw.Ctx.bind (fun ctx => ctx.Err rw.out.length) = none) := by
  unfold RefWriter.WriteEdge
  cases h : rw.Ctx.bind (fun ctx => ctx.Err rw.out.length) with
  | none => right; exact ⟨rfl, rfl⟩
  | some err => left; exact ⟨err, rfl, rfl⟩

/-- The possible outcomes of one link step. -/
theorem visitLink_cases (str : Cid → GoString) (rw : RefWriter) (nc : Cid) (l : Link)
    (depth : Int) :
    ((rw.visit l.Cid depth).1.1 = false ∧
        visitLink str rw nc l depth = (false, none, (rw.visit l.Cid depth).2)) ∨
    ((rw.visit l.Cid depth).1.1 = true ∧
        ((rw.visit l.Cid depth).1.2 = false ∨ rw.Unique = false) ∧
        ∃ err, (rw.visit l.Cid depth).2.Ctx.bind
            (fun ctx => ctx.Err (rw.visit l.Cid depth).2.out.length) = some err ∧
          visitLink str rw nc l depth = (true, some err, (rw.visit l.Cid depth).2)) ∨
    ((rw.visit l.Cid depth).1.1 = true ∧
        ((rw.visit l.Cid depth).1.2 = false ∨ rw.Unique = false) ∧
        (rw.visit l.Cid depth).2.Ctx.bind
            (fun ctx => ctx.Err (rw.visit l.Cid depth).2.out.length) = none ∧
        visitLink str rw nc l depth = (true, none,
          { (rw.visit l.Cid depth).2 with
            out := rw.out ++ [⟨render str rw.PrintFmt nc l.Cid l.Name, []⟩]
            edges := rw.edges ++ [⟨nc, l.Cid, l.Name, depth⟩] })) ∨
    ((rw.visit l.Cid depth).1.1 = true ∧ (rw.visit l.Cid depth).1.2 = true ∧
        rw.Unique = true ∧
        visitLink str rw nc l depth = (true, none, (rw.visit l.Cid depth).2)) := by
  obtain ⟨⟨hD, hC, hU, hM, hF⟩, hout, hedges⟩ := visit_frame rw l.Cid depth
  unfold visitLink
  simp only
  cases hk : (rw.visit l.Cid depth).1.1 with
  | false => left; simp
  | true =>
    right
    simp only [Bool.not_true, Bool.false_eq_true, if_false]
    by_cases hw : (!(rw.visit l.Cid depth).1.2 ||
        (rw.visit l.Cid depth).1.2 && !(rw.visit l.Cid depth).2.Unique) = true
    · rw [if_pos hw]
      have hw2 : (rw.visit l.Cid depth).1.2 = false ∨ rw.Unique = false := by
        rw [hU] at hw
        cases h1 : (rw.visit l.Cid depth).1.2 <;> cases h2 : rw.Unique <;> simp_all
      rcases WriteEdge_cases str (rw.visit l.Cid depth).2 nc l.Cid l.Name with
        ⟨err, he, hc⟩ | ⟨he, hc⟩
      · left
        rw [he]
        exact ⟨trivial, hw2, err, hc, rfl⟩
      · right; left
        rw [he]
        refine ⟨trivial, hw2, hc, ?_⟩
        simp only [hout, hedges, hF]
    · rw [if_neg hw]
      right; right
      rw [hU] at hw
      cases h1 : (rw.visit l.Cid depth).1.2 <;> cases h2 : rw.Unique <;> simp_all

theorem extends_refl (str : Cid → GoString) (lo : Int) (a : RefWriter) :
    Extends str lo a a :=
  ⟨sameConfig_refl a, [], by simp, by simp, by simp⟩

theorem extends_trans {str : Cid → GoString} {lo : Int} {a b c : RefWriter}
    (h1 : Extends str lo a b) (h2 : Extends str lo b c) : Extends str lo a c := by
  obtain ⟨hc1, new1, he1, ho1, hd1⟩ := h1
  obtain ⟨hc2, new2, he2, ho2, hd2⟩ := h2
  obtain ⟨_, _, _, hM, hF⟩ := hc1
  refine ⟨sameConfig_trans ⟨by assumption, by assumption, by assumption, hM, hF⟩ hc2,
    new1 ++ new2, ?_, ?_, ?_⟩
  · rw [he2, he1, List.append_assoc]
  · rw [ho2, ho1, hF, List.map_append, List.append_assoc]
  · intro e he
    rcases List.mem_append.1 he with h | h
    · exact hd1 e h
    · have := hd2 e h
      rw [hM] at this
      exact this

/-- One link step writes at most one edge, at the depth of the call and within
the configured bound. -/
theorem visitLink_extends (str : Cid → GoString) (rw : RefWriter) (nc : Cid) (l : Link)
    (k : Int) : Extends str k rw (visitLink str rw nc l k).2.2 := by
  obtain ⟨hcfg, hout, hedges⟩ := visit_frame rw l.Cid k
  rcases visitLink_cases str rw nc l k with ⟨_, h⟩ | ⟨_, _, err, _, h⟩ | ⟨hk, _, _, h⟩ |
    ⟨_, _, _, h⟩
  · rw [h]; exact ⟨hcfg, [], by simp [hedges], by simp [hout], by simp⟩
  · rw [h]; exact ⟨hcfg, [], by simp [hedges], by simp [hout], by simp⟩
  · rw [h]
    refine ⟨hcfg, [⟨nc, l.Cid, l.Name, k⟩], rfl, rfl, ?_⟩
    intro e he
    rw [List.mem_singleton] at he
    subst he
    exact ⟨le_refl _, fun hm => visit_keepGoing_le rw l.Cid k hk hm⟩
  · rw [h]; exact ⟨hcfg, [], by simp [hedges], by simp [hout], by simp⟩

/-- Every call of `writeRefsRecursive` at depth `depth` only appends to the
output, and the edges it writes are written at depths between `depth` and the
configured bound. -/
theorem writeRefsRecursive_extends (str : Cid → GoString) (fuel : Nat) (rw : RefWriter)
    (n : Node) (depth : Int) (r : Result)
    (h : rw.writeRefsRecursive str fuel n depth = some r) : Extends str depth rw r.rw := by
  refine writeRefsRecursive_rel str (Extends str depth) depth (extends_refl str depth)
    (fun a b c h1 h2 => extends_trans h1 h2) ?_ fuel rw n depth r (le_refl _) h
  intro rw nc l k hk
  obtain ⟨hc, new, he, ho, hd⟩ := visitLink_extends str rw nc l k
  exact ⟨hc, new, he, ho, fun e hmem => ⟨le_trans hk (hd e hmem).1, (hd e hmem).2⟩⟩

/-- Progress of the loop: if an invariant `I` of the writer is kept by every
link step, and every recursive call the loop makes from a writer satisfying `I`
returns with `I` again, then the loop returns, with `I`. -/
theorem writeLinks_terminates (str : Cid → GoString)
    (recurse : RefWriter → Node → Int → Option Result) (nc : Cid) (depth : Int)
    (I : RefWriter → Prop) (ls : List Link)
    (hstep : ∀ rw l, l ∈ ls → I rw → I (visitLink str rw nc l depth).2.2)
    (hrec : ∀ rw l nd, l ∈ ls → I rw → (visitLink str rw nc l depth).1 = true →
      (visitLink str rw nc l depth).2.1 = none →
      (visitLink str rw nc l depth).2.2.DAG l.Cid = .ok nd →
      ∃ r1, recurse (visitLink str rw nc l depth).2.2 nd (depth + 1) = some r1 ∧ I r1.rw) :
    ∀ (count : Int) (rw : RefWriter), I rw →
      ∃ r, writeLinks str recurse nc depth ls count rw = some r ∧ I r.rw := by
  induction ls with
  | nil => intro count rw hI; exact ⟨_, rfl, hI⟩
  | cons l ls ih =>
    have ih2 := ih (fun rw l1 hl => hstep rw l1 (List.mem_cons_of_mem _ hl))
      (fun rw l1 nd hl => hrec rw l1 nd (List.mem_cons_of_mem _ hl))
    intro count rw hI
    have hs := hstep rw l (List.mem_cons_self _ _) hI
    have hr := hrec rw l
    rw [writeLinks]
    rcases hv : visitLink str rw nc l depth with ⟨kg, e, rw2⟩
    rw [hv] at hs hr
    cases kg with
    | false => exact ih2 count rw2 hs
    | true =>
      cases e with
      | some err => exact ⟨_, rfl, hs⟩
      | none =>
        simp only
        cases hd : rw2.DAG l.Cid with
        | error err => exact ⟨_, rfl, hs⟩
        | ok nd =>
          obtain ⟨r1, hr1, hI1⟩ := hr nd (List.mem_cons_self _ _) hI rfl rfl hd
          simp only at hr1
          simp only [hr1]
          cases he : r1.err with
          | some err => exact ⟨_, rfl, hI1⟩
          | none => exact ih2 _ r1.rw hI1

/-- With a configured bound, `writeRefsRecursive` returns: the nesting of the
recursion is bounded by the remaining depth. -/
theorem writeRefsRecursive_bounded_terminates (str : Cid → GoString) :
    ∀ (fuel : Nat) (rw : RefWriter) (n : Node) (depth : Int),
      0 ≤ rw.MaxDepth → 1 ≤ fuel → rw.MaxDepth + 2 ≤ fuel + depth →
      ∃ r, rw.writeRefsRecursive str fuel n depth = some r := by
  intro fuel
  induction fuel with
  | zero => intro rw n depth _ h; omega
  | succ fuel ih =>
    intro rw n depth hm _ hf
    rw [RefWriter.writeRefsRecursive]
    obtain ⟨r, hr, _⟩ := writeLinks_terminates str
      (RefWriter.writeRefsRecursive str fuel) n.Cid depth
      (fun rw1 => SameConfig rw rw1) n.Links
      (fun rw1 l _ hI => sameConfig_trans hI (visitLink_extends str rw1 n.Cid l depth).1)
      (by
        intro rw1 l nd _ hI hk _ _
        have hc := sameConfig_trans hI (visitLink_extends str rw1 n.Cid l depth).1
        have hM1 : rw1.MaxDepth = rw.MaxDepth := hI.2.2.2.1
        have hM2 := hc.2.2.2.1
        have hle : depth ≤ rw1.MaxDepth := by
          rcases visitLink_cases str rw1 n.Cid l depth with ⟨_, h⟩ | ⟨hk1, _⟩ | ⟨hk1, _⟩ |
            ⟨hk1, _⟩
          · rw [h] at hk; simp at hk
          all_goals exact visit_keepGoing_le rw1 l.Cid depth hk1 (by omega)
        obtain ⟨r1, hr1⟩ := ih (visitLink str rw1 n.Cid l depth).2.2 nd (depth + 1)
          (by omega) (by omega) (by push_cast at hf ⊢; omega)
        exact ⟨r1, hr1, sameConfig_trans hc (writeRefsRecursive_extends str _ _ _ _ _ hr1).1⟩)
      0 rw (sameConfig_refl rw)
    exact ⟨r, hr⟩

/-- **C1** Depth bound.  For every graph, root `n`, writer state (either
setting of `Unique`) and configured bound `MaxDepth = d ≥ 0`, `WriteRefs`
returns (any fuel above `d` is enough), and every record it sends is the
record of an edge written by a call of `writeRefsRecursive` at a depth between
`1` (the direct links of the root) and `d`; with `d = 0` nothing is sent. -/
theorem C1_depth_bound (str : Cid → GoString) (rw : RefWriter) (n : Node) (d : Int)
    (hd : 0 ≤ d) (hmax : rw.MaxDepth = d) :
    (∀ fuel : Nat, d.toNat + 1 ≤ fuel → ∃ r, rw.WriteRefs str fuel n = some r) ∧
    (∀ (fuel : Nat) (r : Result), rw.WriteRefs str fuel n = some r →
      ∃ new : List Edge, r.rw.edges = rw.edges ++ new ∧
        r.rw.out = rw.out ++ new.map (Edge.record str rw.PrintFmt) ∧
        (∀ e ∈ new, 1 ≤ e.depth ∧ e.depth ≤ d) ∧ (d = 0 → new = [])) := by
  constructor
  · intro fuel hf
    exact writeRefsRecursive_bounded_terminates str fuel rw n 1 (by omega) (by omega)
      (by rw [hmax]; omega)
  · intro fuel r h
    obtain ⟨-, new, he, ho, hb⟩ := writeRefsRecursive_extends str fuel rw n 1 r h
    have hb2 : ∀ e ∈ new, 1 ≤ e.depth ∧ e.depth ≤ d := fun e hmem =>
      ⟨(hb e hmem).1, hmax ▸ (hb e hmem).2 (by omega)⟩
    refine ⟨new, he, ho, hb2, ?_⟩
    intro h0
    cases new with
    | nil => rfl
    | cons e es =>
      have := hb2 e (List.mem_cons_self _ _)
      omega

/-- Witness of C1 on the scenario graph with `MaxDepth = 1`. -/
theorem C1_depth_bound_witness :
    (∀ fuel : Nat, (1 : Int).toNat + 1 ≤ fuel → ∃ r,
      (RefWriter.fresh Example.dag none true [] 1).WriteRefs Example.str fuel Example.nodeR
        = some r) ∧
    (∀ (fuel : Nat) (r : Result),
      (RefWriter.fresh Example.dag none true [] 1).WriteRefs Example.str fuel Example.nodeR
        = some r →
      ∃ new : List Edge,
        r.rw.edges = (RefWriter.fresh Example.dag none true [] 1).edges ++ new ∧
        r.rw.out = (RefWriter.fresh Example.dag none true [] 1).out ++
          new.map (Edge.record Example.str (RefWriter.fresh Example.dag none true [] 1).PrintFmt) ∧
        (∀ e ∈ new, 1 ≤ e.depth ∧ e.depth ≤ 1) ∧ ((1 : Int) = 0 → new = [])) :=
  C1_depth_bound Example.str (RefWriter.fresh Example.dag none true [] 1) Example.nodeR 1
    (by decide) rfl

/-- The method `visit` never removes a CID from the `seen` map. -/
theorem visit_seenGrows (rw : RefWriter) (c : Cid) (depth : Int) :
    SeenGrows rw (rw.visit c depth).2 := by
  intro key hk
  unfold RefWriter.visit
  simp only
  split_ifs
  · exact hk
  · exact hk
  · simp only [Function.update_apply]
    split_ifs
    · simp
    · exact hk
  · exact hk

/-- The state after one link step is the state after `visit`, up to the
output channel and the ghost log. -/
theorem visitLink_seen (str : Cid → GoString) (rw : RefWriter) (nc : Cid) (l : Link)
    (depth : Int) : (visitLink str rw nc l depth).2.2.seen = (rw.visit l.Cid depth).2.seen := by
  rcases visitLink_cases str rw nc l depth with ⟨_, h⟩ | ⟨_, _, err, _, h⟩ | ⟨_, _, _, h⟩ |
    ⟨_, _, _, h⟩ <;> rw [h]

theorem visitLink_seenGrows (str : Cid → GoString) (rw : RefWriter) (nc : Cid) (l : Link)
    (depth : Int) : SeenGrows rw (visitLink str rw nc l depth).2.2 := by
  intro key hk
  rw [visitLink_seen]
  exact visit_seenGrows rw l.Cid depth key hk

/-- The `seen` map never loses a CID during a call of `writeRefsRecursive`. -/
theorem writeRefsRecursive_seenGrows (str : Cid → GoString) (fuel : Nat) (rw : RefWriter)
    (n : Node) (depth : Int) (r : Result)
    (h : rw.writeRefsRecursive str fuel n depth = some r) : SeenGrows rw r.rw :=
  writeRefsRecursive_rel str SeenGrows depth (fun _ _ hk => hk)
    (fun _ _ _ h1 h2 key hk => h2 key (h1 key hk))
    (fun rw nc l k _ => visitLink_seenGrows str rw nc l k) fuel rw n depth r (le_refl _) h

theorem unseen_mono {a b : RefWriter} (h : SeenGrows a b) (V : List Cid) :
    unseen b V ≤ unseen a V := by
  unfold unseen
  apply Finset.card_le_card
  intro c hc
  simp only [Finset.mem_filter, List.mem_toFinset] at hc ⊢
  refine ⟨hc.1, ?_⟩
  by_contra hn
  exact h _ hn hc.2

/-- In unique unbounded mode, a link step that asks to explore has just added
a new CID to the `seen` map. -/
theorem visitLink_unseen_lt (str : Cid → GoString) (rw : RefWriter) (nc : Cid) (l : Link)
    (depth : Int) (V : List Cid) (hU : rw.Unique = true) (hM : rw.MaxDepth < 0)
    (hl : l.Cid ∈ V) (hk : (visitLink str rw nc l depth).1 = true) :
    unseen (visitLink str rw nc l depth).2.2 V < unseen rw V := by
  have hnew : rw.seen l.Cid.Bytes = none ∧ (rw.visit l.Cid depth).2.seen l.Cid.Bytes ≠ none := by
    have hk1 : (rw.visit l.Cid depth).1.1 = true := by
      rcases visitLink_cases str rw nc l depth with ⟨_, h⟩ | ⟨h, _⟩ | ⟨h, _⟩ | ⟨h, _⟩
      · rw [h] at hk; simp at hk
      all_goals exact h
    unfold RefWriter.visit at hk1 ⊢
    simp only at hk1 ⊢
    split_ifs at hk1 ⊢ with h1 h2 h3
    · simp [hU] at hk1
    · have hnone : rw.seen l.Cid.Bytes = none := by
        cases hs : rw.seen l.Cid.Bytes with
        | none => rfl
        | some v => exact absurd ⟨by simp [hs], hM⟩ h2
      exact ⟨hnone, by simp⟩
    · simp [hU] at hk1
  unfold unseen
  apply Finset.card_lt_card
  rw [Finset.ssubset_iff_of_subset]
  · refine ⟨l.Cid, ?_, ?_⟩
    · simp only [Finset.mem_filter, List.mem_toFinset]
      exact ⟨hl, hnew.1⟩
    · simp only [Finset.mem_filter, List.mem_toFinset, not_and]
      intro _
      rw [visitLink_seen]
      exact hnew.2
  · intro c hc
    simp only [Finset.mem_filter, List.mem_toFinset] at hc ⊢
    refine ⟨hc.1, ?_⟩
    by_contra hn
    exact visitLink_seenGrows str rw nc l depth _ hn hc.2

/-- In unique unbounded mode on a finite graph, `writeRefsRecursive` returns as
soon as the fuel exceeds the number of CIDs not yet seen. -/
theorem writeRefsRecursive_unique_terminates (str : Cid → GoString) (V : List Cid) :
    ∀ (fuel : Nat) (rw : RefWriter) (n : Node) (depth : Int),
      rw.Unique = true → rw.MaxDepth < 0 → ClosedUnder rw.DAG V →
      (∀ l ∈ n.Links, l.Cid ∈ V) → unseen rw V < fuel →
      ∃ r, rw.writeRefsRecursive str fuel n depth = some r := by
  intro fuel
  induction fuel with
  | zero => intro rw n depth _ _ _ _ h; omega
  | succ fuel ih =>
    intro rw n depth hU hM hV hn hf
    rw [RefWriter.writeRefsRecursive]
    obtain ⟨r, hr, _⟩ := writeLinks_terminates str
      (RefWriter.writeRefsRecursive str fuel) n.Cid depth
      (fun rw1 => SameConfig rw rw1 ∧ SeenGrows rw rw1) n.Links
      (fun rw1 l _ hI => ⟨sameConfig_trans hI.1 (visitLink_extends str rw1 n.Cid l depth).1,
        fun key hk => visitLink_seenGrows str rw1 n.Cid l depth key (hI.2 key hk)⟩)
      (by
        intro rw1 l nd hl hI hk _ hd
        obtain ⟨hD1, _, hU1, hM1, _⟩ := hI.1
        have hc := sameConfig_trans hI.1 (visitLink_extends str rw1 n.Cid l depth).1
        have hD2 := hc.1
        have hU2 := hc.2.2.1
        have hM2 := hc.2.2.2.1
        have hlt := visitLink_unseen_lt str rw1 n.Cid l depth V (hU1.trans hU)
          (by rw [hM1]; exact hM) (hn l hl) hk
        have hle := unseen_mono hI.2 V
        obtain ⟨r1, hr1⟩ := ih (visitLink str rw1 n.Cid l depth).2.2 nd (depth + 1)
          (hU2.trans hU) (by rw [hM2]; exact hM) (by rw [hD2]; exact hV)
          (hV l.Cid (hn l hl) nd (by rw [← hD2]; exact hd)) (by omega)
        refine ⟨r1, hr1, sameConfig_trans hc (writeRefsRecursive_extends str _ _ _ _ _ hr1).1, ?_⟩
        intro key hkey
        exact writeRefsRecursive_seenGrows str _ _ _ _ _ hr1 key
          (visitLink_seenGrows str rw1 n.Cid l depth key (hI.2 key hkey)))
      0 rw ⟨sameConfig_refl rw, fun _ hk => hk⟩
    exact ⟨r, hr⟩

/-- **C2** Termination.  On every finite graph (the CIDs `V` closed under
links; cycles and self-loops allowed), for every writer state with
`Unique = true` and every `MaxDepth` (negative or not), `WriteRefs` returns:
there is an amount of fuel from which on the recursion of
`writeRefsRecursive` always reaches its end.  Node fetches always return (with
a node or an error) in this model. -/
theorem C2_unique_terminates (str : Cid → GoString) (rw : RefWriter) (n : Node)
    (V : List Cid) (hU : rw.Unique = true) (hV : ClosedUnder rw.DAG V)
    (hn : ∀ l ∈ n.Links, l.Cid ∈ V) :
    ∃ fuel0 : Nat, ∀ fuel : Nat, fuel0 ≤ fuel → ∃ r, rw.WriteRefs str fuel n = some r := by
  by_cases hM : rw.MaxDepth < 0
  · refine ⟨unseen rw V + 1, fun fuel hf => ?_⟩
    exact writeRefsRecursive_unique_terminates str V fuel rw n 1 hU hM hV hn (by omega)
  · refine ⟨rw.MaxDepth.toNat + 1, fun fuel hf => ?_⟩
    exact writeRefsRecursive_bounded_terminates str fuel rw n 1 (by omega) (by omega) (by omega)

theorem Example.loopDag_closed : ClosedUnder Example.loopDag [Example.R, Example.X] := by
  intro c hc nd h l hl
  simp only [List.mem_cons, List.mem_singleton, List.not_mem_nil, or_false] at hc
  rcases hc with rfl | rfl
  · have : nd = Example.loopR := by
      simpa [Example.loopDag] using h.symm
    subst this
    simp only [Example.loopR, List.mem_singleton] at hl
    subst hl
    decide
  · have : nd = Example.loopX := by
      have h2 : Example.loopDag Example.X = .ok Example.loopX := rfl
      rw [h2] at h
      exact (Except.ok.inj h).symm
    subst this
    simp only [Example.loopX, List.mem_cons, List.mem_singleton, List.not_mem_nil,
      or_false] at hl
    rcases hl with rfl | rfl <;> decide

/-- Witness of C2 on a graph with a cycle and a self-loop, unbounded depth. -/
theorem C2_unique_terminates_witness :
    ∃ fuel0 : Nat, ∀ fuel : Nat, fuel0 ≤ fuel → ∃ r,
      (RefWriter.fresh Example.loopDag none true [] (-1)).WriteRefs Example.str fuel
        Example.loopR = some r :=
  C2_unique_terminates Example.str (RefWriter.fresh Example.loopDag none true [] (-1))
    Example.loopR [Example.R, Example.X] rfl Example.loopDag_closed
    (by intro l hl
        simp only [Example.loopR, List.mem_singleton] at hl
        subst hl
        decide)

/-- The loop returns the same result when the recursive call is replaced by
one that returns at least as often. -/
theorem writeLinks_mono {str : Cid → GoString}
    {rec1 rec2 : RefWriter → Node → Int → Option Result} {nc : Cid} {depth : Int}
    (hrec : ∀ rw nd d r, rec1 rw nd d = some r → rec2 rw nd d = some r) :
    ∀ (ls : List Link) (count : Int) (rw : RefWriter) (r : Result),
      writeLinks str rec1 nc depth ls count rw = some r →
      writeLinks str rec2 nc depth ls count rw = some r := by
  intro ls
  induction ls with
  | nil => intro count rw r h; exact h
  | cons l ls ih =>
    intro count rw r h
    rw [writeLinks] at h ⊢
    rcases hv : visitLink str rw nc l depth with ⟨kg, e, rw2⟩
    rw [hv] at h
    cases kg with
    | false => exact ih _ _ _ h
    | true =>
      cases e with
      | some err => exact h
      | none =>
        simp only at h ⊢
        cases hd : rw2.DAG l.Cid with
        | error err => rw [hd] at h; exact h
        | ok nd =>
          rw [hd] at h
          simp only at h ⊢
          cases hr : rec1 rw2 nd (depth + 1) with
          | none => rw [hr] at h; simp at h
          | some r1 =>
            rw [hr] at h
            rw [hrec _ _ _ _ hr]
            simp only at h ⊢
            cases he : r1.err with
            | some err => rw [he] at h; exact h
            | none => rw [he] at h; exact ih _ _ _ h

/-- More fuel does not change a result: the fuel only bounds the recursion. -/
theorem writeRefsRecursive_fuel_mono (str : Cid → GoString) :
    ∀ (fuel fuel2 : Nat) (rw : RefWriter) (n : Node) (depth : Int) (r : Result),
      fuel ≤ fuel2 → rw.writeRefsRecursive str fuel n depth = some r →
      rw.writeRefsRecursive str fuel2 n depth = some r := by
  intro fuel
  induction fuel with
  | zero => intro fuel2 rw n depth r _ h; simp [RefWriter.writeRefsRecursive] at h
  | succ fuel ih =>
    intro fuel2 rw n depth r hle h
    cases fuel2 with
    | zero => omega
    | succ fuel2 =>
      rw [RefWriter.writeRefsRecursive] at h ⊢
      exact writeLinks_mono (fun rw nd d r hr => ih fuel2 rw nd d r (by omega) hr) _ _ _ _ h

/-- The result of `writeRefsRecursive` does not depend on the fuel. -/
theorem writeRefsRecursive_fuel_unique (str : Cid → GoString) (fuel1 fuel2 : Nat)
    (rw : RefWriter) (n : Node) (depth : Int) (r1 r2 : Result)
    (h1 : rw.writeRefsRecursive str fuel1 n depth = some r1)
    (h2 : rw.writeRefsRecursive str fuel2 n depth = some r2) : r1 = r2 := by
  have a := writeRefsRecursive_fuel_mono str fuel1 (max fuel1 fuel2) rw n depth r1
    (le_max_left _ _) h1
  have b := writeRefsRecursive_fuel_mono str fuel2 (max fuel1 fuel2) rw n depth r2
    (le_max_right _ _) h2
  rw [a] at b
  exact Option.some.inj b

/-- **C3**, as stated, fails: on the scenario graph with `MaxDepth = 2` and
`Unique = true`, no run of `WriteRefs` on a fresh writer writes the three
edges `R→X`, `R→Y`, `X→Y`. -/
theorem C3_scenario_counterexample :
    ¬ ∃ (fuel : Nat) (r : Result),
        (Example.scenario 2).WriteRefs Example.str fuel Example.nodeR = some r ∧
        r.rw.edges.map (fun e => (e.src, e.dst)) =
          [(Example.R, Example.X), (Example.R, Example.Y), (Example.X, Example.Y)] := by
  rintro ⟨fuel, r, h, he⟩
  have h3 : Example.written ((Example.scenario 2).WriteRefs Example.str 3 Example.nodeR) =
      some [(Example.R, Example.X), (Example.X, Example.Y)] := by decide
  cases hr : (Example.scenario 2).WriteRefs Example.str 3 Example.nodeR with
  | none => rw [hr] at h3; simp [Example.written] at h3
  | some r3 =>
    have heq := writeRefsRecursive_fuel_unique Example.str fuel 3 _ _ _ r r3 h hr
    subst heq
    rw [hr] at h3
    simp only [Example.written, Option.map_some', Option.some.injEq] at h3
    rw [h3] at he
    revert he
    decide

/-- **C3**, amended: on the scenario graph with `MaxDepth = 2`, `Unique = true`
and a fresh writer, `WriteRefs(R)` returns (for every fuel from 3 on) having
written exactly the two edges `R→X` (depth 1) and `X→Y` (depth 2), in that
order, and sent their two records: `Y` is first seen below `X`, so the later
link `R→Y` is explored but, being a repeat sighting under `Unique`, not
written. -/
theorem C3_scenario_amended (fuel : Nat) :
    Example.written ((Example.scenario 2).WriteRefs Example.str (fuel + 3) Example.nodeR) =
      some [(Example.R, Example.X), (Example.X, Example.Y)] ∧
    Example.sent ((Example.scenario 2).WriteRefs Example.str (fuel + 3) Example.nodeR) =
      some ["R -> X", "X -> Y"] := by
  have h3 : Example.written ((Example.scenario 2).WriteRefs Example.str 3 Example.nodeR) =
        some [(Example.R, Example.X), (Example.X, Example.Y)] ∧
      Example.sent ((Example.scenario 2).WriteRefs Example.str 3 Example.nodeR) =
        some ["R -> X", "X -> Y"] := by decide
  cases hr : (Example.scenario 2).WriteRefs Example.str 3 Example.nodeR with
  | none => rw [hr] at h3; simp [Example.written] at h3
  | some r3 =>
    have hm := writeRefsRecursive_fuel_mono Example.str 3 (fuel + 3) _ _ _ r3 (by omega) hr
    rw [hr] at h3
    unfold RefWriter.WriteRefs
    rw [hm]
    exact h3

/-- With a context that is never cancelled, `WriteEdge` sees no error. -/
theorem neverDone_noErr {rw : RefWriter} (h : NeverDone rw) (k : Nat) :
    rw.Ctx.bind (fun ctx => ctx.Err k) = none := by
  cases hc : rw.Ctx with
  | none => rfl
  | some ctx => simp [Context.Err, h ctx hc]

theorem neverDone_of_sameConfig {a b : RefWriter} (h : NeverDone a) (hc : SameConfig a b) :
    NeverDone b := by
  intro ctx hb
  exact h ctx (by rw [← hc.2.1]; exact hb)

/-- Past the configured bound `visit` refuses and changes nothing. -/
theorem visit_over_bound (rw : RefWriter) (c : Cid) (depth : Int) (hm : 0 ≤ rw.MaxDepth)
    (hd : rw.MaxDepth < depth) :
    rw.visit c depth = ((false, (rw.seen c.Bytes).isSome), rw) := by
  unfold RefWriter.visit
  simp only
  rw [if_pos ⟨hm, hd⟩]

/-- A call of `writeRefsRecursive` past the configured bound returns at once:
no record, no change of the writer. -/
theorem writeRefsRecursive_over_bound (str : Cid → GoString) (fuel : Nat) (rw : RefWriter)
    (n : Node) (depth : Int) (hm : 0 ≤ rw.MaxDepth) (hd : rw.MaxDepth < depth) :
    rw.writeRefsRecursive str (fuel + 1) n depth = some ⟨0, none, rw⟩ := by
  rw [RefWriter.writeRefsRecursive]
  generalize n.Links = ls
  induction ls with
  | nil => rfl
  | cons l ls ih =>
    rw [writeLinks]
    have hv : visitLink str rw n.Cid l depth = (false, none, rw) := by
      unfold visitLink
      simp [visit_over_bound rw l.Cid depth hm hd]
    rw [hv]
    exact ih

/-- With a context that is never cancelled, `WriteEdge` sends its record. -/
theorem WriteEdge_neverDone (str : Cid → GoString) (rw : RefWriter) (h : NeverDone rw)
    (src dst : Cid) (name : GoString) :
    rw.WriteEdge str src dst name =
      (none, { rw with out := rw.out ++ [⟨render str rw.PrintFmt src dst name, []⟩] }) := by
  unfold RefWriter.WriteEdge
  rw [neverDone_noErr h]

/-- The method `visit` within a configured bound, by cases on the `seen` map. -/
theorem visit_within (rw : RefWriter) (c : Cid) (depth : Int) (hm : 0 ≤ rw.MaxDepth)
    (hd : depth ≤ rw.MaxDepth) :
    (rw.seen c.Bytes = none → rw.visit c depth =
      ((true, false), { rw with seen := Function.update rw.seen c.Bytes (some depth) })) ∧
    (∀ od, rw.seen c.Bytes = some od → depth < od → rw.visit c depth =
      ((true, true), { rw with seen := Function.update rw.seen c.Bytes (some depth) })) ∧
    (∀ od, rw.seen c.Bytes = some od → od ≤ depth → rw.visit c depth =
      ((!rw.Unique, true), rw)) := by
  refine ⟨fun hs => ?_, fun od hs hlt => ?_, fun od hs hle => ?_⟩
  · unfold RefWriter.visit
    simp only [hs, Option.isSome_none]
    split_ifs with h1 h2 h3
    · omega
    · simp at h2
    · rfl
    · simp at h3
  · unfold RefWriter.visit
    simp only [hs, Option.isSome_some, Option.getD_some]
    split_ifs with h1 h2 h3
    · omega
    · omega
    · rfl
    · exact absurd (Or.inr hlt) h3
  · unfold RefWriter.visit
    simp only [hs, Option.isSome_some, Option.getD_some]
    split_ifs with h1 h2 h3
    · omega
    · omega
    · rcases h3 with h3 | h3
      · simp at h3
      · omega
    · rfl

/-- The second result of `visit` tells whether the CID was in the `seen` map. -/
theorem visit_seenBefore (rw : RefWriter) (c : Cid) (depth : Int) :
    (rw.visit c depth).1.2 = (rw.seen c.Bytes).isSome := by
  unfold RefWriter.visit
  simp only
  split_ifs <;> rfl

/-- After `visit` the `seen` map holds what it held before, plus the visited
CID when `visit` asks to explore. -/
theorem visit_seen_isSome (rw : RefWriter) (c : Cid) (depth : Int) (key : List Nat) :
    ((rw.visit c depth).2.seen key).isSome = true ↔
      ((rw.seen key).isSome = true ∨ (key = c.Bytes ∧ (rw.visit c depth).1.1 = true)) := by
  unfold RefWriter.visit
  simp only
  split_ifs with h1 h2 h3
  · simp
  · constructor
    · exact Or.inl
    · rintro (h | ⟨rfl, _⟩)
      · exact h
      · exact h2.1
  · simp only [Function.update_apply]
    split_ifs with hk
    · simp [hk]
    · simp [hk]
  · constructor
    · exact Or.inl
    · rintro (h | ⟨rfl, _⟩)
      · exact h
      · by_contra hc
        exact h3 (Or.inl (by simpa using hc))

/-- Within the bound, `visit` refuses only a CID already seen, under `Unique`. -/
theorem visit_refuse_within (rw : RefWriter) (c : Cid) (depth : Int) (hm : 0 ≤ rw.MaxDepth)
    (hd : depth ≤ rw.MaxDepth) (hk : (rw.visit c depth).1.1 = false) :
    rw.Unique = true ∧ (rw.seen c.Bytes).isSome = true ∧ (rw.visit c depth).2 = rw := by
  obtain ⟨v1, v2, v3⟩ := visit_within rw c depth hm hd
  cases hs : rw.seen c.Bytes with
  | none => rw [v1 hs] at hk; simp at hk
  | some od =>
    by_cases hlt : depth < od
    · rw [v2 od hs hlt] at hk; simp at hk
    · rw [v3 od hs (by omega)] at hk ⊢
      simp only [Bool.not_eq_false_eq_eq_true, Bool.not_eq_eq_eq_not, Bool.not_false] at hk
      exact ⟨by simpa using hk, rfl, rfl⟩

/-- One iteration of the loop when the link is skipped. -/
theorem writeLinks_cons_skip {str : Cid → GoString}
    {recurse : RefWriter → Node → Int → Option Result} {nc : Cid} {depth : Int} {l : Link}
    {ls : List Link} {count : Int} {rw st : RefWriter} {e : Option Error}
    (hv : visitLink str rw nc l depth = (false, e, st)) :
    writeLinks str recurse nc depth (l :: ls) count rw =
      writeLinks str recurse nc depth ls count st := by
  rw [writeLinks, hv]

/-- One iteration of the loop when the link is explored and the recursive call
returns the result `r1` without error. -/
theorem writeLinks_cons_explore {str : Cid → GoString}
    {recurse : RefWriter → Node → Int → Option Result} {nc : Cid} {depth : Int} {l : Link}
    {ls : List Link} {count : Int} {rw st : RefWriter} {nd : Node} {r1 : Result}
    (hv : visitLink str rw nc l depth = (true, none, st)) (hd : st.DAG l.Cid = .ok nd)
    (hr : recurse st nd (depth + 1) = some r1) (he : r1.err = none) :
    writeLinks str recurse nc depth (l :: ls) count rw =
      writeLinks str recurse nc depth ls (count + r1.count) r1.rw := by
  rw [writeLinks, hv]
  simp only [hd, hr, he]

/-- The loop over the links of a node at depth 1 with `MaxDepth = 1`, no
cancellation and no fetch failure: it writes the direct links (the first
sightings under `Unique`) and nothing below them. -/
theorem writeLinks_depth_one (str : Cid → GoString) (fuel : Nat) (nc : Cid)
    (seen0 : List Nat → Option Int) :
    ∀ (ls : List Link) (earlier : List Cid) (count : Int) (rw : RefWriter),
      rw.MaxDepth = 1 → NeverDone rw → (∀ l ∈ ls, ∃ nd, rw.DAG l.Cid = .ok nd) →
      (rw.Unique = true → ∀ c : Cid, (rw.seen c.Bytes).isSome = true ↔
        ((seen0 c.Bytes).isSome = true ∨ c ∈ earlier)) →
      ∃ r, writeLinks str (RefWriter.writeRefsRecursive str (fuel + 1)) nc 1 ls count rw
          = some r ∧
        r.count = count ∧ r.err = none ∧ SameConfig rw r.rw ∧
        r.rw.edges = rw.edges ++
          (if rw.Unique = true then firstSightings seen0 earlier ls else ls).map
            (Edge.ofLink nc 1) ∧
        r.rw.out = rw.out ++
          ((if rw.Unique = true then firstSightings seen0 earlier ls else ls).map
            (Edge.ofLink nc 1)).map (Edge.record str rw.PrintFmt) ∧
        (∀ key, (r.rw.seen key).isSome = true →
          (rw.seen key).isSome = true ∨ ∃ l ∈ ls, l.Cid.Bytes = key) := by
  intro ls
  induction ls with
  | nil =>
    intro earlier count rw _ _ _ _
    refine ⟨_, rfl, rfl, rfl, sameConfig_refl rw, ?_, ?_, fun key h => Or.inl h⟩ <;>
      simp [firstSightings]
  | cons l ls ih =>
    intro earlier count rw hM hN hF hI
    obtain ⟨nd, hnd⟩ := hF l (List.mem_cons_self _ _)
    obtain ⟨hcfg, hout, hedges⟩ := visit_frame rw l.Cid 1
    have hF2 : ∀ st : RefWriter, st.DAG = rw.DAG → ∀ l1 ∈ ls, ∃ nd, st.DAG l1.Cid = .ok nd :=
      fun st hst l1 hl1 => by rw [hst]; exact hF l1 (List.mem_cons_of_mem _ hl1)
    rcases visitLink_cases str rw nc l 1 with ⟨hk, hv⟩ | ⟨_, _, err, he, _⟩ |
      ⟨hk, hw, _, hv⟩ | ⟨hk, hsb, hU, hv⟩
    · -- skipped: a repeat sighting under Unique
      obtain ⟨hU, hs, hst⟩ := visit_refuse_within rw l.Cid 1 (by omega) (by omega) hk
      rw [hst] at hv
      rw [writeLinks_cons_skip hv]
      obtain ⟨r, hr, h1, h2, h3, h4, h5, h6⟩ := ih earlier count rw hM hN (hF2 rw rfl) hI
      refine ⟨r, hr, h1, h2, h3, ?_, ?_, ?_⟩
      · rw [h4]; simp [hU, firstSightings, (hI hU l.Cid).1 hs]
      · rw [h5]; simp [hU, firstSightings, (hI hU l.Cid).1 hs]
      · intro key hkey
        rcases h6 key hkey with h | ⟨l1, hl1, h⟩
        · exact Or.inl h
        · exact Or.inr ⟨l1, List.mem_cons_of_mem _ hl1, h⟩
    · -- WriteEdge cannot fail
      rw [neverDone_noErr (neverDone_of_sameConfig hN hcfg)] at he
      simp at he
    · -- written and explored
      have hrec := writeRefsRecursive_over_bound str fuel
        { (rw.visit l.Cid 1).2 with
            out := rw.out ++ [⟨render str rw.PrintFmt nc l.Cid l.Name, []⟩]
            edges := rw.edges ++ [⟨nc, l.Cid, l.Name, 1⟩] } nd (1 + 1)
        (by show 0 ≤ (rw.visit l.Cid 1).2.MaxDepth; rw [hcfg.2.2.2.1]; omega)
        (by show (rw.visit l.Cid 1).2.MaxDepth < 1 + 1; rw [hcfg.2.2.2.1]; omega)
      rw [writeLinks_cons_explore hv (by show (rw.visit l.Cid 1).2.DAG l.Cid = _
                                         rw [hcfg.1]; exact hnd) hrec rfl]
      simp only [add_zero]
      have hI2 : rw.Unique = true → ∀ c : Cid,
          ((rw.visit l.Cid 1).2.seen c.Bytes).isSome = true ↔
            ((seen0 c.Bytes).isSome = true ∨ c ∈ l.Cid :: earlier) := by
        intro hU c
        rw [visit_seen_isSome, hI hU c, List.mem_cons]
        constructor
        · rintro ((h | h) | ⟨h, _⟩)
          · exact Or.inl h
          · exact Or.inr (Or.inr h)
          · exact Or.inr (Or.inl (Cid.eq_of_bytes h))
        · rintro (h | h | h)
          · exact Or.inl (Or.inl h)
          · exact Or.inr ⟨by rw [h], hk⟩
          · exact Or.inl (Or.inr h)
      obtain ⟨r, hr, h1, h2, h3, h4, h5, h6⟩ := ih (l.Cid :: earlier) count
        { (rw.visit l.Cid 1).2 with
            out := rw.out ++ [⟨render str rw.PrintFmt nc l.Cid l.Name, []⟩]
            edges := rw.edges ++ [⟨nc, l.Cid, l.Name, 1⟩] }
        (by show (rw.visit l.Cid 1).2.MaxDepth = 1; rw [hcfg.2.2.2.1]; exact hM)
        (neverDone_of_sameConfig hN ⟨hcfg.1, hcfg.2.1, hcfg.2.2.1, hcfg.2.2.2.1, hcfg.2.2.2.2⟩)
        (hF2 _ hcfg.1)
        (by intro hU; exact hI2 (by rw [← hcfg.2.2.1]; exact hU))
      refine ⟨r, hr, h1, h2,
        sameConfig_trans ⟨hcfg.1, hcfg.2.1, hcfg.2.2.1, hcfg.2.2.2.1, hcfg.2.2.2.2⟩ h3, ?_, ?_,
        ?_⟩
      · rw [h4]
        show rw.edges ++ [_] ++ List.map _ (if (rw.visit l.Cid 1).2.Unique = true then _ else _)
          = _
        rw [hcfg.2.2.1]
        by_cases hU : rw.Unique = true
        · have hns : ¬ ((seen0 l.Cid.Bytes).isSome = true ∨ l.Cid ∈ earlier) := by
            rw [← hI hU l.Cid, ← visit_seenBefore rw l.Cid 1]
            rcases hw with hw | hw
            · simp [hw]
            · rw [hU] at hw; simp at hw
          simp [hU, firstSightings, hns, Edge.ofLink]
        · simp [hU, Edge.ofLink]
      · rw [h5]
        show rw.out ++ [_] ++ List.map _ (List.map _
          (if (rw.visit l.Cid 1).2.Unique = true then _ else _)) = _
        rw [hcfg.2.2.1]
        by_cases hU : rw.Unique = true
        · have hns : ¬ ((seen0 l.Cid.Bytes).isSome = true ∨ l.Cid ∈ earlier) := by
            rw [← hI hU l.Cid, ← visit_seenBefore rw l.Cid 1]
            rcases hw with hw | hw
            · simp [hw]
            · rw [hU] at hw; simp at hw
          simp [hU, firstSightings, hns, Edge.ofLink, Edge.record, hcfg.2.2.2.2]
        · simp [hU, Edge.ofLink, Edge.record, hcfg.2.2.2.2]
      · intro key hkey
        rcases h6 key hkey with h | ⟨l1, hl1, h⟩
        · rcases (visit_seen_isSome rw l.Cid 1 key).1 h with h | ⟨h, _⟩
          · exact Or.inl h
          · exact Or.inr ⟨l, List.mem_cons_self _ _, h.symm⟩
        · exact Or.inr ⟨l1, List.mem_cons_of_mem _ hl1, h⟩
    · -- explored again at a shallower depth, but not written (Unique)
      have hrec := writeRefsRecursive_over_bound str fuel (rw.visit l.Cid 1).2 nd (1 + 1)
        (by rw [hcfg.2.2.2.1]; omega) (by rw [hcfg.2.2.2.1]; omega)
      rw [writeLinks_cons_explore hv (by rw [hcfg.1]; exact hnd) hrec rfl]
      simp only [add_zero]
      have hs : (rw.seen l.Cid.Bytes).isSome = true := by
        rw [← visit_seenBefore rw l.Cid 1]; exact hsb
      obtain ⟨r, hr, h1, h2, h3, h4, h5, h6⟩ := ih earlier count (rw.visit l.Cid 1).2
        (by rw [hcfg.2.2.2.1]; exact hM) (neverDone_of_sameConfig hN hcfg) (hF2 _ hcfg.1)
        (by
          intro _ c
          rw [visit_seen_isSome, ← hI hU c]
          constructor
          · rintro (h | ⟨h, _⟩)
            · exact h
            · rw [h]; exact hs
          · exact Or.inl)
      refine ⟨r, hr, h1, h2, sameConfig_trans hcfg h3, ?_, ?_, ?_⟩
      · rw [h4, hedges, hcfg.2.2.1]; simp [hU, firstSightings, (hI hU l.Cid).1 hs]
      · rw [h5, hout, hcfg.2.2.1, hcfg.2.2.2.2]
        simp [hU, firstSightings, (hI hU l.Cid).1 hs]
      · intro key hkey
        rcases h6 key hkey with h | ⟨l1, hl1, h⟩
        · rcases (visit_seen_isSome rw l.Cid 1 key).1 h with h | ⟨h, _⟩
          · exact Or.inl h
          · exact Or.inr ⟨l, List.mem_cons_self _ _, h.symm⟩
        · exact Or.inr ⟨l1, List.mem_cons_of_mem _ hl1, h⟩

/-- The pairs (source, destination) written by a run do not depend on the
fuel: a value computed with one amount of fuel holds for every run that returns. -/
theorem Example.written_unique {str : Cid → GoString} {rw : RefWriter} {n : Node}
    {fuel0 : Nat} {L : List (Cid × Cid)}
    (h0 : Example.written (rw.WriteRefs str fuel0 n) = some L) (fuel : Nat) (r : Result)
    (h : rw.WriteRefs str fuel n = some r) : r.rw.edges.map (fun e => (e.src, e.dst)) = L := by
  cases hr : rw.WriteRefs str fuel0 n with
  | none => rw [hr] at h0; simp [Example.written] at h0
  | some r0 =>
    have heq := writeRefsRecursive_fuel_unique str fuel fuel0 _ _ _ r r0 h hr
    subst heq
    rw [hr] at h0
    simpa [Example.written] using h0

/-- **C4**, as stated, fails.  With `MaxDepth = 1`: (1) under `Unique`, a root
with two links to the same CID gets one record, not one per link; (2) when the
fetch of a direct child fails, the links after it are not written. -/
theorem C4_direct_links_counterexample :
    (¬ ∃ (fuel : Nat) (r : Result),
        (RefWriter.fresh Example.dag none true [] 1).WriteRefs Example.str fuel Example.twin
          = some r ∧
        r.rw.edges.map (fun e => (e.src, e.dst)) =
          Example.twin.Links.map (fun l => (Example.twin.Cid, l.Cid))) ∧
    (¬ ∃ (fuel : Nat) (r : Result),
        (RefWriter.fresh Example.dag none false [] 1).WriteRefs Example.str fuel Example.broken
          = some r ∧
        r.rw.edges.map (fun e => (e.src, e.dst)) =
          Example.broken.Links.map (fun l => (Example.broken.Cid, l.Cid))) := by
  constructor
  · rintro ⟨fuel, r, h, he⟩
    have h0 : Example.written ((RefWriter.fresh Example.dag none true [] 1).WriteRefs
        Example.str 2 Example.twin) = some [(Example.R, Example.X)] := by decide
    rw [Example.written_unique h0 fuel r h] at he
    revert he
    decide
  · rintro ⟨fuel, r, h, he⟩
    have h0 : Example.written ((RefWriter.fresh Example.dag none false [] 1).WriteRefs
        Example.str 2 Example.broken) = some [(Example.R, Example.Z)] := by decide
    rw [Example.written_unique h0 fuel r h] at he
    revert he
    decide

/-- **C4**, amended.  With `MaxDepth = 1`, a context that is not cancelled and
no failing fetch of a direct child, `WriteRefs` returns without error for every
fuel from 2 on, and the records it sends are exactly the records of the root's
direct links at depth 1, in link order: one per link when duplicates are
allowed, and under `Unique` one for each link that is the first sighting of its
target CID.  No link of a child is written, and only targets of the root's
links are added to the `seen` map. -/
theorem C4_direct_links_amended (str : Cid → GoString) (rw : RefWriter) (n : Node)
    (fuel : Nat) (hM : rw.MaxDepth = 1) (hN : NeverDone rw)
    (hF : ∀ l ∈ n.Links, ∃ nd, rw.DAG l.Cid = .ok nd) :
    ∃ r, rw.WriteRefs str (fuel + 2) n = some r ∧ r.err = none ∧
      r.rw.edges = rw.edges ++
        (directLinks rw.Unique rw.seen n.Links).map (Edge.ofLink n.Cid 1) ∧
      r.rw.out = rw.out ++
        ((directLinks rw.Unique rw.seen n.Links).map (Edge.ofLink n.Cid 1)).map
          (Edge.record str rw.PrintFmt) ∧
      (rw.Unique = false → directLinks rw.Unique rw.seen n.Links = n.Links) ∧
      (∀ key, (r.rw.seen key).isSome = true →
        (rw.seen key).isSome = true ∨ ∃ l ∈ n.Links, l.Cid.Bytes = key) := by
  obtain ⟨r, hr, _, h2, _, h4, h5, h6⟩ := writeLinks_depth_one str fuel n.Cid rw.seen n.Links []
    0 rw hM hN hF (fun _ c => by simp)
  refine ⟨r, ?_, h2, ?_, ?_, ?_, h6⟩
  · unfold RefWriter.WriteRefs
    rw [RefWriter.writeRefsRecursive]
    exact hr
  · rw [h4]; unfold directLinks; rfl
  · rw [h5]; unfold directLinks; rfl
  · intro hU; simp [directLinks, hU]

/-- Witness of the amended C4 on the scenario graph: `R→X`, `R→Y` only. -/
theorem C4_direct_links_amended_witness :
    ∃ r, (Example.scenario 1).WriteRefs Example.str (0 + 2) Example.nodeR = some r ∧
      r.err = none ∧
      r.rw.edges = (Example.scenario 1).edges ++
        (directLinks (Example.scenario 1).Unique (Example.scenario 1).seen
          Example.nodeR.Links).map (Edge.ofLink Example.nodeR.Cid 1) ∧
      r.rw.out = (Example.scenario 1).out ++
        ((directLinks (Example.scenario 1).Unique (Example.scenario 1).seen
          Example.nodeR.Links).map (Edge.ofLink Example.nodeR.Cid 1)).map
          (Edge.record Example.str (Example.scenario 1).PrintFmt) ∧
      ((Example.scenario 1).Unique = false →
        directLinks (Example.scenario 1).Unique (Example.scenario 1).seen Example.nodeR.Links
          = Example.nodeR.Links) ∧
      (∀ key, (r.rw.seen key).isSome = true →
        ((Example.scenario 1).seen key).isSome = true ∨
          ∃ l ∈ Example.nodeR.Links, l.Cid.Bytes = key) :=
  C4_direct_links_amended Example.str (Example.scenario 1) Example.nodeR 0 rfl
    (by intro ctx h; simp [Example.scenario, RefWriter.fresh] at h)
    (by
      intro l hl
      simp only [Example.nodeR, List.mem_cons, List.mem_singleton, List.not_mem_nil,
        or_false] at hl
      rcases hl with rfl | rfl
      · exact ⟨Example.nodeX, rfl⟩
      · exact ⟨Example.nodeY, rfl⟩)

/-- Under `Unique`, one link step keeps the invariant: an edge is written only
for a destination that was not in the `seen` map. -/
theorem visitLink_uniqueInv (str : Cid → GoString) (rw : RefWriter) (nc : Cid) (l : Link)
    (depth : Int) (hU : rw.Unique = true) (hI : UniqueInv rw) :
    UniqueInv (visitLink str rw nc l depth).2.2 := by
  obtain ⟨hcfg, hout, hedges⟩ := visit_frame rw l.Cid depth
  have hgrow := visit_seenGrows rw l.Cid depth
  have hkeep : UniqueInv (rw.visit l.Cid depth).2 := by
    refine ⟨fun e he => ?_, by rw [hedges]; exact hI.2⟩
    rw [hedges] at he
    have := hgrow e.dst.Bytes (by simpa [Option.isSome_iff_ne_none] using hI.1 e he)
    simpa [Option.isSome_iff_ne_none] using this
  rcases visitLink_cases str rw nc l depth with ⟨_, h⟩ | ⟨_, _, err, _, h⟩ | ⟨hk, hw, _, h⟩ |
    ⟨_, _, _, h⟩
  · rw [h]; exact hkeep
  · rw [h]; exact hkeep
  · rw [h]
    have hnew : rw.seen l.Cid.Bytes = none := by
      rcases hw with hw | hw
      · rw [visit_seenBefore] at hw
        simpa using hw
      · rw [hU] at hw; simp at hw
    constructor
    · intro e he
      show ((rw.visit l.Cid depth).2.seen e.dst.Bytes).isSome = true
      simp only [List.mem_append, List.mem_singleton] at he
      rcases he with he | he
      · exact hkeep.1 e (by rw [hedges]; exact he)
      · subst he
        exact (visit_seen_isSome rw l.Cid depth _).2 (Or.inr ⟨rfl, hk⟩)
    · show ((rw.edges ++ [(⟨nc, l.Cid, l.Name, depth⟩ : Edge)]).map (fun e => e.dst)).Nodup
      rw [List.map_append, List.nodup_append]
      refine ⟨hI.2, by simp, ?_⟩
      intro c hc1 hc2
      simp only [List.map_cons, List.map_nil, List.mem_singleton] at hc2
      subst hc2
      obtain ⟨e, he, hec⟩ := List.mem_map.1 hc1
      have := hI.1 e he
      rw [hec, hnew] at this
      simp at this
  · rw [h]; exact hkeep

/-- Under `Unique`, every call of `writeRefsRecursive` keeps the invariant. -/
theorem writeRefsRecursive_uniqueInv (str : Cid → GoString) (fuel : Nat) (rw : RefWriter)
    (n : Node) (depth : Int) (r : Result) (hU : rw.Unique = true) (hI : UniqueInv rw)
    (h : rw.writeRefsRecursive str fuel n depth = some r) :
    r.rw.Unique = true ∧ UniqueInv r.rw := by
  have := writeRefsRecursive_rel str
    (fun a b => a.Unique = true → UniqueInv a → b.Unique = true ∧ UniqueInv b) depth
    (fun _ h1 h2 => ⟨h1, h2⟩)
    (fun a b c h1 h2 hu hi => h2 (h1 hu hi).1 (h1 hu hi).2)
    (fun rw nc l k _ hu hi =>
      ⟨(visitLink_extends str rw nc l k).1.2.2.1.trans hu, visitLink_uniqueInv str rw nc l k hu hi⟩)
    fuel rw n depth r (le_refl _) h
  exact this hU hI

/-- The producer loop keeps the invariant of `Unique`. -/
theorem produce_uniqueInv (str : Cid → GoString) (fuel : Nat) (sendWins : Bool) (ctx : Context) :
    ∀ (objs : List Node) (rw final : RefWriter), rw.Unique = true → UniqueInv rw →
      produce str fuel sendWins ctx rw objs = some final → UniqueInv final := by
  intro objs
  induction objs with
  | nil =>
    intro rw final _ hI h
    simp only [produce, Option.some.injEq] at h
    subst h
    exact hI
  | cons o os ih =>
    intro rw final hU hI h
    rw [produce] at h
    cases hr : rw.WriteRefs str fuel o with
    | none => rw [hr] at h; simp at h
    | some r =>
      rw [hr] at h
      obtain ⟨hU1, hI1⟩ := writeRefsRecursive_uniqueInv str fuel rw o 1 r hU hI hr
      simp only at h
      cases he : r.err with
      | none => rw [he] at h; exact ih r.rw final hU1 hI1 h
      | some err =>
        rw [he] at h
        simp only [Option.some.injEq] at h
        subst h
        unfold sendError
        split
        · split_ifs
          · exact hI1
          · exact hI1
        · exact hI1

/-- **C5** With `Unique = true`, within one traversal (one fresh `RefWriter` as
built by `RefsCmd.Run`, any graph, any list of roots, any `MaxDepth`, any
format, any cancellation) no edge is written more than once: the
(source, destination) pairs of the edges written are pairwise distinct, and
even their destinations are (no duplicate refs). -/
theorem C5_unique_no_duplicates (str : Cid → GoString) (fuel : Nat) (sendWins : Bool)
    (ctx : Context) (DAG : Cid → Except Error Node) (format : GoString) (maxDepth : Int)
    (objs : List Node) (final : RefWriter)
    (h : stream str fuel sendWins ctx DAG true format maxDepth objs = some final) :
    (final.edges.map (fun e => (e.src, e.dst))).Nodup ∧
      (final.edges.map (fun e => e.dst)).Nodup := by
  have hI := produce_uniqueInv str fuel sendWins ctx objs _ final rfl
    ⟨by simp [RefWriter.fresh], by simp [RefWriter.fresh]⟩ h
  refine ⟨?_, hI.2⟩
  have h2 : final.edges.map (fun e => e.dst) =
      (final.edges.map (fun e => (e.src, e.dst))).map Prod.snd := by
    rw [List.map_map]; rfl
  have := hI.2
  rw [h2] at this
  exact List.Nodup.of_map _ this

/-- Witness of C5: the roots `R` and `X` of the scenario graph, unbounded. -/
theorem C5_unique_no_duplicates_witness :
    ∃ final, stream Example.str 4 true Example.background Example.dag true [] (-1)
        [Example.nodeR, Example.nodeX] = some final ∧
      (final.edges.map (fun e => (e.src, e.dst))).Nodup ∧
      (final.edges.map (fun e => e.dst)).Nodup :=
  have hsome : (stream Example.str 4 true Example.background Example.dag true [] (-1)
      [Example.nodeR, Example.nodeX]).isSome = true := by decide
  ⟨Option.get _ hsome, (Option.some_get hsome).symm,
    C5_unique_no_duplicates Example.str 4 true Example.background Example.dag [] (-1)
      [Example.nodeR, Example.nodeX] (Option.get _ hsome) (Option.some_get hsome).symm⟩

/-- With duplicates allowed, `visit` asks to explore whenever the depth is
within the bound. -/
theorem visit_nonunique (rw : RefWriter) (c : Cid) (depth : Int) (hU : rw.Unique = false)
    (hb : ¬ (0 ≤ rw.MaxDepth ∧ rw.MaxDepth < depth)) : (rw.visit c depth).1.1 = true := by
  unfold RefWriter.visit
  simp only
  split_ifs with h1 h2 h3
  · exact absurd h1 hb
  · simp [hU]
  · rfl
  · simp [hU]

/-- With duplicates allowed and no cancellation, a link step within the bound
writes the edge, whatever the `seen` map holds. -/
theorem visitLink_nonunique (str : Cid → GoString) (rw : RefWriter) (nc : Cid) (l : Link)
    (depth : Int) (hU : rw.Unique = false) (hN : NeverDone rw)
    (hb : ¬ (0 ≤ rw.MaxDepth ∧ rw.MaxDepth < depth)) :
    ∃ st, visitLink str rw nc l depth = (true, none, st) ∧ SameConfig rw st ∧
      st.edges = rw.edges ++ [Edge.ofLink nc depth l] ∧
      st.out = rw.out ++ [Edge.record str rw.PrintFmt (Edge.ofLink nc depth l)] := by
  obtain ⟨hcfg, hout, hedges⟩ := visit_frame rw l.Cid depth
  have hk := visit_nonunique rw l.Cid depth hU hb
  rcases visitLink_cases str rw nc l depth with ⟨hk1, _⟩ | ⟨_, _, err, he, _⟩ | ⟨_, _, _, hv⟩ |
    ⟨_, _, hU1, _⟩
  · rw [hk] at hk1; simp at hk1
  · rw [neverDone_noErr (neverDone_of_sameConfig hN hcfg)] at he
    simp at he
  · exact ⟨_, hv, ⟨hcfg.1, hcfg.2.1, hcfg.2.2.1, hcfg.2.2.2.1, hcfg.2.2.2.2⟩, rfl, rfl⟩
  · rw [hU] at hU1; simp at hU1

/-- Core of the refinement: with duplicates allowed, no cancellation and no
missing node, `writeRefsRecursive` writes exactly the naive tree walk of the
remaining budget `k`.  The budget is the number of levels left below a
configured bound, or any number above the ranks of the links when unbounded. -/
theorem writeRefsRecursive_treeWalk (str : Cid → GoString) (V : List Cid) (rank : Cid → Nat) :
    ∀ (k fuel : Nat) (rw : RefWriter) (n : Node) (depth : Int),
      rw.Unique = false → NeverDone rw → FiniteGraph rw.DAG V →
      (rw.MaxDepth < 0 → RankDecreases rw.DAG V rank) →
      (∀ l ∈ n.Links, l.Cid ∈ V ∧ (rw.MaxDepth < 0 → rank l.Cid < k)) →
      (0 ≤ rw.MaxDepth → depth + k = rw.MaxDepth + 1) → k + 1 ≤ fuel →
      ∃ r, rw.writeRefsRecursive str fuel n depth = some r ∧ r.err = none ∧
        SameConfig rw r.rw ∧ r.rw.edges = rw.edges ++ treeWalk rw.DAG k n depth ∧
        r.rw.out = rw.out ++ (treeWalk rw.DAG k n depth).map (Edge.record str rw.PrintFmt) := by
  intro k
  induction k with
  | zero =>
    intro fuel rw n depth hU hN hG hR hL hB hf
    obtain ⟨fuel, rfl⟩ : ∃ f, fuel = f + 1 := ⟨fuel - 1, by omega⟩
    by_cases hM : 0 ≤ rw.MaxDepth
    · rw [writeRefsRecursive_over_bound str fuel rw n depth hM (by have := hB hM; omega)]
      exact ⟨_, rfl, rfl, sameConfig_refl rw, by simp [treeWalk], by simp [treeWalk]⟩
    · have hnil : n.Links = [] := by
        cases hl : n.Links with
        | nil => rfl
        | cons l ls =>
          have := (hL l (by rw [hl]; exact List.mem_cons_self _ _)).2 (by omega)
          omega
      rw [RefWriter.writeRefsRecursive, hnil]
      exact ⟨_, rfl, rfl, sameConfig_refl rw, by simp [treeWalk], by simp [treeWalk]⟩
  | succ k ih =>
    intro fuel rw n depth hU hN hG hR hL hB hf
    obtain ⟨fuel, rfl⟩ : ∃ f, fuel = f + 1 := ⟨fuel - 1, by omega⟩
    rw [RefWriter.writeRefsRecursive]
    have hloop : ∀ (ls : List Link) (count : Int) (rw1 : RefWriter), SameConfig rw rw1 →
        (∀ l ∈ ls, l.Cid ∈ V ∧ (rw.MaxDepth < 0 → rank l.Cid < k + 1)) →
        ∃ r, writeLinks str (RefWriter.writeRefsRecursive str fuel) n.Cid depth ls count rw1
            = some r ∧ r.err = none ∧ SameConfig rw r.rw ∧
          r.rw.edges = rw1.edges ++ ls.flatMap (fun l =>
            Edge.ofLink n.Cid depth l ::
              (match rw.DAG l.Cid with
               | .ok nd => treeWalk rw.DAG k nd (depth + 1)
               | .error _ => [])) ∧
          r.rw.out = rw1.out ++ (ls.flatMap (fun l =>
            Edge.ofLink n.Cid depth l ::
              (match rw.DAG l.Cid with
               | .ok nd => treeWalk rw.DAG k nd (depth + 1)
               | .error _ => []))).map (Edge.record str rw.PrintFmt) := by
      intro ls
      induction ls with
      | nil =>
        intro count rw1 hc _
        exact ⟨_, rfl, rfl, hc, by simp, by simp⟩
      | cons l ls ihl =>
        intro count rw1 hc hL1
        obtain ⟨hD1, hC1, hU1, hM1, hF1⟩ := hc
        have hc : SameConfig rw rw1 := ⟨hD1, hC1, hU1, hM1, hF1⟩
        obtain ⟨hlV, hlr⟩ := hL1 l (List.mem_cons_self _ _)
        obtain ⟨nd, hnd, hndV⟩ := hG l.Cid hlV
        obtain ⟨st, hv, hcs, hse, hso⟩ := visitLink_nonunique str rw1 n.Cid l depth
          (hU1.trans hU) (neverDone_of_sameConfig hN hc)
          (by rw [hM1]; intro h; have := hB h.1; omega)
        have hc2 := sameConfig_trans hc hcs
        obtain ⟨r1, hr1, he1, hc1, hed1, ho1⟩ := ih fuel st nd (depth + 1)
          (hc2.2.2.1.trans hU) (neverDone_of_sameConfig hN hc2) (by rw [hc2.1]; exact hG)
          (by rw [hc2.1, hc2.2.2.2.1]; exact hR)
          (by
            intro l2 hl2
            refine ⟨hndV l2 hl2, fun hneg => ?_⟩
            rw [hc2.2.2.2.1] at hneg
            have h1 := hR hneg l.Cid hlV nd hnd l2 hl2
            have h2 := hlr hneg
            omega)
          (by rw [hc2.2.2.2.1]; intro h; have := hB h; omega) (by omega)
        rw [writeLinks_cons_explore hv (by rw [hc2.1]; exact hnd) hr1 he1]
        obtain ⟨r, hr, he, hcr, hed, ho⟩ := ihl (count + r1.count) r1.rw
          (sameConfig_trans hc2 hc1) (fun l2 hl2 => hL1 l2 (List.mem_cons_of_mem _ hl2))
        refine ⟨r, hr, he, hcr, ?_, ?_⟩
        · rw [hed, hed1, hse, hc2.1]
          simp [List.flatMap_cons, hnd]
        · rw [ho, ho1, hso, hc2.1, hc2.2.2.2.2, hF1]
          simp [List.flatMap_cons, hnd]
    obtain ⟨r, hr, he, hcr, hed, ho⟩ := hloop n.Links 0 rw (sameConfig_refl rw) hL
    exact ⟨r, hr, he, hcr, by rw [hed, treeWalk], by rw [ho, treeWalk]⟩

/-- Some number exceeds the ranks of all the link targets of a list. -/
theorem exists_rank_bound (rank : Cid → Nat) (ls : List Link) :
    ∃ K : Nat, ∀ l ∈ ls, rank l.Cid < K := by
  induction ls with
  | nil => exact ⟨0, by simp⟩
  | cons l ls ih =>
    obtain ⟨K, hK⟩ := ih
    refine ⟨max K (rank l.Cid + 1), fun l1 hl1 => ?_⟩
    rcases List.mem_cons.1 hl1 with rfl | h
    · exact lt_of_lt_of_le (Nat.lt_succ_self _) (le_max_right _ _)
    · exact lt_of_lt_of_le (hK l1 h) (le_max_left _ _)

/-- **C6** With `Unique = false` the visited set has no effect on the output.
On a finite graph without missing nodes and with a context that is not
cancelled, for any state of the `seen` map:
(1) with `MaxDepth = d ≥ 0`, `WriteRefs` returns (every fuel above `d`) and the
edges it writes, and the records it sends, are exactly the naive tree walk of
depth `d`: the pre-order enumeration, in link order, of the link paths of
length `1..d` from the root, one record per path;
(2) with `MaxDepth < 0` on an acyclic graph, `WriteRefs` returns and writes
exactly the naive tree walk of every depth `k` from some `K` on, that is the
enumeration of all link paths of length at least 1. -/
theorem C6_nonunique_tree_walk (str : Cid → GoString) (rw : RefWriter) (n : Node)
    (V : List Cid) (hU : rw.Unique = false) (hN : NeverDone rw)
    (hG : FiniteGraph rw.DAG V) (hroot : ∀ l ∈ n.Links, l.Cid ∈ V) :
    (0 ≤ rw.MaxDepth → ∀ fuel : Nat, rw.MaxDepth.toNat + 1 ≤ fuel →
      ∃ r, rw.WriteRefs str fuel n = some r ∧ r.err = none ∧
        r.rw.edges = rw.edges ++ treeWalk rw.DAG rw.MaxDepth.toNat n 1 ∧
        r.rw.out = rw.out ++
          (treeWalk rw.DAG rw.MaxDepth.toNat n 1).map (Edge.record str rw.PrintFmt)) ∧
    (rw.MaxDepth < 0 → ∀ rank : Cid → Nat, RankDecreases rw.DAG V rank →
      ∃ K : Nat, ∀ fuel : Nat, K + 1 ≤ fuel →
        ∃ r, rw.WriteRefs str fuel n = some r ∧ r.err = none ∧
          ∀ k : Nat, K ≤ k →
            r.rw.edges = rw.edges ++ treeWalk rw.DAG k n 1 ∧
            r.rw.out = rw.out ++
              (treeWalk rw.DAG k n 1).map (Edge.record str rw.PrintFmt)) := by
  constructor
  · intro hM fuel hf
    obtain ⟨r, hr, he, _, hed, ho⟩ := writeRefsRecursive_treeWalk str V (fun _ => 0)
      rw.MaxDepth.toNat fuel rw n 1 hU hN hG (fun h => by omega)
      (fun l hl => ⟨hroot l hl, fun h => by omega⟩) (fun _ => by omega) hf
    exact ⟨r, hr, he, hed, ho⟩
  · intro hM rank hR
    obtain ⟨K, hK⟩ := exists_rank_bound rank n.Links
    refine ⟨K, fun fuel hf => ?_⟩
    obtain ⟨r, hr, he, _, _, _⟩ := writeRefsRecursive_treeWalk str V rank
      K fuel rw n 1 hU hN hG (fun _ => hR)
      (fun l hl => ⟨hroot l hl, fun _ => hK l hl⟩) (fun h => by omega) hf
    refine ⟨r, hr, he, fun k hk => ?_⟩
    obtain ⟨r2, hr2, _, _, hed2, ho2⟩ := writeRefsRecursive_treeWalk str V rank
      k (k + 1) rw n 1 hU hN hG (fun _ => hR)
      (fun l hl => ⟨hroot l hl, fun _ => lt_of_lt_of_le (hK l hl) hk⟩) (fun h => by omega)
      (le_refl _)
    have heq := writeRefsRecursive_fuel_unique str fuel (k + 1) rw n 1 r r2 hr hr2
    subst heq
    exact ⟨hed2, ho2⟩

theorem Example.dag_finiteGraph :
    FiniteGraph Example.dag [Example.R, Example.X, Example.Y] := by
  intro c hc
  simp only [List.mem_cons, List.mem_singleton, List.not_mem_nil, or_false] at hc
  rcases hc with rfl | rfl | rfl
  · refine ⟨Example.nodeR, rfl, ?_⟩
    decide
  · refine ⟨Example.nodeX, rfl, ?_⟩
    decide
  · refine ⟨Example.nodeY, rfl, ?_⟩
    decide

/-- Witness of C6: the scenario graph, duplicates allowed, unbounded depth. -/
theorem C6_nonunique_tree_walk_witness :
    (0 ≤ (RefWriter.fresh Example.dag none false [] (-1)).MaxDepth → ∀ fuel : Nat,
      (RefWriter.fresh Example.dag none false [] (-1)).MaxDepth.toNat + 1 ≤ fuel →
      ∃ r, (RefWriter.fresh Example.dag none false [] (-1)).WriteRefs Example.str fuel
          Example.nodeR = some r ∧ r.err = none ∧
        r.rw.edges = (RefWriter.fresh Example.dag none false [] (-1)).edges ++
          treeWalk (RefWriter.fresh Example.dag none false [] (-1)).DAG
            (RefWriter.fresh Example.dag none false [] (-1)).MaxDepth.toNat Example.nodeR 1 ∧
        r.rw.out = (RefWriter.fresh Example.dag none false [] (-1)).out ++
          (treeWalk (RefWriter.fresh Example.dag none false [] (-1)).DAG
            (RefWriter.fresh Example.dag none false [] (-1)).MaxDepth.toNat Example.nodeR 1).map
            (Edge.record Example.str
              (RefWriter.fresh Example.dag none false [] (-1)).PrintFmt)) ∧
    ((RefWriter.fresh Example.dag none false [] (-1)).MaxDepth < 0 →
      ∀ rank : Cid → Nat,
        RankDecreases (RefWriter.fresh Example.dag none false [] (-1)).DAG
          [Example.R, Example.X, Example.Y] rank →
      ∃ K : Nat, ∀ fuel : Nat, K + 1 ≤ fuel →
        ∃ r, (RefWriter.fresh Example.dag none false [] (-1)).WriteRefs Example.str fuel
            Example.nodeR = some r ∧ r.err = none ∧
          ∀ k : Nat, K ≤ k →
            r.rw.edges = (RefWriter.fresh Example.dag none false [] (-1)).edges ++
              treeWalk (RefWriter.fresh Example.dag none false [] (-1)).DAG k Example.nodeR 1 ∧
            r.rw.out = (RefWriter.fresh Example.dag none false [] (-1)).out ++
              (treeWalk (RefWriter.fresh Example.dag none false [] (-1)).DAG k
                Example.nodeR 1).map
                (Edge.record Example.str
                  (RefWriter.fresh Example.dag none false [] (-1)).PrintFmt)) :=
  C6_nonunique_tree_walk Example.str (RefWriter.fresh Example.dag none false [] (-1))
    Example.nodeR [Example.R, Example.X, Example.Y] rfl
    (by intro ctx h; simp [RefWriter.fresh] at h) Example.dag_finiteGraph (by decide)

theorem seenLe_refl (s : List Nat → Option Int) : SeenLe s s :=
  fun _ m h => ⟨m, h, le_refl _⟩

theorem seenLe_trans {s1 s2 s3 : List Nat → Option Int} (h1 : SeenLe s1 s2)
    (h2 : SeenLe s2 s3) : SeenLe s1 s3 := by
  intro key m h
  obtain ⟨m2, hm2, hle2⟩ := h1 key m h
  obtain ⟨m3, hm3, hle3⟩ := h2 key m2 hm2
  exact ⟨m3, hm3, le_trans hle3 hle2⟩

/-- The effect of `visit` on the `seen` map: nothing, or the visited CID is
recorded at the current depth, being new or recorded deeper before. -/
theorem visit_seen_cases (rw : RefWriter) (c : Cid) (depth : Int) :
    (rw.visit c depth).2.seen = rw.seen ∨
    ((rw.visit c depth).1.1 = true ∧
      (rw.visit c depth).2.seen = Function.update rw.seen c.Bytes (some depth) ∧
      (rw.seen c.Bytes = none ∨ ∃ od, rw.seen c.Bytes = some od ∧ depth < od)) := by
  unfold RefWriter.visit
  simp only
  split_ifs with h1 h2 h3
  · exact Or.inl rfl
  · exact Or.inl rfl
  · right
    refine ⟨rfl, rfl, ?_⟩
    rcases h3 with h3 | h3
    · left
      cases hs : rw.seen c.Bytes with
      | none => rfl
      | some v => rw [hs] at h3; simp at h3
    · cases hs : rw.seen c.Bytes with
      | none => exact Or.inl rfl
      | some v =>
        right
        rw [hs] at h3
        exact ⟨v, rfl, by simpa using h3⟩
  · exact Or.inl rfl

/-- The method `visit` keeps every recorded CID, at the same or a smaller depth. -/
theorem visit_seenLe (rw : RefWriter) (c : Cid) (depth : Int) :
    SeenLe rw.seen (rw.visit c depth).2.seen := by
  rcases visit_seen_cases rw c depth with h | ⟨_, h, hold⟩
  · rw [h]; exact seenLe_refl _
  · rw [h]
    intro key m hm
    by_cases hk : key = c.Bytes
    · subst hk
      rcases hold with hn | ⟨od, hod, hlt⟩
      · rw [hn] at hm; simp at hm
      · rw [hod] at hm
        simp only [Option.some.injEq] at hm
        subst hm
        exact ⟨depth, by simp, le_of_lt hlt⟩
    · exact ⟨m, by simp [Function.update_apply, hk, hm], le_refl _⟩

/-- Every call of `writeRefsRecursive` keeps every recorded CID, at the same or
a smaller depth. -/
theorem writeRefsRecursive_seenLe (str : Cid → GoString) (fuel : Nat) (rw : RefWriter)
    (n : Node) (depth : Int) (r : Result)
    (h : rw.writeRefsRecursive str fuel n depth = some r) : SeenLe rw.seen r.rw.seen :=
  writeRefsRecursive_rel str (fun a b => SeenLe a.seen b.seen) depth (fun a => seenLe_refl a.seen)
    (fun _ _ _ h1 h2 => seenLe_trans h1 h2)
    (fun rw nc l k _ => by
      show SeenLe rw.seen (visitLink str rw nc l k).2.2.seen
      rw [visitLink_seen]
      exact visit_seenLe rw l.Cid k)
    fuel rw n depth r (le_refl _) h

theorem recordedLe_mono {s1 s2 : List Nat → Option Int} (h : SeenLe s1 s2) {c : Cid} {k : Int}
    (hr : RecordedLe s1 c k) : RecordedLe s2 c k := by
  obtain ⟨m, hm, hle⟩ := hr
  obtain ⟨m2, hm2, hle2⟩ := h _ m hm
  exact ⟨m2, hm2, le_trans hle2 hle⟩

/-- A closed CID stays closed while its own record does not change. -/
theorem closedAt_mono {DAG : Cid → Except Error Node} {d : Int}
    {s1 s2 : List Nat → Option Int} (h : SeenLe s1 s2) {c : Cid}
    (hc : ClosedAt DAG d s1 c) (hsame : s2 c.Bytes = s1 c.Bytes) : ClosedAt DAG d s2 c := by
  intro m hm hlt nd hnd l hl
  rw [hsame] at hm
  exact recordedLe_mono h (hc m hm hlt nd hnd l hl)

/-- Within the bound, after `visit` the visited CID is recorded at the current
depth or a smaller one. -/
theorem visit_recordedLe (rw : RefWriter) (c : Cid) (depth : Int) (hm : 0 ≤ rw.MaxDepth)
    (hd : depth ≤ rw.MaxDepth) : RecordedLe (rw.visit c depth).2.seen c depth := by
  obtain ⟨v1, v2, v3⟩ := visit_within rw c depth hm hd
  cases hs : rw.seen c.Bytes with
  | none => rw [v1 hs]; exact ⟨depth, by simp, le_refl _⟩
  | some od =>
    by_cases hlt : depth < od
    · rw [v2 od hs hlt]; exact ⟨depth, by simp, le_refl _⟩
    · rw [v3 od hs (by omega)]; exact ⟨od, hs, by omega⟩

/-- A link step that refuses to explore leaves the `seen` map as it is. -/
theorem visitLink_skip_seen (str : Cid → GoString) (rw : RefWriter) (nc : Cid) (l : Link)
    (depth : Int) (hk : (visitLink str rw nc l depth).1 = false) :
    (visitLink str rw nc l depth).2.2.seen = rw.seen := by
  rw [visitLink_seen]
  rcases visit_seen_cases rw l.Cid depth with h | ⟨hk1, _⟩
  · exact h
  · rcases visitLink_cases str rw nc l depth with ⟨hk2, _⟩ | ⟨_, _, _, _, h⟩ | ⟨_, _, _, h⟩ |
      ⟨_, _, _, h⟩
    · rw [hk1] at hk2; simp at hk2
    all_goals (rw [h] at hk; simp at hk)

/-- The loop of a bounded walk that ends without error: the links of the node
end up recorded at the depth of the call or less, and every CID that was
closed before, or whose record changed, is closed afterwards. -/
theorem writeLinks_closes (str : Cid → GoString) (DAG : Cid → Except Error Node) (d : Int)
    (recurse : RefWriter → Node → Int → Option Result) (nc : Cid) (depth : Int)
    (hrec : ∀ (rw : RefWriter) (nd : Node) (r : Result), rw.DAG = DAG → rw.MaxDepth = d →
      recurse rw nd (depth + 1) = some r → r.err = none →
      SameConfig rw r.rw ∧ SeenLe rw.seen r.rw.seen ∧
      (depth + 1 ≤ d → ∀ l ∈ nd.Links, RecordedLe r.rw.seen l.Cid (depth + 1)) ∧
      (∀ c, (ClosedAt DAG d rw.seen c ∨ r.rw.seen c.Bytes ≠ rw.seen c.Bytes) →
        ClosedAt DAG d r.rw.seen c))
    (hd0 : 0 ≤ d) :
    ∀ (ls : List Link) (count : Int) (rw : RefWriter) (r : Result),
      rw.DAG = DAG → rw.MaxDepth = d →
      writeLinks str recurse nc depth ls count rw = some r → r.err = none →
      SameConfig rw r.rw ∧ SeenLe rw.seen r.rw.seen ∧
      (depth ≤ d → ∀ l ∈ ls, RecordedLe r.rw.seen l.Cid depth) ∧
      (∀ c, (ClosedAt DAG d rw.seen c ∨ r.rw.seen c.Bytes ≠ rw.seen c.Bytes) →
        ClosedAt DAG d r.rw.seen c) := by
  intro ls
  induction ls with
  | nil =>
    intro count rw r _ _ h _
    simp only [writeLinks, Option.some.injEq] at h
    subst h
    refine ⟨sameConfig_refl rw, seenLe_refl _, fun _ l hl => by simp at hl, fun c hc => ?_⟩
    rcases hc with hc | hc
    · exact hc
    · exact absurd rfl hc
  | cons l ls ih =>
    intro count rw r hD hM h he
    have hcfg : SameConfig rw (visitLink str rw nc l depth).2.2 :=
      (visitLink_extends str rw nc l depth).1
    have hseen := visitLink_seen str rw nc l depth
    have hle0 : SeenLe rw.seen (visitLink str rw nc l depth).2.2.seen := by
      rw [hseen]; exact visit_seenLe rw l.Cid depth
    have hrl : depth ≤ d →
        RecordedLe (visitLink str rw nc l depth).2.2.seen l.Cid depth := by
      intro hdd
      rw [hseen]
      exact visit_recordedLe rw l.Cid depth (by omega) (by omega)
    rcases writeLinks_cons_some h with ⟨hk, h1⟩ | ⟨_, err, _, h1⟩ | ⟨_, _, err, _, h1⟩ |
      ⟨_, _, nd, r1, hnd, hr1, h1⟩
    · -- the link is skipped
      obtain ⟨c1, c2, c3, c4⟩ := ih count _ r (hcfg.1.trans hD) (hcfg.2.2.2.1.trans hM) h1 he
      refine ⟨sameConfig_trans hcfg c1, seenLe_trans hle0 c2, ?_, ?_⟩
      · intro hdd l1 hl1
        rcases List.mem_cons.1 hl1 with rfl | hl1
        · exact recordedLe_mono c2 (hrl hdd)
        · exact c3 hdd l1 hl1
      · intro c hc
        apply c4 c
        rw [visitLink_skip_seen str rw nc l depth hk]
        exact hc
    · subst h1; simp at he
    · subst h1; simp at he
    · rcases h1 with ⟨err, _, h1⟩ | ⟨he1, h1⟩
      · subst h1; simp at he
      · -- the link is explored and the recursive call returns without error
        obtain ⟨q1, q2, q3, q4⟩ := hrec _ nd r1 (hcfg.1.trans hD) (hcfg.2.2.2.1.trans hM)
          hr1 he1
        have hcfg1 := sameConfig_trans hcfg q1
        obtain ⟨c1, c2, c3, c4⟩ := ih (count + r1.count) r1.rw r (hcfg1.1.trans hD)
          (hcfg1.2.2.2.1.trans hM) h1 he
        refine ⟨sameConfig_trans hcfg1 c1, seenLe_trans hle0 (seenLe_trans q2 c2), ?_, ?_⟩
        · intro hdd l1 hl1
          rcases List.mem_cons.1 hl1 with rfl | hl1
          · exact recordedLe_mono (seenLe_trans q2 c2) (hrl hdd)
          · exact c3 hdd l1 hl1
        · intro c hc
          apply c4 c
          by_cases hch : r.rw.seen c.Bytes = r1.rw.seen c.Bytes
          swap
          · exact Or.inr hch
          left
          rw [hch] at hc
          -- now show that `c` is closed after the recursive call
          have viaRec : (ClosedAt DAG d (visitLink str rw nc l depth).2.2.seen c ∨
              r1.rw.seen c.Bytes ≠ (visitLink str rw nc l depth).2.2.seen c.Bytes) →
              ClosedAt DAG d r1.rw.seen c := q4 c
          have same_case : (visitLink str rw nc l depth).2.2.seen c.Bytes = rw.seen c.Bytes →
              ClosedAt DAG d r1.rw.seen c := by
            intro hsame
            apply viaRec
            rcases hc with hc | hc
            · exact Or.inl (closedAt_mono hle0 hc hsame)
            · right; rw [hsame]; exact hc
          rcases visit_seen_cases rw l.Cid depth with hv | ⟨_, hv, _⟩
          · exact same_case (by rw [hseen, hv])
          · by_cases hcl : c.Bytes = l.Cid.Bytes
            · have hcl2 : c = l.Cid := Cid.eq_of_bytes hcl
              subst hcl2
              have hst : (visitLink str rw nc l depth).2.2.seen l.Cid.Bytes = some depth := by
                rw [hseen, hv]; simp
              by_cases hch2 : r1.rw.seen l.Cid.Bytes =
                  (visitLink str rw nc l depth).2.2.seen l.Cid.Bytes
              · intro m hm hlt nd2 hnd2 l2 hl2
                rw [hch2, hst] at hm
                simp only [Option.some.injEq] at hm
                subst hm
                have hnd3 : DAG l.Cid = .ok nd := by
                  rw [← hD, ← hcfg.1]; exact hnd
                rw [hnd3] at hnd2
                have hnn : nd = nd2 := Except.ok.inj hnd2
                subst hnn
                exact q3 (by omega) l2 hl2
              · exact viaRec (Or.inr hch2)
            · exact same_case (by rw [hseen, hv]; simp [Function.update_apply, hcl])

/-- A bounded walk that ends without error: see `writeLinks_closes`. -/
theorem writeRefsRecursive_closes (str : Cid → GoString) (DAG : Cid → Except Error Node)
    (d : Int) (hd0 : 0 ≤ d) :
    ∀ (fuel : Nat) (rw : RefWriter) (nd : Node) (depth : Int) (r : Result),
      rw.DAG = DAG → rw.MaxDepth = d →
      rw.writeRefsRecursive str fuel nd depth = some r → r.err = none →
      SameConfig rw r.rw ∧ SeenLe rw.seen r.rw.seen ∧
      (depth ≤ d → ∀ l ∈ nd.Links, RecordedLe r.rw.seen l.Cid depth) ∧
      (∀ c, (ClosedAt DAG d rw.seen c ∨ r.rw.seen c.Bytes ≠ rw.seen c.Bytes) →
        ClosedAt DAG d r.rw.seen c) := by
  intro fuel
  induction fuel with
  | zero => intro rw nd depth r _ _ h; simp [RefWriter.writeRefsRecursive] at h
  | succ fuel ih =>
    intro rw nd depth r hD hM h he
    rw [RefWriter.writeRefsRecursive] at h
    exact writeLinks_closes str DAG d (RefWriter.writeRefsRecursive str fuel) nd.Cid depth
      (fun rw1 nd1 r1 hD1 hM1 hr1 he1 => ih rw1 nd1 (depth + 1) r1 hD1 hM1 hr1 he1)
      hd0 nd.Links 0 rw r hD hM h he

/-- Recording a CID at the length of a path to it keeps the `seen` map sound. -/
theorem visit_sound (DAG : Cid → Except Error Node) (root : Node) (rw : RefWriter) (c : Cid)
    (j : Nat) (hp : LinkPath DAG root c j) (hs : SoundFor DAG root rw.seen) :
    SoundFor DAG root (rw.visit c (j : Int)).2.seen := by
  rcases visit_seen_cases rw c (j : Int) with h | ⟨_, h, _⟩
  · rw [h]; exact hs
  · rw [h]
    intro c1 m hm
    by_cases hc : c1.Bytes = c.Bytes
    · have : c1 = c := Cid.eq_of_bytes hc
      subst this
      simp only [Function.update_same, Option.some.injEq] at hm
      exact ⟨j, hm.symm, hp⟩
    · rw [Function.update_apply, if_neg hc] at hm
      exact hs c1 m hm

/-- The loop keeps the `seen` map sound when the links of the node are at
path length `j`, the depth of the call. -/
theorem writeLinks_sound (str : Cid → GoString) (DAG : Cid → Except Error Node) (root : Node)
    (recurse : RefWriter → Node → Int → Option Result) (nc : Cid) (j : Nat)
    (hrec : ∀ (rw : RefWriter) (nd : Node) (r : Result), rw.DAG = DAG →
      (∀ l ∈ nd.Links, LinkPath DAG root l.Cid (j + 1)) → SoundFor DAG root rw.seen →
      recurse rw nd ((j : Int) + 1) = some r → SameConfig rw r.rw ∧ SoundFor DAG root r.rw.seen) :
    ∀ (ls : List Link) (count : Int) (rw : RefWriter) (r : Result), rw.DAG = DAG →
      (∀ l ∈ ls, LinkPath DAG root l.Cid j) → SoundFor DAG root rw.seen →
      writeLinks str recurse nc (j : Int) ls count rw = some r →
      SameConfig rw r.rw ∧ SoundFor DAG root r.rw.seen := by
  intro ls
  induction ls with
  | nil =>
    intro count rw r _ _ hs h
    simp only [writeLinks, Option.some.injEq] at h
    subst h
    exact ⟨sameConfig_refl rw, hs⟩
  | cons l ls ih =>
    intro count rw r hD hL hs h
    have hcfg : SameConfig rw (visitLink str rw nc l (j : Int)).2.2 :=
      (visitLink_extends str rw nc l (j : Int)).1
    have hs1 : SoundFor DAG root (visitLink str rw nc l (j : Int)).2.2.seen := by
      rw [visitLink_seen]
      exact visit_sound DAG root rw l.Cid j (hL l (List.mem_cons_self _ _)) hs
    have hL2 : ∀ l1 ∈ ls, LinkPath DAG root l1.Cid j :=
      fun l1 hl1 => hL l1 (List.mem_cons_of_mem _ hl1)
    rcases writeLinks_cons_some h with ⟨_, h1⟩ | ⟨_, err, _, h1⟩ | ⟨_, _, err, _, h1⟩ |
      ⟨_, _, nd, r1, hnd, hr1, h1⟩
    · obtain ⟨c1, c2⟩ := ih count _ r (hcfg.1.trans hD) hL2 hs1 h1
      exact ⟨sameConfig_trans hcfg c1, c2⟩
    · subst h1; exact ⟨hcfg, hs1⟩
    · subst h1; exact ⟨hcfg, hs1⟩
    · have hnd2 : DAG l.Cid = .ok nd := by rw [← hD, ← hcfg.1]; exact hnd
      obtain ⟨q1, q2⟩ := hrec _ nd r1 (hcfg.1.trans hD)
        (fun l2 hl2 => LinkPath.snoc l.Cid j nd l2 (hL l (List.mem_cons_self _ _)) hnd2 hl2)
        hs1 hr1
      have hcfg1 := sameConfig_trans hcfg q1
      rcases h1 with ⟨err, _, h1⟩ | ⟨_, h1⟩
      · subst h1; exact ⟨hcfg1, q2⟩
      · obtain ⟨c1, c2⟩ := ih _ r1.rw r (hcfg1.1.trans hD) hL2 q2 h1
        exact ⟨sameConfig_trans hcfg1 c1, c2⟩

/-- Every call of `writeRefsRecursive` on a node whose links are at path length
`j`, at depth `j`, keeps the `seen` map sound. -/
theorem writeRefsRecursive_sound (str : Cid → GoString) (DAG : Cid → Except Error Node)
    (root : Node) :
    ∀ (fuel : Nat) (j : Nat) (rw : RefWriter) (nd : Node) (r : Result), rw.DAG = DAG →
      (∀ l ∈ nd.Links, LinkPath DAG root l.Cid j) → SoundFor DAG root rw.seen →
      rw.writeRefsRecursive str fuel nd (j : Int) = some r →
      SameConfig rw r.rw ∧ SoundFor DAG root r.rw.seen := by
  intro fuel
  induction fuel with
  | zero => intro j rw nd r _ _ _ h; simp [RefWriter.writeRefsRecursive] at h
  | succ fuel ih =>
    intro j rw nd r hD hL hs h
    rw [RefWriter.writeRefsRecursive] at h
    exact writeLinks_sound str DAG root (RefWriter.writeRefsRecursive str fuel) nd.Cid j
      (fun rw1 nd1 r1 hD1 hL1 hs1 hr1 => ih (j + 1) rw1 nd1 r1 hD1 hL1 hs1
        (by push_cast; exact hr1))
      nd.Links 0 rw r hD hL hs h

/-- In a closed `seen` map that records the direct links of the root at depth
1, every CID on a path of length `j ≤ d` is recorded at depth at most `j`. -/
theorem recordedLe_of_path (DAG : Cid → Except Error Node) (root : Node) (d : Int)
    (s : List Nat → Option Int) (hroot : 1 ≤ d → ∀ l ∈ root.Links, RecordedLe s l.Cid 1)
    (hclosed : ∀ c, ClosedAt DAG d s c) (c : Cid) (j : Nat) (hp : LinkPath DAG root c j)
    (hj : (j : Int) ≤ d) : RecordedLe s c (j : Int) := by
  induction hp with
  | direct l hl => exact hroot (by simpa using hj) l hl
  | snoc c k nd l _ hnd hl ih =>
    push_cast at hj
    obtain ⟨m, hm, hle⟩ := ih (by omega)
    obtain ⟨m2, hm2, hle2⟩ := hclosed c m hm (by omega) nd hnd l hl
    exact ⟨m2, hm2, by push_cast; omega⟩

/-- **C7**, as stated, fails.  (1) With unbounded depth (the default) on the
scenario graph, `Y` is reachable from `R` by paths of 1 and of 2 links, but the
walk meets it first below `X` and leaves the depth 2 in the `seen` map.
(2) With `MaxDepth = 1` on a graph where `Y` is 2 and 3 links away, `Y` is
never recorded. -/
theorem C7_shallowest_depth_counterexample :
    (∃ r, (RefWriter.fresh Example.dag none true [] (-1)).WriteRefs Example.str 3
        Example.nodeR = some r ∧ r.err = none ∧
      LinkPath Example.dag Example.nodeR Example.Y 1 ∧
      LinkPath Example.dag Example.nodeR Example.Y 2 ∧
      r.rw.seen Example.Y.Bytes = some 2) ∧
    (∃ r, (RefWriter.fresh Example.deepDag none true [] 1).WriteRefs Example.str 3
        Example.deepR = some r ∧ r.err = none ∧
      LinkPath Example.deepDag Example.deepR Example.Y 2 ∧
      LinkPath Example.deepDag Example.deepR Example.Y 3 ∧
      r.rw.seen Example.Y.Bytes = none) := by
  constructor
  · have h : Example.recorded Example.Y
        ((RefWriter.fresh Example.dag none true [] (-1)).WriteRefs Example.str 3
          Example.nodeR) = some (none, some 2) := by decide
    obtain ⟨r, hr, hv⟩ := Option.map_eq_some'.1 h
    simp only [Prod.mk.injEq] at hv
    refine ⟨r, hr, hv.1, ?_, ?_, hv.2⟩
    · exact LinkPath.direct ⟨"b".toList, Example.Y⟩ (by decide)
    · exact LinkPath.snoc Example.X 1 Example.nodeX ⟨"".toList, Example.Y⟩
        (LinkPath.direct ⟨"a".toList, Example.X⟩ (by decide)) rfl (by decide)
  · have h : Example.recorded Example.Y
        ((RefWriter.fresh Example.deepDag none true [] 1).WriteRefs Example.str 3
          Example.deepR) = some (none, none) := by decide
    obtain ⟨r, hr, hv⟩ := Option.map_eq_some'.1 h
    simp only [Prod.mk.injEq] at hv
    have hX : LinkPath Example.deepDag Example.deepR Example.X 1 :=
      LinkPath.direct ⟨"x".toList, Example.X⟩ (by decide)
    have hZ : LinkPath Example.deepDag Example.deepR Example.Z 1 :=
      LinkPath.direct ⟨"z".toList, Example.Z⟩ (by decide)
    refine ⟨r, hr, hv.1, ?_, ?_, hv.2⟩
    · exact LinkPath.snoc Example.X 1 Example.nodeX ⟨"".toList, Example.Y⟩ hX rfl (by decide)
    · exact LinkPath.snoc Example.X 2 Example.nodeX ⟨"".toList, Example.Y⟩
        (LinkPath.snoc Example.Z 1 Example.deepZ ⟨"x".toList, Example.X⟩ hZ rfl (by decide))
        rfl (by decide)

/-- The loop returns the count it was given when the recursive calls return 0. -/
theorem writeLinks_count (str : Cid → GoString)
    (recurse : RefWriter → Node → Int → Option Result) (nc : Cid) (depth : Int)
    (hrec : ∀ rw nd d r, recurse rw nd d = some r → r.count = 0) :
    ∀ (ls : List Link) (count : Int) (rw : RefWriter) (r : Result),
      writeLinks str recurse nc depth ls count rw = some r → r.count = count := by
  intro ls
  induction ls with
  | nil =>
    intro count rw r h
    simp only [writeLinks, Option.some.injEq] at h
    subst h
    rfl
  | cons l ls ih =>
    intro count rw r h
    rcases writeLinks_cons_some h with ⟨_, h1⟩ | ⟨_, err, _, h1⟩ | ⟨_, _, err, _, h1⟩ |
      ⟨_, _, nd, r1, _, hr1, h1⟩
    · exact ih _ _ _ h1
    · subst h1; rfl
    · subst h1; rfl
    · have h0 := hrec _ _ _ _ hr1
      rcases h1 with ⟨err, _, h1⟩ | ⟨_, h1⟩
      · subst h1; simp [h0]
      · have := ih _ _ _ h1
        rw [this, h0, add_zero]

/-- The count returned by `writeRefsRecursive` is always 0: it is never
incremented. -/
theorem writeRefsRecursive_count (str : Cid → GoString) :
    ∀ (fuel : Nat) (rw : RefWriter) (n : Node) (depth : Int) (r : Result),
      rw.writeRefsRecursive str fuel n depth = some r → r.count = 0 := by
  intro fuel
  induction fuel with
  | zero => intro rw n depth r h; simp [RefWriter.writeRefsRecursive] at h
  | succ fuel ih =>
    intro rw n depth r h
    rw [RefWriter.writeRefsRecursive] at h
    exact writeLinks_count str _ n.Cid depth (fun rw1 nd d r1 h1 => ih rw1 nd d r1 h1)
      n.Links 0 rw r h

/-- **C8** fails on the code: `WriteRefs` returns the count 0 for every root and
configuration, whatever it wrote; on the scenario graph (unbounded, unique)
it sends two records and returns `(0, nil)`. -/
theorem C8_count_is_zero :
    (∀ (str : Cid → GoString) (fuel : Nat) (rw : RefWriter) (n : Node) (r : Result),
      rw.WriteRefs str fuel n = some r → r.count = 0) ∧
    (∃ r, (Example.scenario (-1)).WriteRefs Example.str 3 Example.nodeR = some r ∧
      r.err = none ∧ r.rw.out.length = 2 ∧ r.count = 0) := by
  refine ⟨fun str fuel rw n r h => writeRefsRecursive_count str fuel rw n 1 r h, ?_⟩
  have h : ((Example.scenario (-1)).WriteRefs Example.str 3 Example.nodeR).map
      (fun r => (r.err, r.rw.out.length, r.count)) = some (none, 2, 0) := by decide
  obtain ⟨r, hr, hv⟩ := Option.map_eq_some'.1 h
  simp only [Prod.mk.injEq] at hv
  exact ⟨r, hr, hv.1, hv.2.1, hv.2.2⟩

/-- A replacement leaves alone a prefix that does not contain the first
character of the pattern. -/
theorem replaceFrom_skip (c0 : Char) (rest new : GoString) :
    ∀ (a t : GoString) (n : Nat), c0 ∉ a →
      strings.replaceFrom (c0 :: rest) new (a.length + n) (a ++ t) =
        a ++ strings.replaceFrom (c0 :: rest) new n t := by
  intro a
  induction a with
  | nil => intro t n _; simp
  | cons x a ih =>
    intro t n hx
    have hne : c0 ≠ x := fun h => hx (by rw [h]; exact List.mem_cons_self _ _)
    have hna : c0 ∉ a := fun h => hx (List.mem_cons_of_mem _ h)
    have hl : (x :: a).length + n = (a.length + n) + 1 := by simp; omega
    rw [hl, List.cons_append, strings.replaceFrom]
    have hp : (c0 :: rest).isPrefixOf (x :: (a ++ t)) = false := by
      simp [List.isPrefixOf, hne]
    rw [hp]
    simp only [Bool.false_eq_true, if_false]
    rw [ih t n hna]
    rfl

/-- A string without the first character of the pattern is left as it is. -/
theorem Replace_absent (c0 : Char) (rest new s : GoString) (h : c0 ∉ s) :
    strings.Replace s (c0 :: rest) new = s := by
  unfold strings.Replace
  rw [if_neg (by simp)]
  have := replaceFrom_skip c0 rest new s [] 0 h
  simp only [add_zero, List.append_nil] at this
  rw [this]
  cases s <;> simp [strings.replaceFrom]

/-- The edge template `<src> -> <dst>` renders to the two CID strings around
an arrow, whatever the link name, when the CID strings contain no `<`. -/
theorem render_edge_format (str : Cid → GoString) (A B : Cid) (name : GoString)
    (hA : '<' ∉ str A) (hB : '<' ∉ str B) :
    render str "<src> -> <dst>".toList A B name = str A ++ " -> ".toList ++ str B := by
  have h1 : strings.Replace "<src> -> <dst>".toList "<src>".toList (str A) =
      str A ++ " -> <dst>".toList := by
    unfold strings.Replace
    rw [if_neg (by decide)]
    rfl
  have h2 : strings.Replace (str A ++ " -> <dst>".toList) "<dst>".toList (str B) =
      str A ++ " -> ".toList ++ str B := by
    unfold strings.Replace
    rw [if_neg (by decide), List.length_append]
    have hs := replaceFrom_skip '<' "dst>".toList (str B) (str A) " -> <dst>".toList
      " -> <dst>".toList.length hA
    have e2 : "<dst>".toList = '<' :: "dst>".toList := rfl
    rw [e2, hs, List.append_assoc]
    congr 1
    simp [strings.replaceFrom, List.isPrefixOf]
  have h3 : strings.Replace (str A ++ " -> ".toList ++ str B) "<linkname>".toList name =
      str A ++ " -> ".toList ++ str B := by
    have e3 : "<linkname>".toList = '<' :: "linkname>".toList := rfl
    rw [e3]
    apply Replace_absent
    simp only [List.mem_append, not_or]
    exact ⟨⟨hA, by decide⟩, hB⟩
  unfold render
  rw [if_pos (by decide), h1, h2, h3]

/-- **C9** Formatting.  With `PrintFmt = "<src> -> <dst>"`, for every source
CID `A`, destination CID `B` and link name, when the CID strings contain no
`<` and the context is not done, `WriteEdge` sends exactly one record, and
its reference is `A.String() ++ " -> " ++ B.String()`, whatever the link name. -/
theorem C9_edge_format (str : Cid → GoString) (rw : RefWriter) (A B : Cid) (name : GoString)
    (hF : rw.PrintFmt = "<src> -> <dst>".toList) (hA : '<' ∉ str A) (hB : '<' ∉ str B)
    (hC : rw.Ctx.bind (fun ctx => ctx.Err rw.out.length) = none) :
    rw.WriteEdge str A B name =
      (none, { rw with out := rw.out ++ [⟨str A ++ " -> ".toList ++ str B, []⟩] }) := by
  unfold RefWriter.WriteEdge
  rw [hC, hF, render_edge_format str A B name hA hB]

/-- Witness of C9: the edge `R → X` named `a` of the scenario graph. -/
theorem C9_edge_format_witness :
    (Example.scenario 2).WriteEdge Example.str Example.R Example.X "a".toList =
      (none, { Example.scenario 2 with
        out := (Example.scenario 2).out ++
          [⟨Example.str Example.R ++ " -> ".toList ++ Example.str Example.X, []⟩] }) :=
  C9_edge_format Example.str (Example.scenario 2) Example.R Example.X "a".toList rfl
    (by decide) (by decide) rfl

/-- A call of `writeRefsRecursive` keeps the output channel made of the records
of the written edges only. -/
theorem writeRefsRecursive_onlyEdgeRecords (str : Cid → GoString) (fuel : Nat)
    (rw : RefWriter) (n : Node) (depth : Int) (r : Result) (hJ : OnlyEdgeRecords str rw)
    (h : rw.writeRefsRecursive str fuel n depth = some r) : OnlyEdgeRecords str r.rw := by
  obtain ⟨hc, new, he, ho, _⟩ := writeRefsRecursive_extends str fuel rw n depth r h
  unfold OnlyEdgeRecords at hJ ⊢
  rw [ho, he, hJ, hc.2.2.2.2, List.map_append]

/-- With a context that is not done, the error record is sent. -/
theorem sendError_not_done (sendWins : Bool) (ctx : Context) (rw : RefWriter) (e : Error)
    (hctx : ctx.doneAfter = none) :
    sendError sendWins ctx rw e = { rw with out := rw.out ++ [⟨[], e⟩] } := by
  simp [sendError, Context.Err, hctx]

/-- **C10**, as stated, fails when the request context is done.  The root
`R` has the links `[Z, Y]` and `Z` cannot be fetched; the context is done after
one record and the consumer has stopped receiving.  The fetch error ends the
traversal, but the producer drops the error record: the stream is closed
with the single reference `Z` and no error record, although the root was not
fully traversed. -/
theorem C10_fetch_errors_counterexample :
    ∃ (final : RefWriter) (r : Result) (e : Error),
      stream Example.str 3 false Example.cancelled1 Example.dag false [] (-1)
        [Example.broken] = some final ∧
      (RefWriter.fresh Example.dag (some Example.cancelled1) false [] (-1)).WriteRefs
        Example.str 3 Example.broken = some r ∧
      r.err = some e ∧ Example.dag Example.Z = .error e ∧
      final.out = r.rw.out ∧ final.out = [⟨"Z".toList, []⟩] := by
  have h1 : (stream Example.str 3 false Example.cancelled1 Example.dag false [] (-1)
      [Example.broken]).map (fun f => f.out) = some [⟨"Z".toList, []⟩] := by decide
  have h2 : ((RefWriter.fresh Example.dag (some Example.cancelled1) false [] (-1)).WriteRefs
      Example.str 3 Example.broken).map (fun r => (r.err, r.rw.out)) =
      some (some "not found".toList, [⟨"Z".toList, []⟩]) := by decide
  obtain ⟨final, hf, hfo⟩ := Option.map_eq_some'.1 h1
  obtain ⟨r, hr, hv⟩ := Option.map_eq_some'.1 h2
  simp only [Prod.mk.injEq] at hv
  exact ⟨final, r, "not found".toList, hf, hr, hv.1, rfl, by rw [hfo, hv.2], hfo⟩

/-- The function `objectsForPaths` stops at the first path that cannot be
parsed or resolved and returns its error. -/
theorem objectsForPaths_first_error (ParsePath : GoString → Except Error Path) (n : IpfsNode)
    (sp : GoString) (paths2 : List GoString) (e : Error)
    (hfail : ParsePath sp = .error e ∨ ∃ p, ParsePath sp = .ok p ∧ n.Resolve p = .error e) :
    ∀ (paths1 : List GoString) (objs1 : List Node),
      objectsForPaths ParsePath n paths1 = .ok objs1 →
      objectsForPaths ParsePath n (paths1 ++ sp :: paths2) = .error e := by
  intro paths1
  induction paths1 with
  | nil =>
    intro _ _
    rcases hfail with h | ⟨p, hp, hr⟩
    · simp only [List.nil_append, objectsForPaths, h]
    · simp only [List.nil_append, objectsForPaths, hp, hr]
  | cons sp1 ps ih =>
    intro objs1 h
    rw [objectsForPaths] at h
    rw [List.cons_append, objectsForPaths]
    cases hp : ParsePath sp1 with
    | error err => rw [hp] at h; simp at h
    | ok p =>
      rw [hp] at h
      simp only at h ⊢
      cases hr : n.Resolve p with
      | error err => rw [hr] at h; simp at h
      | ok o =>
        rw [hr] at h
        simp only at h ⊢
        cases ho : objectsForPaths ParsePath n ps with
        | error err => rw [ho] at h; simp at h
        | ok objs => rw [ih objs ho]

/-- **C11**, as stated, fails: with the two paths `/ipfs/R` and `bad`, of which
the second cannot be parsed, `RefsCmd.Run` sets the parse error and produces
no stream at all: the resolvable root `R` is not traversed either. -/
theorem C11_resolution_errors_counterexample :
    RefsCmd.Run Example.str Example.parse 3 true
        (Example.request ["/ipfs/R".toList, "bad".toList]) =
      .error ("invalid path".toList, ErrorType.ErrNormal) ∧
    ∃ w, RefsCmd.Run Example.str Example.parse 3 true (Example.request ["/ipfs/R".toList]) =
      .ok (some w) ∧ w.out.length = 2 := by
  refine ⟨rfl, ?_⟩
  have hs : (stream Example.str 3 true Example.background Example.dag false "<dst>".toList 1
      [Example.nodeR]).map (fun w => w.out.length) = some 2 := by decide
  obtain ⟨w, hw, hl⟩ := Option.map_eq_some'.1 hs
  have hrun : RefsCmd.Run Example.str Example.parse 3 true
      (Example.request ["/ipfs/R".toList]) =
      .ok (stream Example.str 3 true Example.background Example.dag false "<dst>".toList 1
        [Example.nodeR]) := rfl
  exact ⟨w, by rw [hrun, hw], hl⟩

/-- **C11**, amended.  Resolution errors abort the whole command: when the
node is available and the options are accepted, and one of the supplied paths
cannot be parsed or resolved while the paths before it can, `RefsCmd.Run`
sets that error (as a normal error) and produces no stream: no root is
traversed, and the result does not depend on the paths after the failing one. -/
theorem C11_resolution_errors_amended (str : Cid → GoString)
    (ParsePath : GoString → Except Error Path) (fuel : Nat) (sendWins : Bool) (req : Request)
    (n : IpfsNode) (paths1 : List GoString) (sp : GoString) (paths2 : List GoString)
    (objs1 : List Node) (e : Error) (hN : req.GetNode = .ok n)
    (hcfg : ¬ (req.edges = true ∧ req.format.getD "<dst>".toList ≠ "<dst>".toList))
    (hargs : req.Arguments = paths1 ++ sp :: paths2)
    (h1 : objectsForPaths ParsePath n paths1 = .ok objs1)
    (hfail : ParsePath sp = .error e ∨ ∃ p, ParsePath sp = .ok p ∧ n.Resolve p = .error e) :
    RefsCmd.Run str ParsePath fuel sendWins req = .error (e, ErrorType.ErrNormal) := by
  have ho := objectsForPaths_first_error ParsePath n sp paths2 e hfail paths1 objs1 h1
  unfold RefsCmd.Run
  simp only [hN]
  rw [if_neg hcfg, hargs, ho]

/-- Witness of the amended C11: the paths `/ipfs/R`, `bad`, `/ipfs/X`. -/
theorem C11_resolution_errors_amended_witness :
    RefsCmd.Run Example.str Example.parse 3 true
        (Example.request ["/ipfs/R".toList, "bad".toList, "/ipfs/X".toList]) =
      .error ("invalid path".toList, ErrorType.ErrNormal) :=
  C11_resolution_errors_amended Example.str Example.parse 3 true
    (Example.request ["/ipfs/R".toList, "bad".toList, "/ipfs/X".toList]) Example.ipfsNode
    ["/ipfs/R".toList] "bad".toList ["/ipfs/X".toList] [Example.nodeR]
    "invalid path".toList rfl (by decide) rfl rfl (Or.inl rfl)

/-- **C12**, as stated, fails.  (1) The template `<dst>` supplied together with
the edges flag is not rejected: the command cannot tell it from the default
and streams with the edge template.  (2) When the node cannot be obtained,
a custom template with the edges flag is rejected with the node's error as a
normal error, not as a client error. -/
theorem C12_config_error_counterexample :
    RefsCmd.Run Example.str Example.parse 3 true
        { Example.request ["/ipfs/R".toList] with
          format := some "<dst>".toList, edges := true } =
      .ok (stream Example.str 3 true Example.background Example.dag false
        "<src> -> <dst>".toList 1 [Example.nodeR]) ∧
    RefsCmd.Run Example.str Example.parse 3 true
        { Example.request ["/ipfs/R".toList] with
          GetNode := .error "offline".toList, format := some "<linkname>".toList,
          edges := true } =
      .error ("offline".toList, ErrorType.ErrNormal) :=
  ⟨rfl, rfl⟩

/-- **C12**, amended.  When the node is available: (1) every format template
other than `<dst>`, supplied together with the edges flag, is rejected as a
client error and no stream is produced; (2) with the edges flag and no format
(or the format `<dst>`) the template used is `<src> -> <dst>`; (3) with
neither it is `<dst>`.  In (2) and (3) a resolution error is reported instead
of the stream, and the depth bound is 1 unless the recursive flag is set.
(4) When the node cannot be obtained, that error is reported as a normal
error and no stream is produced, whatever the options are. -/
theorem C12_config_error_amended (str : Cid → GoString)
    (ParsePath : GoString → Except Error Path) (fuel : Nat) (sendWins : Bool) (req : Request) :
    (∀ n : IpfsNode, req.GetNode = .ok n →
      (∀ fmt, req.format = some fmt → fmt ≠ "<dst>".toList → req.edges = true →
        RefsCmd.Run str ParsePath fuel sendWins req =
          .error ("using format argument with edges is not allowed".toList,
            ErrorType.ErrClient)) ∧
      (req.format.getD "<dst>".toList = "<dst>".toList → req.edges = true →
        RefsCmd.Run str ParsePath fuel sendWins req =
          match objectsForPaths ParsePath n req.Arguments with
          | .error err => .error (err, ErrorType.ErrNormal)
          | .ok objs => .ok (stream str fuel sendWins req.Context n.DAG req.unique
              "<src> -> <dst>".toList
              (if req.recursive = true then req.maxDepth.getD (-1) else 1) objs)) ∧
      (req.format = none → req.edges = false →
        RefsCmd.Run str ParsePath fuel sendWins req =
          match objectsForPaths ParsePath n req.Arguments with
          | .error err => .error (err, ErrorType.ErrNormal)
          | .ok objs => .ok (stream str fuel sendWins req.Context n.DAG req.unique
              "<dst>".toList
              (if req.recursive = true then req.maxDepth.getD (-1) else 1) objs))) ∧
    (∀ err : Error, req.GetNode = .error err →
      RefsCmd.Run str ParsePath fuel sendWins req = .error (err, ErrorType.ErrNormal)) := by
  refine ⟨fun n hN => ⟨fun fmt hf hne he => ?_, fun hf he => ?_, fun hf he => ?_⟩,
    fun err hN => ?_⟩
  · unfold RefsCmd.Run
    simp only [hN, hf, Option.getD_some]
    rw [if_pos ⟨he, hne⟩]
  · unfold RefsCmd.Run
    simp only [hN]
    rw [if_neg (fun h => h.2 hf)]
    cases hr : req.recursive <;> simp [he]
  · unfold RefsCmd.Run
    simp only [hN]
    rw [if_neg (fun h => by rw [he] at h; exact absurd h.1 (by decide))]
    cases hr : req.recursive <;> simp [he, hf]
  · unfold RefsCmd.Run
    simp only [hN]

/-- Witness of the amended C12: the template `<linkname>` with the edges flag
is rejected as a client error when the node is available, and with the node's
error as a normal error when it is not. -/
theorem C12_config_error_amended_witness :
    RefsCmd.Run Example.str Example.parse 3 true
        { Example.request ["/ipfs/R".toList] with
          format := some "<linkname>".toList, edges := true } =
      .error ("using format argument with edges is not allowed".toList,
        ErrorType.ErrClient) ∧
    RefsCmd.Run Example.str Example.parse 3 true
        { Example.request ["/ipfs/R".toList] with
          GetNode := .error "offline".toList, format := some "<linkname>".toList,
          edges := true } =
      .error ("offline".toList, ErrorType.ErrNormal) :=
  ⟨((C12_config_error_amended Example.str Example.parse 3 true
      { Example.request ["/ipfs/R".toList] with
        format := some "<linkname>".toList, edges := true }).1 Example.ipfsNode rfl).1
      "<linkname>".toList rfl (by decide) rfl,
    (C12_config_error_amended Example.str Example.parse 3 true
      { Example.request ["/ipfs/R".toList] with
        GetNode := .error "offline".toList, format := some "<linkname>".toList,
        edges := true }).2 "offline".toList rfl⟩

/-- With a done context `WriteEdge` sends nothing and returns the context error. -/
theorem WriteEdge_done (str : Cid → GoString) (rw : RefWriter) (ctx : Context) (e : Error)
    (hctx : rw.Ctx = some ctx) (hdone : ctx.Err rw.out.length = some e) (src dst : Cid)
    (name : GoString) : rw.WriteEdge str src dst name = (some e, rw) := by
  unfold RefWriter.WriteEdge
  simp only [hctx, Option.some_bind, hdone]

/-- With a done context, one link step sends nothing. -/
theorem visitLink_done (str : Cid → GoString) (rw : RefWriter) (ctx : Context) (e : Error)
    (hctx : rw.Ctx = some ctx) (hdone : ctx.Err rw.out.length = some e) (nc : Cid) (l : Link)
    (depth : Int) :
    (visitLink str rw nc l depth).2.2.out = rw.out ∧
      (visitLink str rw nc l depth).2.2.edges = rw.edges := by
  obtain ⟨hcfg, hout, hedges⟩ := visit_frame rw l.Cid depth
  rcases visitLink_cases str rw nc l depth with ⟨_, h⟩ | ⟨_, _, err, _, h⟩ | ⟨_, _, hc, _⟩ |
    ⟨_, _, _, h⟩
  · rw [h]; exact ⟨hout, hedges⟩
  · rw [h]; exact ⟨hout, hedges⟩
  · rw [hcfg.2.1, hctx, hout] at hc
    simp only [Option.some_bind, hdone] at hc
    exact absurd hc (by simp)
  · rw [h]; exact ⟨hout, hedges⟩

/-- The producer loop keeps every recorded CID, at the same or a smaller depth. -/
theorem produce_seenLe (str : Cid → GoString) (fuel : Nat) (sendWins : Bool) (ctx : Context) :
    ∀ (objs : List Node) (rw final : RefWriter),
      produce str fuel sendWins ctx rw objs = some final → SeenLe rw.seen final.seen := by
  intro objs
  induction objs with
  | nil =>
    intro rw final h
    simp only [produce, Option.some.injEq] at h
    subst h
    exact seenLe_refl _
  | cons o os ih =>
    intro rw final h
    rw [produce] at h
    cases hr : rw.WriteRefs str fuel o with
    | none => rw [hr] at h; simp at h
    | some r =>
      rw [hr] at h
      simp only at h
      have h1 := writeRefsRecursive_seenLe str fuel rw o 1 r hr
      cases he : r.err with
      | none => rw [he] at h; exact seenLe_trans h1 (ih r.rw final h)
      | some err =>
        rw [he] at h
        simp only [Option.some.injEq] at h
        subst h
        unfold sendError
        split
        · split_ifs
          · exact h1
          · exact h1
        · exact h1

/-- **C14** Visit Record invariant.  Every call `visit(c, depth)`, for any
configuration, keeps every CID that was in the `seen` map and leaves its
recorded depth unchanged or smaller; hence so does every call of
`writeRefsRecursive`, and every run of the producer over all roots. -/
theorem C14_visit_record_invariant :
    (∀ (rw : RefWriter) (c : Cid) (depth : Int) (key : List Nat) (m : Int),
      rw.seen key = some m → ∃ m2, (rw.visit c depth).2.seen key = some m2 ∧ m2 ≤ m) ∧
    (∀ (str : Cid → GoString) (fuel : Nat) (rw : RefWriter) (n : Node) (depth : Int)
        (r : Result), rw.writeRefsRecursive str fuel n depth = some r →
      ∀ (key : List Nat) (m : Int), rw.seen key = some m →
        ∃ m2, r.rw.seen key = some m2 ∧ m2 ≤ m) ∧
    (∀ (str : Cid → GoString) (fuel : Nat) (sendWins : Bool) (ctx : Context) (rw : RefWriter)
        (objs : List Node) (final : RefWriter),
      produce str fuel sendWins ctx rw objs = some final →
      ∀ (key : List Nat) (m : Int), rw.seen key = some m →
        ∃ m2, final.seen key = some m2 ∧ m2 ≤ m) :=
  ⟨fun rw c depth key m h => visit_seenLe rw c depth key m h,
    fun str fuel rw n depth r h key m hm =>
      writeRefsRecursive_seenLe str fuel rw n depth r h key m hm,
    fun str fuel sendWins ctx rw objs final h key m hm =>
      produce_seenLe str fuel sendWins ctx objs rw final h key m hm⟩

/-- **C17** `visit` never explores past the bound: if `MaxDepth ≥ 0` and
`depth > MaxDepth`, then `visit(c, depth)` returns `(false, previouslySeen)`
where `previouslySeen` tells whether `c` was in the `seen` map, and the writer
(so the `seen` map) is left unchanged. -/
theorem C17_visit_past_bound (rw : RefWriter) (c : Cid) (depth : Int)
    (hm : 0 ≤ rw.MaxDepth) (hd : rw.MaxDepth < depth) :
    rw.visit c depth = ((false, (rw.seen c.Bytes).isSome), rw) ∧
      ((rw.seen c.Bytes).isSome = true ↔ ∃ od, rw.seen c.Bytes = some od) :=
  ⟨visit_over_bound rw c depth hm hd, Option.isSome_iff_exists⟩

/-- Witness of C17: a new CID at depth 2 with `MaxDepth = 1`. -/
theorem C17_visit_past_bound_witness :
    (Example.scenario 1).visit Example.X 2 =
        ((false, ((Example.scenario 1).seen Example.X.Bytes).isSome), Example.scenario 1) ∧
      (((Example.scenario 1).seen Example.X.Bytes).isSome = true ↔
        ∃ od, (Example.scenario 1).seen Example.X.Bytes = some od) :=
  C17_visit_past_bound (Example.scenario 1) Example.X 2 (by decide) (by decide)

/-- **C18**, as stated, fails.  (1) A new CID met past the bound (`MaxDepth = 1`,
depth 2) is neither recorded nor explored.  (2) With `MaxDepth < 0`, a CID
recorded at depth 5 and met again at depth 2 keeps the depth 5, and under
`Unique` is not explored. -/
theorem C18_visit_new_or_shallower_counterexample :
    (((Example.scenario 1).visit Example.X 2).1.1 = false ∧
      ((Example.scenario 1).visit Example.X 2).2.seen Example.X.Bytes = none) ∧
    (Example.seenX5.seen Example.X.Bytes = some 5 ∧
      (Example.seenX5.visit Example.X 2).1.1 = false ∧
      (Example.seenX5.visit Example.X 2).2.seen Example.X.Bytes = some 5) := by
  decide

/-- **C18**, amended.  When the depth is within the bound (`MaxDepth < 0`, or
`depth ≤ MaxDepth`): if `c` is not yet in the `seen` map, `visit(c, depth)`
records `c` at `depth` and returns `(true, false)`; and when a bound is
configured and `depth` is smaller than the depth recorded for `c`, it lowers
the record of `c` to `depth` and returns `(true, true)`. -/
theorem C18_visit_new_or_shallower_amended (rw : RefWriter) (c : Cid) (depth : Int)
    (hb : rw.MaxDepth < 0 ∨ depth ≤ rw.MaxDepth) :
    (rw.seen c.Bytes = none → rw.visit c depth =
      ((true, false), { rw with seen := Function.update rw.seen c.Bytes (some depth) })) ∧
    (0 ≤ rw.MaxDepth → ∀ od, rw.seen c.Bytes = some od → depth < od → rw.visit c depth =
      ((true, true), { rw with seen := Function.update rw.seen c.Bytes (some depth) })) := by
  constructor
  · intro hs
    unfold RefWriter.visit
    simp only [hs, Option.isSome_none]
    split_ifs with h1 h2 h3
    · omega
    · simp at h2
    · rfl
    · simp at h3
  · intro hm od hs hlt
    exact (visit_within rw c depth hm (by omega)).2.1 od hs hlt

/-- Witness of the amended C18: a new CID at depth 1 with `MaxDepth = 1`. -/
theorem C18_visit_new_or_shallower_amended_witness :
    ((Example.scenario 1).seen Example.X.Bytes = none →
      (Example.scenario 1).visit Example.X 1 =
        ((true, false), { Example.scenario 1 with
          seen := Function.update (Example.scenario 1).seen Example.X.Bytes (some 1) })) ∧
    (0 ≤ (Example.scenario 1).MaxDepth → ∀ od,
      (Example.scenario 1).seen Example.X.Bytes = some od → 1 < od →
      (Example.scenario 1).visit Example.X 1 =
        ((true, true), { Example.scenario 1 with
          seen := Function.update (Example.scenario 1).seen Example.X.Bytes (some 1) })) :=
  C18_visit_new_or_shallower_amended (Example.scenario 1) Example.X 1 (Or.inr (by decide))

/-- **C19** `visit` on a repeat sighting: if `c` is already in the `seen` map,
at depth `od`, and either `MaxDepth < 0`, or `MaxDepth ≥ 0` with
`depth ≤ MaxDepth` and `od ≤ depth`, then `visit(c, depth)` returns
`(not Unique, true)` and leaves the writer (so the `seen` map) unchanged. -/
theorem C19_visit_repeat (rw : RefWriter) (c : Cid) (depth od : Int)
    (hs : rw.seen c.Bytes = some od)
    (h : rw.MaxDepth < 0 ∨ (0 ≤ rw.MaxDepth ∧ depth ≤ rw.MaxDepth ∧ od ≤ depth)) :
    rw.visit c depth = ((!rw.Unique, true), rw) := by
  rcases h with h | ⟨h1, h2, h3⟩
  · unfold RefWriter.visit
    simp only [hs, Option.isSome_some]
    split_ifs with h1 h2
    · omega
    · rfl
    · exact absurd ⟨trivial, h⟩ h2
    · rfl
  · exact (visit_within rw c depth h1 h2).2.2 od hs h3

/-- Witness of C19: `X` recorded at depth 5 and met at depth 7, unbounded. -/
theorem C19_visit_repeat_witness :
    Example.seenX5.visit Example.X 7 = ((!Example.seenX5.Unique, true), Example.seenX5) :=
  C19_visit_repeat Example.seenX5 Example.X 7 5 (by decide) (Or.inl (by decide))

/-- **C15** `Inliner.Sum` threshold: for every byte string and limit, if
`len(data) ≤ limit` the identifier is the one computed by `FormatV1` with the
identity hash `mh.ID` under the codec of the base format, and if
`len(data) > limit` the result is exactly `base.Sum(data)`; the boundary
`len(data) = limit` is inlined. -/
theorem C15_inliner_sum :
    ∀ (FormatV1Sum : Nat → Nat → List Nat → Except Error Cid) (p : Inliner) (data : List Nat),
      ((data.length : Int) ≤ p.limit →
        p.Sum FormatV1Sum data = FormatV1Sum p.base.GetCodec mhID data) ∧
      (p.limit < (data.length : Int) → p.Sum FormatV1Sum data = p.base.Sum data) ∧
      ((data.length : Int) = p.limit →
        p.Sum FormatV1Sum data = FormatV1Sum p.base.GetCodec mhID data) := by
  intro F p data
  refine ⟨fun h => ?_, fun h => ?_, fun h => ?_⟩
  · unfold Inliner.Sum
    rw [if_neg (by omega)]
  · unfold Inliner.Sum
    rw [if_pos h]
  · unfold Inliner.Sum
    rw [if_neg (by omega)]

/-- Witness of C15 on a concrete inliner with limit 2: two bytes (the boundary)
are inlined with the identity hash under the base codec 112, three bytes go to
the base format, and the two results differ. -/
theorem C15_inliner_sum_witness :
    (((([7, 8] : List Nat).length : Int) ≤ Example.inliner.limit →
        Example.inliner.Sum Example.formatV1Sum [7, 8] =
          Example.formatV1Sum Example.inliner.base.GetCodec mhID [7, 8]) ∧
      (Example.inliner.limit < (([7, 8] : List Nat).length : Int) →
        Example.inliner.Sum Example.formatV1Sum [7, 8] = Example.inliner.base.Sum [7, 8]) ∧
      ((([7, 8] : List Nat).length : Int) = Example.inliner.limit →
        Example.inliner.Sum Example.formatV1Sum [7, 8] =
          Example.formatV1Sum Example.inliner.base.GetCodec mhID [7, 8])) ∧
    Example.inliner.Sum Example.formatV1Sum [7, 8] = .ok ⟨[112, 0, 7, 8]⟩ ∧
    Example.inliner.Sum Example.formatV1Sum [7, 8, 9] = .ok ⟨[112, 18, 7, 8, 9]⟩ ∧
    (Example.inliner.WithCodec 85).Sum Example.formatV1Sum [7] = .ok ⟨[85, 0, 7]⟩ :=
  ⟨C15_inliner_sum Example.formatV1Sum Example.inliner [7, 8], rfl, rfl, rfl⟩

/-- A split always has at least one segment, and the first is a prefix of the string. -/
theorem splitFrom_head (old : GoString) :
    ∀ (n : Nat) (s : GoString), ∃ seg segs, strings.splitFrom old n s = seg :: segs ∧
      seg <+: s := by
  intro n
  induction n with
  | zero => intro s; exact ⟨s, [], rfl, List.prefix_refl _⟩
  | succ n ih =>
    intro s
    cases s with
    | nil => exact ⟨[], [], rfl, List.prefix_refl _⟩
    | cons c cs =>
      rw [strings.splitFrom]
      split_ifs with hp
      · exact ⟨[], _, rfl, List.nil_prefix⟩
      · obtain ⟨seg, segs, h, hpre⟩ := ih cs
        rw [h]
        exact ⟨c :: seg, segs, rfl, (List.prefix_cons_inj c).2 hpre⟩

/-- Joining the segments of a split with the new string is the replacement. -/
theorem join_splitFrom_new (old new : GoString) :
    ∀ (n : Nat) (s : GoString),
      strings.Join new (strings.splitFrom old n s) = strings.replaceFrom old new n s := by
  intro n
  induction n with
  | zero => intro s; rfl
  | succ n ih =>
    intro s
    cases s with
    | nil => rfl
    | cons c cs =>
      rw [strings.splitFrom, strings.replaceFrom]
      split_ifs with hp
      · obtain ⟨seg, segs, h, _⟩ := splitFrom_head old n ((c :: cs).drop old.length)
        rw [← ih, h]
        simp [strings.Join]
      · obtain ⟨seg, segs, h, _⟩ := splitFrom_head old n cs
        rw [← ih, h]
        cases segs <;> simp [strings.Join]

/-- Joining the segments of a split with the pattern gives the string back. -/
theorem join_splitFrom_old (old : GoString) :
    ∀ (n : Nat) (s : GoString), strings.Join old (strings.splitFrom old n s) = s := by
  intro n
  induction n with
  | zero => intro s; rfl
  | succ n ih =>
    intro s
    cases s with
    | nil => rfl
    | cons c cs =>
      rw [strings.splitFrom]
      split_ifs with hp
      · obtain ⟨seg, segs, h, _⟩ := splitFrom_head old n ((c :: cs).drop old.length)
        have hj := ih ((c :: cs).drop old.length)
        rw [h] at hj ⊢
        obtain ⟨t, ht⟩ := List.isPrefixOf_iff_prefix.1 hp
        simp only [strings.Join, List.nil_append, hj]
        rw [← ht, List.drop_left]
      · obtain ⟨seg, segs, h, _⟩ := splitFrom_head old n cs
        have hj := ih cs
        rw [h] at hj ⊢
        cases segs with
        | nil => simp only [strings.Join] at hj ⊢; rw [hj]
        | cons seg2 segs =>
          simp only [strings.Join, List.cons_append] at hj ⊢
          rw [hj]

/-- With enough fuel, no segment of a split contains the pattern. -/
theorem splitFrom_free (c0 : Char) (rest : GoString) :
    ∀ (n : Nat) (s : GoString), s.length ≤ n →
      ∀ seg ∈ strings.splitFrom (c0 :: rest) n s, ¬ (c0 :: rest) <:+: seg := by
  intro n
  induction n with
  | zero =>
    intro s hs seg hseg
    have : s = [] := List.length_eq_zero.1 (by omega)
    subst this
    simp only [strings.splitFrom, List.mem_singleton] at hseg
    subst hseg
    simp
  | succ n ih =>
    intro s hs seg hseg
    cases s with
    | nil =>
      simp only [strings.splitFrom, List.mem_singleton] at hseg
      subst hseg
      simp
    | cons c cs =>
      rw [strings.splitFrom] at hseg
      split_ifs at hseg with hp
      · rcases List.mem_cons.1 hseg with rfl | hseg
        · simp
        · refine ih _ ?_ seg hseg
          simp only [List.length_cons, List.drop_succ_cons, List.length_drop] at hs ⊢
          omega
      · obtain ⟨seg1, segs, h, hpre⟩ := splitFrom_head (c0 :: rest) n cs
        have hfree := ih cs (by simpa using hs)
        rw [h] at hseg hfree
        rcases List.mem_cons.1 hseg with rfl | hseg
        · intro hin
          rcases List.infix_cons_iff.1 hin with hpf | hinf
          · apply hp
            exact List.isPrefixOf_iff_prefix.2
              (hpf.trans ((List.prefix_cons_inj c).2 hpre))
          · exact hfree seg1 (List.mem_cons_self _ _) hinf
        · exact hfree seg (List.mem_cons_of_mem _ hseg)

/-- A string that does not contain the pattern is left as it is. -/
theorem replaceFrom_no_occurrence (old new : GoString) :
    ∀ (n : Nat) (s : GoString), ¬ old <:+: s → strings.replaceFrom old new n s = s := by
  intro n
  induction n with
  | zero => intro s _; rfl
  | succ n ih =>
    intro s hs
    cases s with
    | nil => rfl
    | cons c cs =>
      rw [strings.replaceFrom]
      split_ifs with hp
      · exact absurd (List.isPrefixOf_iff_prefix.1 hp).isInfix hs
      · rw [ih cs (fun h => hs (List.infix_cons h))]

/-- The specification of `strings.Replace(s, old, new, -1)` for a non-empty
pattern: `s` is cut into segments at its leftmost non-overlapping occurrences
of `old`, no segment contains `old`, and the result is the segments joined by
`new`.  The segments do not depend on `new`. -/
theorem Replace_spec (s : GoString) (c0 : Char) (rest : GoString) :
    s = strings.Join (c0 :: rest) (strings.splitFrom (c0 :: rest) s.length s) ∧
    (∀ seg ∈ strings.splitFrom (c0 :: rest) s.length s, ¬ (c0 :: rest) <:+: seg) ∧
    ∀ new, strings.Replace s (c0 :: rest) new =
      strings.Join new (strings.splitFrom (c0 :: rest) s.length s) := by
  refine ⟨(join_splitFrom_old (c0 :: rest) s.length s).symm,
    splitFrom_free c0 rest s.length s (le_refl _), fun new => ?_⟩
  unfold strings.Replace
  rw [if_neg (by simp), join_splitFrom_new]

/-- A string that does not contain the non-empty pattern is not changed by
`strings.Replace`. -/
theorem Replace_no_occurrence (s : GoString) (c0 : Char) (rest new : GoString)
    (h : ¬ (c0 :: rest) <:+: s) : strings.Replace s (c0 :: rest) new = s := by
  unfold strings.Replace
  rw [if_neg (by simp), replaceFrom_no_occurrence _ _ _ _ h]

/-- **C16**, as stated, fails at the empty template: it contains no token, but
`WriteEdge` does not emit it as it is; it sends the destination CID. -/
theorem C16_no_escaping_counterexample :
    (RefWriter.fresh Example.dag none false [] (-1)).PrintFmt = [] ∧
    ¬ "<src>".toList <:+: (RefWriter.fresh Example.dag none false [] (-1)).PrintFmt ∧
    ¬ "<dst>".toList <:+: (RefWriter.fresh Example.dag none false [] (-1)).PrintFmt ∧
    ¬ "<linkname>".toList <:+: (RefWriter.fresh Example.dag none false [] (-1)).PrintFmt ∧
    ((RefWriter.fresh Example.dag none false [] (-1)).WriteEdge Example.str Example.R
      Example.X "a".toList).2.out = [⟨"X".toList, []⟩] := by
  refine ⟨rfl, ?_, ?_, ?_, by decide⟩ <;>
    · intro h
      have := List.eq_nil_of_infix_nil h
      revert this
      decide

/-- **C16**, amended.  For every non-empty template, CID pair and context that
is not done, `WriteEdge` sends one record, computed in three phases: all
occurrences of `<src>` in the template are replaced by the source CID string,
then all occurrences of `<dst>` in the result by the destination CID string,
then all occurrences of `<linkname>` in that result by the link name.  Each
phase cuts its input into segments that do not contain the token and joins
them with the value.  The segments of the last phase do not depend on the link
name, so the link name stands verbatim between them and is not expanded
again, whatever it contains; and a template that contains none of the three
tokens is sent as it is.  For the empty template and every CID pair, link name
and context that is not done, `WriteEdge` sends one record holding the
destination CID string. -/
theorem C16_no_escaping_amended (str : Cid → GoString) (rw : RefWriter) (src dst : Cid)
    (hctx : rw.Ctx.bind (fun ctx => ctx.Err rw.out.length) = none) :
    (rw.PrintFmt ≠ [] → ∃ (t1 t2 : GoString) (segs1 segs2 segs3 : List GoString),
      rw.PrintFmt = strings.Join "<src>".toList segs1 ∧
      (∀ seg ∈ segs1, ¬ "<src>".toList <:+: seg) ∧
      t1 = strings.Join (str src) segs1 ∧
      t1 = strings.Join "<dst>".toList segs2 ∧
      (∀ seg ∈ segs2, ¬ "<dst>".toList <:+: seg) ∧
      t2 = strings.Join (str dst) segs2 ∧
      t2 = strings.Join "<linkname>".toList segs3 ∧
      (∀ seg ∈ segs3, ¬ "<linkname>".toList <:+: seg) ∧
      (∀ linkname : GoString, rw.WriteEdge str src dst linkname =
        (none, { rw with out := rw.out ++ [⟨strings.Join linkname segs3, []⟩] })) ∧
      (¬ "<src>".toList <:+: rw.PrintFmt → ¬ "<dst>".toList <:+: rw.PrintFmt →
        ¬ "<linkname>".toList <:+: rw.PrintFmt →
        ∀ linkname : GoString, rw.WriteEdge str src dst linkname =
          (none, { rw with out := rw.out ++ [⟨rw.PrintFmt, []⟩] }))) ∧
    (rw.PrintFmt = [] → ∀ linkname : GoString, rw.WriteEdge str src dst linkname =
      (none, { rw with out := rw.out ++ [⟨str dst, []⟩] })) := by
  refine ⟨fun hfmt => ?_, fun hfmt linkname => ?_⟩
  swap
  · unfold RefWriter.WriteEdge
    rw [hctx]
    simp only [render, hfmt, ne_eq, not_true_eq_false, if_false]
  have e1 : "<src>".toList = '<' :: "src>".toList := rfl
  have e2 : "<dst>".toList = '<' :: "dst>".toList := rfl
  have e3 : "<linkname>".toList = '<' :: "linkname>".toList := rfl
  obtain ⟨a1, a2, a3⟩ := Replace_spec rw.PrintFmt '<' "src>".toList
  obtain ⟨b1, b2, b3⟩ := Replace_spec
    (strings.Replace rw.PrintFmt "<src>".toList (str src)) '<' "dst>".toList
  obtain ⟨c1, c2, c3⟩ := Replace_spec
    (strings.Replace (strings.Replace rw.PrintFmt "<src>".toList (str src))
      "<dst>".toList (str dst)) '<' "linkname>".toList
  have hw : ∀ linkname : GoString, rw.WriteEdge str src dst linkname =
      (none, { rw with out := rw.out ++ [⟨render str rw.PrintFmt src dst linkname, []⟩] }) := by
    intro linkname
    unfold RefWriter.WriteEdge
    rw [hctx]
  have hr : ∀ linkname : GoString, render str rw.PrintFmt src dst linkname =
      strings.Replace (strings.Replace (strings.Replace rw.PrintFmt "<src>".toList (str src))
        "<dst>".toList (str dst)) "<linkname>".toList linkname := by
    intro linkname
    unfold render
    rw [if_pos hfmt]
  refine ⟨strings.Replace rw.PrintFmt "<src>".toList (str src),
    strings.Replace (strings.Replace rw.PrintFmt "<src>".toList (str src))
      "<dst>".toList (str dst), _, _, _, a1, a2, a3 (str src), b1, b2, b3 (str dst), c1, c2,
    ?_, ?_⟩
  · intro linkname
    rw [hw, hr, e3, c3 linkname]
  · intro h1 h2 h3 linkname
    rw [hw, hr]
    rw [e1] at h1
    rw [e2] at h2
    rw [e3] at h3
    have p1 : strings.Replace rw.PrintFmt "<src>".toList (str src) = rw.PrintFmt :=
      Replace_no_occurrence _ _ _ _ h1
    rw [p1]
    have p2 : strings.Replace rw.PrintFmt "<dst>".toList (str dst) = rw.PrintFmt :=
      Replace_no_occurrence _ _ _ _ h2
    rw [p2]
    have p3 : strings.Replace rw.PrintFmt "<linkname>".toList linkname = rw.PrintFmt :=
      Replace_no_occurrence _ _ _ _ h3
    rw [p3]

/-- A link name that looks like a token is sent verbatim: with the template
`<linkname>: <dst>` and the link name `<src>`, the record is `<src>: X`. -/
theorem Example.tokenlike_linkname :
    (Example.named.WriteEdge Example.str Example.R Example.X "<src>".toList).2.out =
      [⟨"<src>: X".toList, []⟩] := by
  decide

/-- Witness of the amended C16: the template `<linkname>: <dst>`, and the
empty template. -/
theorem C16_no_escaping_amended_witness :
    (∃ (t1 t2 : GoString) (segs1 segs2 segs3 : List GoString),
      Example.named.PrintFmt = strings.Join "<src>".toList segs1 ∧
      (∀ seg ∈ segs1, ¬ "<src>".toList <:+: seg) ∧
      t1 = strings.Join (Example.str Example.R) segs1 ∧
      t1 = strings.Join "<dst>".toList segs2 ∧
      (∀ seg ∈ segs2, ¬ "<dst>".toList <:+: seg) ∧
      t2 = strings.Join (Example.str Example.X) segs2 ∧
      t2 = strings.Join "<linkname>".toList segs3 ∧
      (∀ seg ∈ segs3, ¬ "<linkname>".toList <:+: seg) ∧
      (∀ linkname : GoString, Example.named.WriteEdge Example.str Example.R Example.X linkname =
        (none, { Example.named with
          out := Example.named.out ++ [⟨strings.Join linkname segs3, []⟩] })) ∧
      (¬ "<src>".toList <:+: Example.named.PrintFmt →
        ¬ "<dst>".toList <:+: Example.named.PrintFmt →
        ¬ "<linkname>".toList <:+: Example.named.PrintFmt →
        ∀ linkname : GoString,
          Example.named.WriteEdge Example.str Example.R Example.X linkname =
            (none, { Example.named with
              out := Example.named.out ++ [⟨Example.named.PrintFmt, []⟩] }))) ∧
    (RefWriter.fresh Example.dag none false [] (-1)).WriteEdge Example.str Example.R Example.X
        "a".toList =
      (none, { RefWriter.fresh Example.dag none false [] (-1) with
        out := [⟨Example.str Example.X, []⟩] }) :=
  ⟨(C16_no_escaping_amended Example.str Example.named Example.R Example.X rfl).1 (by decide),
    (C16_no_escaping_amended Example.str (RefWriter.fresh Example.dag none false [] (-1))
      Example.R Example.X rfl).2 rfl "a".toList⟩

/-- On a finite graph without missing nodes, with a context that is never
cancelled, the loop returns no error. -/
theorem writeLinks_no_error (str : Cid → GoString) (DAG : Cid → Except Error Node)
    (V : List Cid) (hG : FiniteGraph DAG V)
    (recurse : RefWriter → Node → Int → Option Result) (nc : Cid) (depth : Int)
    (hrec : ∀ (rw : RefWriter) (nd : Node) (r : Result), rw.DAG = DAG → NeverDone rw →
      (∀ l ∈ nd.Links, l.Cid ∈ V) → recurse rw nd (depth + 1) = some r →
      SameConfig rw r.rw ∧ r.err = none) :
    ∀ (ls : List Link) (count : Int) (rw : RefWriter) (r : Result), rw.DAG = DAG →
      NeverDone rw → (∀ l ∈ ls, l.Cid ∈ V) →
      writeLinks str recurse nc depth ls count rw = some r → r.err = none := by
  intro ls
  induction ls with
  | nil =>
    intro count rw r _ _ _ h
    simp only [writeLinks, Option.some.injEq] at h
    subst h
    rfl
  | cons l ls ih =>
    intro count rw r hD hN hL h
    have hcfg : SameConfig rw (visitLink str rw nc l depth).2.2 :=
      (visitLink_extends str rw nc l depth).1
    have hL2 : ∀ l1 ∈ ls, l1.Cid ∈ V := fun l1 hl1 => hL l1 (List.mem_cons_of_mem _ hl1)
    obtain ⟨nd0, hnd0, hV0⟩ := hG l.Cid (hL l (List.mem_cons_self _ _))
    rcases writeLinks_cons_some h with ⟨_, h1⟩ | ⟨_, err, herr, h1⟩ | ⟨_, _, err, hnd, h1⟩ |
      ⟨_, _, nd, r1, hnd, hr1, h1⟩
    · exact ih count _ r (hcfg.1.trans hD) (neverDone_of_sameConfig hN hcfg) hL2 h1
    · exfalso
      obtain ⟨vcfg, _, _⟩ := visit_frame rw l.Cid depth
      rcases visitLink_cases str rw nc l depth with ⟨_, hv⟩ | ⟨_, _, err2, hc, _⟩ |
        ⟨_, _, _, hv⟩ | ⟨_, _, _, hv⟩
      · rw [hv] at herr; simp at herr
      · rw [neverDone_noErr (neverDone_of_sameConfig hN vcfg)] at hc
        simp at hc
      · rw [hv] at herr; simp at herr
      · rw [hv] at herr; simp at herr
    · exfalso
      rw [hcfg.1, hD, hnd0] at hnd
      simp at hnd
    · rw [hcfg.1, hD, hnd0] at hnd
      have hnn : nd0 = nd := Except.ok.inj hnd
      subst hnn
      obtain ⟨q1, q2⟩ := hrec _ nd0 r1 (hcfg.1.trans hD) (neverDone_of_sameConfig hN hcfg)
        hV0 hr1
      rcases h1 with ⟨err, herr, _⟩ | ⟨_, h1⟩
      · rw [q2] at herr; simp at herr
      · have hcfg1 := sameConfig_trans hcfg q1
        exact ih _ r1.rw r (hcfg1.1.trans hD) (neverDone_of_sameConfig hN hcfg1) hL2 h1

/-- On a finite graph without missing nodes, with a context that is never
cancelled, `writeRefsRecursive` returns no error. -/
theorem writeRefsRecursive_no_error (str : Cid → GoString) (DAG : Cid → Except Error Node)
    (V : List Cid) (hG : FiniteGraph DAG V) :
    ∀ (fuel : Nat) (rw : RefWriter) (n : Node) (depth : Int) (r : Result), rw.DAG = DAG →
      NeverDone rw → (∀ l ∈ n.Links, l.Cid ∈ V) →
      rw.writeRefsRecursive str fuel n depth = some r → r.err = none := by
  intro fuel
  induction fuel with
  | zero => intro rw n depth r _ _ _ h; simp [RefWriter.writeRefsRecursive] at h
  | succ fuel ih =>
    intro rw n depth r hD hN hL h
    rw [RefWriter.writeRefsRecursive] at h
    exact writeLinks_no_error str DAG V hG (RefWriter.writeRefsRecursive str fuel) n.Cid depth
      (fun rw1 nd r1 hD1 hN1 hL1 hr1 =>
        ⟨(writeRefsRecursive_extends str fuel rw1 nd (depth + 1) r1 hr1).1,
          ih rw1 nd (depth + 1) r1 hD1 hN1 hL1 hr1⟩)
      n.Links 0 rw r hD hN hL h

/-- Under `Unique` with a context that is never cancelled, one link step keeps
the destinations of the written edges equal to the CIDs in the `seen` map. -/
theorem visitLink_writtenIsSeen (str : Cid → GoString) (rw : RefWriter) (nc : Cid) (l : Link)
    (depth : Int) (_hU : rw.Unique = true) (hN : NeverDone rw) (hJ : WrittenIsSeen rw) :
    WrittenIsSeen (visitLink str rw nc l depth).2.2 := by
  obtain ⟨hcfg, hout, hedges⟩ := visit_frame rw l.Cid depth
  have hsame : (rw.seen l.Cid.Bytes).isSome = true ∨ (rw.visit l.Cid depth).1.1 = false →
      WrittenIsSeen (rw.visit l.Cid depth).2 := by
    intro hc c
    rw [hedges, hJ c, visit_seen_isSome]
    constructor
    · exact Or.inl
    · rintro (h | ⟨h, hk⟩)
      · exact h
      · rcases hc with hc | hc
        · rw [h]; exact hc
        · rw [hc] at hk; simp at hk
  rcases visitLink_cases str rw nc l depth with ⟨hk, h⟩ | ⟨_, _, err, hc, _⟩ | ⟨hk, hw, _, h⟩ |
    ⟨_, hs, _, h⟩
  · rw [h]; exact hsame (Or.inr hk)
  · rw [neverDone_noErr (neverDone_of_sameConfig hN hcfg)] at hc
    simp at hc
  · rw [h]
    intro c
    show c ∈ (rw.edges ++ [(⟨nc, l.Cid, l.Name, depth⟩ : Edge)]).map (fun e => e.dst) ↔
      ((rw.visit l.Cid depth).2.seen c.Bytes).isSome = true
    rw [visit_seen_isSome, List.map_append, List.mem_append, hJ c]
    simp only [List.map_cons, List.map_nil, List.mem_singleton]
    constructor
    · rintro (h1 | h1)
      · exact Or.inl h1
      · exact Or.inr ⟨by rw [h1], hk⟩
    · rintro (h1 | ⟨h1, _⟩)
      · exact Or.inl h1
      · exact Or.inr (Cid.eq_of_bytes h1)
  · rw [h]
    rw [visit_seenBefore] at hs
    exact hsame (Or.inl hs)

/-- Under `Unique` with a context that is never cancelled, a call of
`writeRefsRecursive` keeps the destinations of the written edges equal to the
CIDs in the `seen` map. -/
theorem writeRefsRecursive_writtenIsSeen (str : Cid → GoString) (fuel : Nat) (rw : RefWriter)
    (n : Node) (depth : Int) (r : Result) (hU : rw.Unique = true) (hN : NeverDone rw)
    (hJ : WrittenIsSeen rw) (h : rw.writeRefsRecursive str fuel n depth = some r) :
    WrittenIsSeen r.rw := by
  have := writeRefsRecursive_rel str
    (fun a b => a.Unique = true → NeverDone a → WrittenIsSeen a →
      b.Unique = true ∧ NeverDone b ∧ WrittenIsSeen b) depth
    (fun _ h1 h2 h3 => ⟨h1, h2, h3⟩)
    (fun a b c h1 h2 hu hn hj => h2 (h1 hu hn hj).1 (h1 hu hn hj).2.1 (h1 hu hn hj).2.2)
    (fun a nc l k _ hu hn hj =>
      ⟨(visitLink_extends str a nc l k).1.2.2.1.trans hu,
        neverDone_of_sameConfig hn (visitLink_extends str a nc l k).1,
        visitLink_writtenIsSeen str a nc l k hu hn hj⟩)
    fuel rw n depth r (le_refl _) h
  exact (this hU hN hJ).2.2

/-- With a configured bound, every depth that a call of `writeRefsRecursive`
leaves in the `seen` map is at most the bound, if that held before. -/
theorem writeRefsRecursive_seen_le_bound (str : Cid → GoString) (fuel : Nat) (rw : RefWriter)
    (n : Node) (depth : Int) (r : Result) (hM : 0 ≤ rw.MaxDepth)
    (hI : ∀ key m, rw.seen key = some m → m ≤ rw.MaxDepth)
    (h : rw.writeRefsRecursive str fuel n depth = some r) :
    ∀ key m, r.rw.seen key = some m → m ≤ rw.MaxDepth := by
  have := writeRefsRecursive_rel str
    (fun a b => 0 ≤ a.MaxDepth → (∀ key m, a.seen key = some m → m ≤ a.MaxDepth) →
      b.MaxDepth = a.MaxDepth ∧ ∀ key m, b.seen key = some m → m ≤ a.MaxDepth) depth
    (fun _ _ h2 => ⟨rfl, h2⟩)
    (fun a b c h1 h2 hm hi => by
      obtain ⟨b1, b2⟩ := h1 hm hi
      obtain ⟨c1, c2⟩ := h2 (by rw [b1]; exact hm) (by rw [b1]; exact b2)
      exact ⟨c1.trans b1, by rw [← b1]; exact c2⟩)
    (fun a nc l k _ hm hi => by
      refine ⟨(visitLink_extends str a nc l k).1.2.2.2.1, ?_⟩
      show ∀ key m, (visitLink str a nc l k).2.2.seen key = some m → m ≤ a.MaxDepth
      rw [visitLink_seen]
      rcases visit_seen_cases a l.Cid k with hv | ⟨hk, hv, _⟩
      · rw [hv]; exact hi
      · rw [hv]
        intro key m hm2
        by_cases hkey : key = l.Cid.Bytes
        · subst hkey
          simp only [Function.update_same, Option.some.injEq] at hm2
          rw [← hm2]
          exact visit_keepGoing_le a l.Cid k hk hm
        · rw [Function.update_apply, if_neg hkey] at hm2
          exact hi key m hm2)
    fuel rw n depth r (le_refl _) h
  exact (this hM hI).2

/-- In an unbounded walk, after `visit` the visited CID is in the `seen` map. -/
theorem visit_unbounded_recorded (rw : RefWriter) (c : Cid) (depth : Int)
    (hM : rw.MaxDepth < 0) : ((rw.visit c depth).2.seen c.Bytes).isSome = true := by
  unfold RefWriter.visit
  simp only
  split_ifs with h1 h2 h3
  · omega
  · exact h2.1
  · simp
  · by_contra hc
    exact h3 (Or.inl (by simpa using hc))

/-- The loop of an unbounded walk that ends without error: the links of the
node end up in the `seen` map, and every CID that was closed before, or was
not yet in the map, is closed afterwards. -/
theorem writeLinks_closedIn (str : Cid → GoString) (DAG : Cid → Except Error Node)
    (recurse : RefWriter → Node → Int → Option Result) (nc : Cid) (depth : Int)
    (hrec : ∀ (rw : RefWriter) (nd : Node) (r : Result), rw.DAG = DAG → rw.MaxDepth < 0 →
      recurse rw nd (depth + 1) = some r → r.err = none →
      SameConfig rw r.rw ∧ SeenGrows rw r.rw ∧
      (∀ l ∈ nd.Links, (r.rw.seen l.Cid.Bytes).isSome = true) ∧
      (∀ c, (ClosedIn DAG rw.seen c ∨ rw.seen c.Bytes = none) → ClosedIn DAG r.rw.seen c)) :
    ∀ (ls : List Link) (count : Int) (rw : RefWriter) (r : Result),
      rw.DAG = DAG → rw.MaxDepth < 0 →
      writeLinks str recurse nc depth ls count rw = some r → r.err = none →
      SameConfig rw r.rw ∧ SeenGrows rw r.rw ∧
      (∀ l ∈ ls, (r.rw.seen l.Cid.Bytes).isSome = true) ∧
      (∀ c, (ClosedIn DAG rw.seen c ∨ rw.seen c.Bytes = none) → ClosedIn DAG r.rw.seen c) := by
  have grows_isSome : ∀ {a b : RefWriter}, SeenGrows a b → ∀ key,
      (a.seen key).isSome = true → (b.seen key).isSome = true := by
    intro a b hg key hk
    have := hg key (by simpa [Option.isSome_iff_ne_none] using hk)
    simpa [Option.isSome_iff_ne_none] using this
  intro ls
  induction ls with
  | nil =>
    intro count rw r _ _ h _
    simp only [writeLinks, Option.some.injEq] at h
    subst h
    refine ⟨sameConfig_refl rw, fun _ hk => hk, fun l hl => by simp at hl, fun c hc => ?_⟩
    rcases hc with hc | hc
    · exact hc
    · intro hs; rw [hc] at hs; simp at hs
  | cons l ls ih =>
    intro count rw r hD hM h he
    have hcfg : SameConfig rw (visitLink str rw nc l depth).2.2 :=
      (visitLink_extends str rw nc l depth).1
    have hseen := visitLink_seen str rw nc l depth
    have hg0 : SeenGrows rw (visitLink str rw nc l depth).2.2 :=
      visitLink_seenGrows str rw nc l depth
    have hrl : ((visitLink str rw nc l depth).2.2.seen l.Cid.Bytes).isSome = true := by
      rw [hseen]; exact visit_unbounded_recorded rw l.Cid depth hM
    have hM1 : (visitLink str rw nc l depth).2.2.MaxDepth < 0 := by
      rw [hcfg.2.2.2.1]; exact hM
    rcases writeLinks_cons_some h with ⟨hk, h1⟩ | ⟨_, err, _, h1⟩ | ⟨_, _, err, _, h1⟩ |
      ⟨_, _, nd, r1, hnd, hr1, h1⟩
    · obtain ⟨c1, c2, c3, c4⟩ := ih count _ r (hcfg.1.trans hD) hM1 h1 he
      refine ⟨sameConfig_trans hcfg c1, fun key hk1 => c2 key (hg0 key hk1), ?_, ?_⟩
      · intro l1 hl1
        rcases List.mem_cons.1 hl1 with rfl | hl1
        · exact grows_isSome c2 _ hrl
        · exact c3 l1 hl1
      · intro c hc
        apply c4 c
        rw [visitLink_skip_seen str rw nc l depth hk]
        exact hc
    · subst h1; simp at he
    · subst h1; simp at he
    · rcases h1 with ⟨err, _, h1⟩ | ⟨he1, h1⟩
      · subst h1; simp at he
      · obtain ⟨q1, q2, q3, q4⟩ := hrec _ nd r1 (hcfg.1.trans hD) hM1 hr1 he1
        have hcfg1 := sameConfig_trans hcfg q1
        obtain ⟨c1, c2, c3, c4⟩ := ih (count + r1.count) r1.rw r (hcfg1.1.trans hD)
          (by rw [hcfg1.2.2.2.1]; exact hM) h1 he
        refine ⟨sameConfig_trans hcfg1 c1,
          fun key hk1 => c2 key (q2 key (hg0 key hk1)), ?_, ?_⟩
        · intro l1 hl1
          rcases List.mem_cons.1 hl1 with rfl | hl1
          · exact grows_isSome c2 _ (grows_isSome q2 _ hrl)
          · exact c3 l1 hl1
        · intro c hc
          apply c4 c
          left
          by_cases hcl : c.Bytes = l.Cid.Bytes
          · have hcl2 : c = l.Cid := Cid.eq_of_bytes hcl
            subst hcl2
            intro _ nd2 hnd2 l2 hl2
            have hnd3 : DAG l.Cid = .ok nd := by
              rw [← hD, ← hcfg.1]; exact hnd
            rw [hnd3] at hnd2
            have hnn : nd = nd2 := Except.ok.inj hnd2
            subst hnn
            exact q3 l2 hl2
          · have hsame : (visitLink str rw nc l depth).2.2.seen c.Bytes = rw.seen c.Bytes := by
              rw [hseen]
              rcases visit_seen_cases rw l.Cid depth with hv | ⟨_, hv, _⟩
              · rw [hv]
              · rw [hv, Function.update_apply, if_neg hcl]
            apply q4 c
            rcases hc with hc | hc
            · left
              intro hs nd2 hnd2 l2 hl2
              rw [hsame] at hs
              exact grows_isSome hg0 _ (hc hs nd2 hnd2 l2 hl2)
            · right
              rw [hsame]; exact hc

/-- An unbounded walk that ends without error: see `writeLinks_closedIn`. -/
theorem writeRefsRecursive_closedIn (str : Cid → GoString) (DAG : Cid → Except Error Node) :
    ∀ (fuel : Nat) (rw : RefWriter) (nd : Node) (depth : Int) (r : Result),
      rw.DAG = DAG → rw.MaxDepth < 0 →
      rw.writeRefsRecursive str fuel nd depth = some r → r.err = none →
      SameConfig rw r.rw ∧ SeenGrows rw r.rw ∧
      (∀ l ∈ nd.Links, (r.rw.seen l.Cid.Bytes).isSome = true) ∧
      (∀ c, (ClosedIn DAG rw.seen c ∨ rw.seen c.Bytes = none) → ClosedIn DAG r.rw.seen c) := by
  intro fuel
  induction fuel with
  | zero => intro rw nd depth r _ _ h; simp [RefWriter.writeRefsRecursive] at h
  | succ fuel ih =>
    intro rw nd depth r hD hM h he
    rw [RefWriter.writeRefsRecursive] at h
    exact writeLinks_closedIn str DAG (RefWriter.writeRefsRecursive str fuel) nd.Cid depth
      (fun rw1 nd1 r1 hD1 hM1 hr1 he1 => ih rw1 nd1 (depth + 1) r1 hD1 hM1 hr1 he1)
      nd.Links 0 rw r hD hM h he

/-- In a closed `seen` map that holds the direct links of the root, every CID
on a link path from the root is recorded. -/
theorem recorded_of_path (DAG : Cid → Except Error Node) (root : Node)
    (s : List Nat → Option Int) (hroot : ∀ l ∈ root.Links, (s l.Cid.Bytes).isSome = true)
    (hclosed : ∀ c, ClosedIn DAG s c) (c : Cid) (j : Nat) (hp : LinkPath DAG root c j) :
    (s c.Bytes).isSome = true := by
  induction hp with
  | direct l hl => exact hroot l hl
  | snoc c k nd l _ hnd hl ih => exact hclosed c ih nd hnd l hl

/-- A finite graph without missing nodes is closed under links. -/
theorem finiteGraph_closedUnder {DAG : Cid → Except Error Node} {V : List Cid}
    (hG : FiniteGraph DAG V) : ClosedUnder DAG V := by
  intro c hc nd hnd l hl
  obtain ⟨nd0, hnd0, hV⟩ := hG c hc
  rw [hnd0] at hnd
  have : nd0 = nd := Except.ok.inj hnd
  subst this
  exact hV l hl

/-- **C20** Completeness of unique mode.  With `Unique = true`, a fresh
`RefWriter`, a finite graph without missing nodes (cycles allowed) and a
context that is not cancelled, `WriteRefs(root)` returns without error, and the
destination CIDs of the edges it writes are exactly the CIDs reachable from the
root by a link path of `1..MaxDepth` links (of any length at least 1 when
`MaxDepth < 0`); each of them is the destination of exactly one written edge,
and the output holds exactly the records of these edges. -/
theorem C20_unique_complete (str : Cid → GoString) (DAG : Cid → Except Error Node)
    (ctx : Option Context) (format : GoString) (maxDepth : Int) (n : Node) (V : List Cid)
    (hctx : ∀ c, ctx = some c → c.doneAfter = none) (hG : FiniteGraph DAG V)
    (hroot : ∀ l ∈ n.Links, l.Cid ∈ V) :
    ∃ fuel0 : Nat, ∀ fuel : Nat, fuel0 ≤ fuel →
      ∃ r, (RefWriter.fresh DAG ctx true format maxDepth).WriteRefs str fuel n = some r ∧
        r.err = none ∧
        (∀ c : Cid, c ∈ r.rw.edges.map (fun e => e.dst) ↔
          ∃ j : Nat, LinkPath DAG n c j ∧ (maxDepth < 0 ∨ (j : Int) ≤ maxDepth)) ∧
        (r.rw.edges.map (fun e => e.dst)).Nodup ∧
        r.rw.out = r.rw.edges.map (Edge.record str format) := by
  have hN : NeverDone (RefWriter.fresh DAG ctx true format maxDepth) := hctx
  have hJ0 : WrittenIsSeen (RefWriter.fresh DAG ctx true format maxDepth) := by
    intro c; simp [RefWriter.fresh]
  have hI0 : UniqueInv (RefWriter.fresh DAG ctx true format maxDepth) :=
    ⟨by simp [RefWriter.fresh], by simp [RefWriter.fresh]⟩
  have hO0 : OnlyEdgeRecords str (RefWriter.fresh DAG ctx true format maxDepth) := by
    simp [OnlyEdgeRecords, RefWriter.fresh]
  have hS0 : SoundFor DAG n (RefWriter.fresh DAG ctx true format maxDepth).seen :=
    fun c m hm => by simp [RefWriter.fresh] at hm
  have hterm : ∃ fuel0 : Nat, ∀ fuel : Nat, fuel0 ≤ fuel →
      ∃ r, (RefWriter.fresh DAG ctx true format maxDepth).writeRefsRecursive str fuel n 1
        = some r := by
    by_cases hM : maxDepth < 0
    · exact ⟨unseen (RefWriter.fresh DAG ctx true format maxDepth) V + 1, fun fuel hf =>
        writeRefsRecursive_unique_terminates str V fuel _ n 1 rfl hM
          (finiteGraph_closedUnder hG) hroot (by omega)⟩
    · exact ⟨maxDepth.toNat + 1, fun fuel hf =>
        writeRefsRecursive_bounded_terminates str fuel
          (RefWriter.fresh DAG ctx true format maxDepth) n 1
          (by simp only [RefWriter.fresh]; omega) (by omega)
          (by simp only [RefWriter.fresh]; omega)⟩
  obtain ⟨fuel0, hfuel⟩ := hterm
  refine ⟨fuel0, fun fuel hf => ?_⟩
  obtain ⟨r, hr⟩ := hfuel fuel hf
  have he : r.err = none :=
    writeRefsRecursive_no_error str DAG V hG fuel _ n 1 r rfl hN hroot hr
  have hJ := writeRefsRecursive_writtenIsSeen str fuel _ n 1 r rfl hN hJ0 hr
  have hI := (writeRefsRecursive_uniqueInv str fuel _ n 1 r rfl hI0 hr).2
  have hO := writeRefsRecursive_onlyEdgeRecords str fuel _ n 1 r hO0 hr
  have hcfg := (writeRefsRecursive_extends str fuel _ n 1 r hr).1
  have hS := (writeRefsRecursive_sound str DAG n fuel 1 _ n r rfl
    (fun l hl => LinkPath.direct l hl) hS0 hr).2
  refine ⟨r, hr, he, fun c => ?_, hI.2, ?_⟩
  · rw [hJ c]
    constructor
    · intro hs
      obtain ⟨m, hm⟩ := Option.isSome_iff_exists.1 hs
      obtain ⟨j, hj, hp⟩ := hS c m hm
      refine ⟨j, hp, ?_⟩
      by_cases hM : maxDepth < 0
      · exact Or.inl hM
      · right
        have := writeRefsRecursive_seen_le_bound str fuel
          (RefWriter.fresh DAG ctx true format maxDepth) n 1 r
          (by simp only [RefWriter.fresh]; omega)
          (fun key m hm => by simp [RefWriter.fresh] at hm) hr c.Bytes m hm
        simp only [RefWriter.fresh] at this
        omega
    · rintro ⟨j, hp, hb⟩
      by_cases hM : maxDepth < 0
      · obtain ⟨_, _, p2, p3⟩ := writeRefsRecursive_closedIn str DAG fuel
          (RefWriter.fresh DAG ctx true format maxDepth) n 1 r rfl hM hr he
        exact recorded_of_path DAG n r.rw.seen p2 (fun c1 => p3 c1 (Or.inr rfl)) c j hp
      · have hj : (j : Int) ≤ maxDepth := by
          rcases hb with hb | hb
          · exact absurd hb hM
          · exact hb
        obtain ⟨_, _, p2, p3⟩ := writeRefsRecursive_closes str DAG maxDepth (by omega) fuel
          (RefWriter.fresh DAG ctx true format maxDepth) n 1 r rfl rfl hr he
        obtain ⟨m, hm, _⟩ := recordedLe_of_path DAG n maxDepth r.rw.seen p2
          (fun c1 => p3 c1 (Or.inl (fun m hm => by simp [RefWriter.fresh] at hm))) c j hp hj
        rw [hm]; rfl
  · unfold OnlyEdgeRecords at hO
    rw [hO, hcfg.2.2.2.2]
    rfl

/-- Witness of C20: the scenario graph with `MaxDepth = 2`, where `Y` is first
met two links away (below `X`) and later one link away. -/
theorem C20_unique_complete_witness :
    ∃ fuel0 : Nat, ∀ fuel : Nat, fuel0 ≤ fuel →
      ∃ r, (RefWriter.fresh Example.dag none true [] 2).WriteRefs Example.str fuel
          Example.nodeR = some r ∧
        r.err = none ∧
        (∀ c : Cid, c ∈ r.rw.edges.map (fun e => e.dst) ↔
          ∃ j : Nat, LinkPath Example.dag Example.nodeR c j ∧
            ((2 : Int) < 0 ∨ (j : Int) ≤ 2)) ∧
        (r.rw.edges.map (fun e => e.dst)).Nodup ∧
        r.rw.out = r.rw.edges.map (Edge.record Example.str []) :=
  C20_unique_complete Example.str Example.dag none [] 2 Example.nodeR
    [Example.R, Example.X, Example.Y] (by intro c h; simp at h) Example.dag_finiteGraph
    (by decide)

/-- In an unbounded walk `visit` never changes a depth that is recorded. -/
theorem visit_unbounded_keeps (rw : RefWriter) (c : Cid) (depth : Int) (hM : rw.MaxDepth < 0)
    (key : List Nat) (m : Int) (hm : rw.seen key = some m) :
    (rw.visit c depth).2.seen key = some m := by
  unfold RefWriter.visit
  simp only
  split_ifs with h1 h2 h3
  · exact hm
  · exact hm
  · have hnone : rw.seen c.Bytes = none := by
      cases hs : rw.seen c.Bytes with
      | none => rfl
      | some v => exact absurd ⟨by simp [hs], hM⟩ h2
    have hne : key ≠ c.Bytes := fun h => by rw [h, hnone] at hm; simp at hm
    simp only [Function.update_apply, if_neg hne]
    exact hm
  · exact hm

/-- In an unbounded walk a call of `writeRefsRecursive` never changes a depth
that is recorded. -/
theorem writeRefsRecursive_unbounded_keeps (str : Cid → GoString) (fuel : Nat)
    (rw : RefWriter) (n : Node) (depth : Int) (r : Result) (hM : rw.MaxDepth < 0)
    (h : rw.writeRefsRecursive str fuel n depth = some r) (key : List Nat) (m : Int)
    (hm : rw.seen key = some m) : r.rw.seen key = some m := by
  have := writeRefsRecursive_rel str
    (fun a b => a.MaxDepth < 0 →
      b.MaxDepth = a.MaxDepth ∧ ∀ key m, a.seen key = some m → b.seen key = some m) depth
    (fun _ _ => ⟨rfl, fun _ _ h => h⟩)
    (fun a b c h1 h2 hm => by
      obtain ⟨b1, b2⟩ := h1 hm
      obtain ⟨c1, c2⟩ := h2 (by rw [b1]; exact hm)
      exact ⟨c1.trans b1, fun key m h => c2 key m (b2 key m h)⟩)
    (fun a nc l k _ hm => by
      refine ⟨(visitLink_extends str a nc l k).1.2.2.2.1, ?_⟩
      show ∀ key m, a.seen key = some m → (visitLink str a nc l k).2.2.seen key = some m
      rw [visitLink_seen]
      exact fun key m h => visit_unbounded_keeps a l.Cid k hm key m h)
    fuel rw n depth r (le_refl _) h
  exact (this hM).2 key m hm

/-- **C7**, amended.  On a fresh `RefWriter`, for every graph, root, link
order, context, format and setting of `Unique`:
(1) for every `MaxDepth`, every depth that `WriteRefs` leaves in the `seen`
map is the length of a link path from the root to that CID;
(2) with a configured bound `MaxDepth = d ≥ 0`, `WriteRefs` returns, and when
it returns without error, every CID reachable from the root by a path of at
most `d` links is recorded at the minimum length over all paths from the
root to it;
(3) with a configured bound `d ≥ 0`, a CID all of whose paths from the root
are longer than `d` is not recorded;
(4) with `MaxDepth < 0`, the first sighting of a CID records the depth of
that sighting, and a recorded depth is never changed afterwards, neither by
`visit` nor by a whole call of `writeRefsRecursive`: it is not lowered when
the CID is met again on a shorter path. -/
theorem C7_shallowest_depth_amended (str : Cid → GoString) (DAG : Cid → Except Error Node)
    (ctx : Option Context) (unique : Bool) (format : GoString) (maxDepth : Int) (n : Node) :
    (∀ (fuel : Nat) (r : Result),
      (RefWriter.fresh DAG ctx unique format maxDepth).WriteRefs str fuel n = some r →
      ∀ (c : Cid) (m : Int), r.rw.seen c.Bytes = some m →
        ∃ j : Nat, m = (j : Int) ∧ LinkPath DAG n c j) ∧
    (0 ≤ maxDepth → ∀ fuel : Nat, maxDepth.toNat + 1 ≤ fuel →
      ∃ r, (RefWriter.fresh DAG ctx unique format maxDepth).WriteRefs str fuel n = some r ∧
        (r.err = none → ∀ (c : Cid) (j : Nat), LinkPath DAG n c j → (j : Int) ≤ maxDepth →
          ∃ m : Nat, r.rw.seen c.Bytes = some (m : Int) ∧ LinkPath DAG n c m ∧
            ∀ j2 : Nat, LinkPath DAG n c j2 → m ≤ j2)) ∧
    (0 ≤ maxDepth → ∀ (fuel : Nat) (r : Result),
      (RefWriter.fresh DAG ctx unique format maxDepth).WriteRefs str fuel n = some r →
      ∀ c : Cid, (∀ j : Nat, LinkPath DAG n c j → maxDepth < (j : Int)) →
        r.rw.seen c.Bytes = none) ∧
    ((∀ (rw : RefWriter) (c : Cid) (depth : Int), rw.MaxDepth < 0 → rw.seen c.Bytes = none →
        (rw.visit c depth).2.seen c.Bytes = some depth) ∧
      (∀ (rw : RefWriter) (c : Cid) (depth : Int) (key : List Nat) (m : Int),
        rw.MaxDepth < 0 → rw.seen key = some m → (rw.visit c depth).2.seen key = some m) ∧
      (∀ (fuel : Nat) (rw : RefWriter) (nd : Node) (depth : Int) (r : Result)
          (key : List Nat) (m : Int), rw.MaxDepth < 0 →
        rw.writeRefsRecursive str fuel nd depth = some r → rw.seen key = some m →
        r.rw.seen key = some m)) := by
  have hsound : ∀ (fuel : Nat) (r : Result),
      (RefWriter.fresh DAG ctx unique format maxDepth).WriteRefs str fuel n = some r →
      SoundFor DAG n r.rw.seen := by
    intro fuel r h
    have h0 : SoundFor DAG n (RefWriter.fresh DAG ctx unique format maxDepth).seen :=
      fun c m hm => by simp [RefWriter.fresh] at hm
    exact (writeRefsRecursive_sound str DAG n fuel 1
      (RefWriter.fresh DAG ctx unique format maxDepth) n r rfl
      (fun l hl => LinkPath.direct l hl) h0 h).2
  refine ⟨fun fuel r h c m hm => hsound fuel r h c m hm, ?_, ?_, ?_, ?_, ?_⟩
  · intro hd fuel hf
    obtain ⟨r, hr⟩ := writeRefsRecursive_bounded_terminates str fuel
      (RefWriter.fresh DAG ctx unique format maxDepth) n 1 hd (by omega)
      (by simp only [RefWriter.fresh]; omega)
    refine ⟨r, hr, fun he c j hp hj => ?_⟩
    obtain ⟨_, _, p2, p3⟩ := writeRefsRecursive_closes str DAG maxDepth hd fuel
      (RefWriter.fresh DAG ctx unique format maxDepth) n 1 r rfl rfl hr he
    have hclosed : ∀ c, ClosedAt DAG maxDepth r.rw.seen c := fun c =>
      p3 c (Or.inl (fun m hm => by simp [RefWriter.fresh] at hm))
    have hle : ∀ (j : Nat), LinkPath DAG n c j → (j : Int) ≤ maxDepth →
        RecordedLe r.rw.seen c (j : Int) := fun j hp hj =>
      recordedLe_of_path DAG n maxDepth r.rw.seen p2 hclosed c j hp hj
    obtain ⟨m, hm, hmj⟩ := hle j hp hj
    obtain ⟨k, rfl, hk⟩ := hsound fuel r hr c m hm
    refine ⟨k, hm, hk, fun j2 hp2 => ?_⟩
    by_cases hj2 : (j2 : Int) ≤ maxDepth
    · obtain ⟨m2, hm2, hle2⟩ := hle j2 hp2 hj2
      rw [hm] at hm2
      simp only [Option.some.injEq] at hm2
      omega
    · omega
  · intro hd fuel r hr c hfar
    cases hs : r.rw.seen c.Bytes with
    | none => rfl
    | some m =>
      exfalso
      obtain ⟨j, hj, hp⟩ := hsound fuel r hr c m hs
      have hb := writeRefsRecursive_seen_le_bound str fuel
        (RefWriter.fresh DAG ctx unique format maxDepth) n 1 r hd
        (fun key m hm => by simp [RefWriter.fresh] at hm) hr c.Bytes m hs
      have hf := hfar j hp
      simp only [RefWriter.fresh] at hb
      omega
  · intro rw c depth hM hs
    unfold RefWriter.visit
    simp only [hs, Option.isSome_none]
    split_ifs with h1 h2 h3
    · omega
    · simp at h2
    · simp
    · simp at h3
  · intro rw c depth key m hM hm
    exact visit_unbounded_keeps rw c depth hM key m hm
  · intro fuel rw nd depth r key m hM hr hm
    exact writeRefsRecursive_unbounded_keeps str fuel rw nd depth r hM hr key m hm

/-- With the node promises `lookup`, the loop with open fetch outcomes is the
loop `writeLinks`. -/
theorem writeLinksVia_lookup (str : Cid → GoString)
    (recurse : RefWriter → Node → Int → Option Result) (n : Node) (depth : Int) :
    ∀ (ls : List Link) (i : Nat) (count : Int) (rw : RefWriter),
      writeLinksVia str NodePromises.lookup recurse n depth i ls count rw =
        writeLinks str recurse n.Cid depth ls count rw := by
  intro ls
  induction ls with
  | nil => intro i count rw; rfl
  | cons l ls ih =>
    intro i count rw
    rw [writeLinksVia, writeLinks]
    rcases hv : visitLink str rw n.Cid l depth with ⟨kg, e1, rw2⟩
    cases kg with
    | false => exact ih _ _ _
    | true =>
      cases e1 with
      | some err => rfl
      | none =>
        simp only [NodePromises.lookup]
        cases hd : rw2.DAG l.Cid with
        | error err => rfl
        | ok nd =>
          simp only
          cases hr : recurse rw2 nd (depth + 1) with
          | none => rfl
          | some r1 =>
            simp only
            cases he1 : r1.err with
            | some err => rfl
            | none => exact ih _ _ _

/-- With the node promises `lookup`, the walker with open fetch outcomes is
`writeRefsRecursive`. -/
theorem writeRefsRecursiveVia_lookup (str : Cid → GoString) :
    ∀ (fuel : Nat) (rw : RefWriter) (n : Node) (depth : Int),
      rw.writeRefsRecursiveVia str NodePromises.lookup fuel n depth =
        rw.writeRefsRecursive str fuel n depth := by
  intro fuel
  induction fuel with
  | zero => intro rw n depth; rfl
  | succ fuel ih =>
    intro rw n depth
    rw [RefWriter.writeRefsRecursiveVia, RefWriter.writeRefsRecursive]
    have hrec : RefWriter.writeRefsRecursiveVia str NodePromises.lookup fuel =
        RefWriter.writeRefsRecursive str fuel := by
      funext rw1 n1 depth1
      exact ih rw1 n1 depth1
    rw [hrec]
    exact writeLinksVia_lookup str _ n depth n.Links 0 0 rw

/-- With the node promises `lookup`, the producer with open fetch outcomes is
`produce`. -/
theorem produceVia_lookup (str : Cid → GoString) (fuel : Nat) (sendWins : Bool)
    (ctx : Context) :
    ∀ (objs : List Node) (rw : RefWriter),
      produceVia str NodePromises.lookup fuel sendWins ctx rw objs =
        produce str fuel sendWins ctx rw objs := by
  intro objs
  induction objs with
  | nil => intro rw; rfl
  | cons o os ih =>
    intro rw
    rw [produceVia, produce, RefWriter.WriteRefsVia, RefWriter.WriteRefs,
      writeRefsRecursiveVia_lookup]
    cases hr : rw.writeRefsRecursive str fuel o 1 with
    | none => rfl
    | some r =>
      simp only
      cases he : r.err with
      | some err => rfl
      | none => exact ih _

/-- Inversion of one iteration of the loop with open fetch outcomes. -/
theorem writeLinksVia_cons_some {str : Cid → GoString} {get : NodePromises}
    {recurse : RefWriter → Node → Int → Option Result} {n : Node} {depth : Int} {i : Nat}
    {l : Link} {ls : List Link} {count : Int} {rw : RefWriter} {r : Result}
    (h : writeLinksVia str get recurse n depth i (l :: ls) count rw = some r) :
    ((visitLink str rw n.Cid l depth).1 = false ∧
        writeLinksVia str get recurse n depth (i + 1) ls count
          (visitLink str rw n.Cid l depth).2.2 = some r) ∨
    ((visitLink str rw n.Cid l depth).1 = true ∧ ∃ err,
        (visitLink str rw n.Cid l depth).2.1 = some err ∧
        r = ⟨count, some err, (visitLink str rw n.Cid l depth).2.2⟩) ∨
    ((visitLink str rw n.Cid l depth).1 = true ∧ (visitLink str rw n.Cid l depth).2.1 = none ∧
      ∃ err, get (visitLink str rw n.Cid l depth).2.2 n i l = .error err ∧
        r = ⟨count, some err, (visitLink str rw n.Cid l depth).2.2⟩) ∨
    ((visitLink str rw n.Cid l depth).1 = true ∧ (visitLink str rw n.Cid l depth).2.1 = none ∧
      ∃ nd r1, get (visitLink str rw n.Cid l depth).2.2 n i l = .ok nd ∧
        recurse (visitLink str rw n.Cid l depth).2.2 nd (depth + 1) = some r1 ∧
        ((∃ err, r1.err = some err ∧ r = ⟨count + r1.count, some err, r1.rw⟩) ∨
         (r1.err = none ∧
            writeLinksVia str get recurse n depth (i + 1) ls (count + r1.count) r1.rw =
              some r))) := by
  rw [writeLinksVia] at h
  rcases hv : visitLink str rw n.Cid l depth with ⟨kg, e, rw2⟩
  rw [hv] at h
  cases kg with
  | false => left; exact ⟨rfl, h⟩
  | true =>
    right
    cases e with
    | some err =>
      left
      simp only [Option.some.injEq] at h
      exact ⟨rfl, err, rfl, h.symm⟩
    | none =>
      right
      simp only at h
      cases hd : get rw2 n i l with
      | error err =>
        left
        rw [hd] at h
        simp only [Option.some.injEq] at h
        exact ⟨rfl, rfl, err, rfl, h.symm⟩
      | ok nd =>
        right
        rw [hd] at h
        simp only at h
        cases hr : recurse rw2 nd (depth + 1) with
        | none => rw [hr] at h; simp at h
        | some r1 =>
          rw [hr] at h
          simp only at h
          refine ⟨rfl, rfl, nd, r1, rfl, hr, ?_⟩
          cases he : r1.err with
          | some err =>
            left
            rw [he] at h
            simp only [Option.some.injEq] at h
            exact ⟨err, rfl, h.symm⟩
          | none =>
            right
            rw [he] at h
            exact ⟨rfl, h⟩

/-- Relational induction principle for the walker with open fetch outcomes: a
reflexive and transitive relation on writers that holds across every single
link step at depth at least `depth0` holds across every call at depth at least
`depth0`, whatever the fetches deliver. -/
theorem writeRefsRecursiveVia_rel (str : Cid → GoString) (get : NodePromises)
    (P : RefWriter → RefWriter → Prop) (depth0 : Int) (hrefl : ∀ rw, P rw rw)
    (htrans : ∀ a b c, P a b → P b c → P a c)
    (hstep : ∀ rw nc l k, depth0 ≤ k → P rw (visitLink str rw nc l k).2.2) :
    ∀ (fuel : Nat) (rw : RefWriter) (n : Node) (depth : Int) (r : Result),
      depth0 ≤ depth → rw.writeRefsRecursiveVia str get fuel n depth = some r → P rw r.rw := by
  intro fuel
  induction fuel with
  | zero => intro rw n depth r _ h; simp [RefWriter.writeRefsRecursiveVia] at h
  | succ fuel ih =>
    intro rw n depth r hd h
    rw [RefWriter.writeRefsRecursiveVia] at h
    generalize n.Links = ls at h
    generalize (0 : Int) = count at h
    generalize (0 : Nat) = i at h
    induction ls generalizing rw count i with
    | nil =>
      simp only [writeLinksVia, Option.some.injEq] at h
      subst h
      exact hrefl rw
    | cons l ls ihl =>
      have hs := hstep rw n.Cid l depth hd
      rcases writeLinksVia_cons_some h with ⟨_, h1⟩ | ⟨_, err, _, h1⟩ | ⟨_, _, err, _, h1⟩ |
        ⟨_, _, nd, r1, _, hr, h1⟩
      · exact htrans _ _ _ hs (ihl _ _ _ h1)
      · subst h1; exact hs
      · subst h1; exact hs
      · have h2 := ih _ nd (depth + 1) r1 (by omega) hr
        rcases h1 with ⟨err, _, h1⟩ | ⟨_, h1⟩
        · subst h1; exact htrans _ _ _ hs h2
        · exact htrans _ _ _ hs (htrans _ _ _ h2 (ihl _ _ _ h1))

/-- Whatever the fetches deliver, every call of the walker at depth `depth`
only appends to the output, and the edges it writes are written at depths
between `depth` and the configured bound. -/
theorem writeRefsRecursiveVia_extends (str : Cid → GoString) (get : NodePromises) (fuel : Nat)
    (rw : RefWriter) (n : Node) (depth : Int) (r : Result)
    (h : rw.writeRefsRecursiveVia str get fuel n depth = some r) :
    Extends str depth rw r.rw := by
  refine writeRefsRecursiveVia_rel str get (Extends str depth) depth (extends_refl str depth)
    (fun a b c h1 h2 => extends_trans h1 h2) ?_ fuel rw n depth r (le_refl _) h
  intro rw nc l k hk
  obtain ⟨hc, new, he, ho, hd⟩ := visitLink_extends str rw nc l k
  exact ⟨hc, new, he, ho, fun e hmem => ⟨le_trans hk (hd e hmem).1, (hd e hmem).2⟩⟩

/-- A loop over the first links that ends without error goes on with the links
that follow. -/
theorem writeLinksVia_append_ok (str : Cid → GoString) (get : NodePromises)
    (recurse : RefWriter → Node → Int → Option Result) (n : Node) (depth : Int)
    (ls2 : List Link) :
    ∀ (ls1 : List Link) (i : Nat) (count : Int) (rw : RefWriter) (r0 : Result),
      writeLinksVia str get recurse n depth i ls1 count rw = some r0 → r0.err = none →
      writeLinksVia str get recurse n depth i (ls1 ++ ls2) count rw =
        writeLinksVia str get recurse n depth (i + ls1.length) ls2 r0.count r0.rw := by
  intro ls1
  induction ls1 with
  | nil =>
    intro i count rw r0 h _
    simp only [writeLinksVia, Option.some.injEq] at h
    subst h
    rfl
  | cons l ls ih =>
    intro i count rw r0 h he
    have hlen : i + (l :: ls).length = i + 1 + ls.length := by
      simp only [List.length_cons]; omega
    rw [hlen, List.cons_append]
    rcases writeLinksVia_cons_some h with ⟨hk, h1⟩ | ⟨_, err, _, h1⟩ | ⟨_, _, err, _, h1⟩ |
      ⟨hk, hn, nd, r1, hnd, hr, h1⟩
    · rw [← ih _ _ _ r0 h1 he, writeLinksVia]
      rcases hv : visitLink str rw n.Cid l depth with ⟨kg, e1, rw2⟩
      rw [hv] at hk
      simp only at hk
      subst hk
      rfl
    · subst h1; simp at he
    · subst h1; simp at he
    · rcases h1 with ⟨err, _, h1⟩ | ⟨he1, h1⟩
      · subst h1; simp at he
      · rw [← ih _ _ _ r0 h1 he, writeLinksVia]
        rcases hv : visitLink str rw n.Cid l depth with ⟨kg, e1, rw2⟩
        rw [hv] at hk hn hnd hr
        simp only at hk hn hnd hr
        subst hk hn
        simp only [hnd, hr, he1]

/-- One iteration of the loop: an error of `WriteEdge` is returned at once. -/
theorem writeLinksVia_cons_write_error (str : Cid → GoString) (get : NodePromises)
    (recurse : RefWriter → Node → Int → Option Result) (n : Node) (depth : Int) (i : Nat)
    (l : Link) (ls : List Link) (count : Int) (rw : RefWriter) (e : Error)
    (hk : (visitLink str rw n.Cid l depth).1 = true)
    (he : (visitLink str rw n.Cid l depth).2.1 = some e) :
    writeLinksVia str get recurse n depth i (l :: ls) count rw =
      some ⟨count, some e, (visitLink str rw n.Cid l depth).2.2⟩ := by
  rw [writeLinksVia]
  rcases hv : visitLink str rw n.Cid l depth with ⟨kg, e1, rw2⟩
  rw [hv] at hk he
  simp only at hk he
  subst hk he
  rfl

/-- One iteration of the loop: the error of a failed fetch is returned at once. -/
theorem writeLinksVia_cons_fetch_error (str : Cid → GoString) (get : NodePromises)
    (recurse : RefWriter → Node → Int → Option Result) (n : Node) (depth : Int) (i : Nat)
    (l : Link) (ls : List Link) (count : Int) (rw : RefWriter) (e : Error)
    (hk : (visitLink str rw n.Cid l depth).1 = true)
    (hn : (visitLink str rw n.Cid l depth).2.1 = none)
    (hg : get (visitLink str rw n.Cid l depth).2.2 n i l = .error e) :
    writeLinksVia str get recurse n depth i (l :: ls) count rw =
      some ⟨count, some e, (visitLink str rw n.Cid l depth).2.2⟩ := by
  rw [writeLinksVia]
  rcases hv : visitLink str rw n.Cid l depth with ⟨kg, e1, rw2⟩
  rw [hv] at hk hn hg
  simp only at hk hn hg
  subst hk hn
  simp only [hg]

/-- One iteration of the loop: an error returned by the recursive call is
returned at once, with the writer of the recursive call. -/
theorem writeLinksVia_cons_nested_error (str : Cid → GoString) (get : NodePromises)
    (recurse : RefWriter → Node → Int → Option Result) (n : Node) (depth : Int) (i : Nat)
    (l : Link) (ls : List Link) (count : Int) (rw : RefWriter) (nd : Node) (r1 : Result)
    (e : Error)
    (hk : (visitLink str rw n.Cid l depth).1 = true)
    (hn : (visitLink str rw n.Cid l depth).2.1 = none)
    (hg : get (visitLink str rw n.Cid l depth).2.2 n i l = .ok nd)
    (hr : recurse (visitLink str rw n.Cid l depth).2.2 nd (depth + 1) = some r1)
    (he : r1.err = some e) :
    writeLinksVia str get recurse n depth i (l :: ls) count rw =
      some ⟨count + r1.count, some e, r1.rw⟩ := by
  rw [writeLinksVia]
  rcases hv : visitLink str rw n.Cid l depth with ⟨kg, e1, rw2⟩
  rw [hv] at hk hn hg hr
  simp only at hk hn hg hr
  subst hk hn
  simp only [hg, hr, he]

/-- With a done context, the link step of a link whose edge has to be written
returns the context error, and the writer is the one that `visit` left. -/
theorem visitLink_cancelled (str : Cid → GoString) (rw : RefWriter) (ctx : Context) (e : Error)
    (hdone : DoneWith rw ctx e) (nc : Cid) (l : Link) (depth : Int)
    (hk : (rw.visit l.Cid depth).1.1 = true)
    (hw : (rw.visit l.Cid depth).1.2 = false ∨ rw.Unique = false) :
    visitLink str rw nc l depth = (true, some e, (rw.visit l.Cid depth).2) := by
  obtain ⟨hctx, hd⟩ := hdone
  obtain ⟨hcfg, hout, _⟩ := visit_frame rw l.Cid depth
  rcases visitLink_cases str rw nc l depth with ⟨hk1, _⟩ | ⟨_, _, err, hc, h⟩ |
    ⟨_, _, hc, _⟩ | ⟨_, hs, hU, _⟩
  · rw [hk] at hk1; simp at hk1
  · rw [hcfg.2.1, hctx, hout] at hc
    simp only [Option.some_bind, hd, Option.some.injEq] at hc
    rw [h, hc]
  · rw [hcfg.2.1, hctx, hout] at hc
    simp only [Option.some_bind, hd] at hc
    exact absurd hc (by simp)
  · rcases hw with hw | hw
    · rw [hs] at hw; simp at hw
    · rw [hU] at hw; simp at hw

/-- Once the context is done, a call of the walker sends no record, whatever
the fetches deliver. -/
theorem writeRefsRecursiveVia_done (str : Cid → GoString) (get : NodePromises) (ctx : Context)
    (e : Error) (fuel : Nat) (rw : RefWriter) (n : Node) (depth : Int) (r : Result)
    (hdone : DoneWith rw ctx e)
    (h : rw.writeRefsRecursiveVia str get fuel n depth = some r) :
    DoneWith r.rw ctx e ∧ r.rw.out = rw.out ∧ r.rw.edges = rw.edges := by
  have := writeRefsRecursiveVia_rel str get
    (fun a b => a.Ctx = some ctx → ctx.Err a.out.length = some e →
      b.Ctx = some ctx ∧ b.out = a.out ∧ b.edges = a.edges) depth
    (fun _ h1 _ => ⟨h1, rfl, rfl⟩)
    (fun a b c h1 h2 hc hd => by
      obtain ⟨b1, b2, b3⟩ := h1 hc hd
      obtain ⟨c1, c2, c3⟩ := h2 b1 (by rw [b2]; exact hd)
      exact ⟨c1, c2.trans b2, c3.trans b3⟩)
    (fun a nc l k _ hc hd =>
      ⟨(visitLink_extends str a nc l k).1.2.1.trans hc,
        (visitLink_done str a ctx e hc hd nc l k).1, (visitLink_done str a ctx e hc hd nc l k).2⟩)
    fuel rw n depth r (le_refl _) h
  obtain ⟨q1, q2, q3⟩ := this hdone.1 hdone.2
  exact ⟨⟨q1, by rw [q2]; exact hdone.2⟩, q2, q3⟩

/-- An error returned by the loop is the error of a failed fetch, delivered to
a writer with the configuration of `a`, or the error of the context of `a`. -/
theorem writeLinksVia_err_source (str : Cid → GoString) (get : NodePromises)
    (recurse : RefWriter → Node → Int → Option Result) (n : Node) (depth : Int)
    (a : RefWriter)
    (hrec : ∀ (rw : RefWriter) (nd : Node) (r : Result) (e : Error), SameConfig a rw →
      recurse rw nd (depth + 1) = some r →
      SameConfig a r.rw ∧ (r.err = some e →
        (∃ st m j k, SameConfig a st ∧ get st m j k = .error e) ∨
          ∃ ctx sent, a.Ctx = some ctx ∧ ctx.Err sent = some e)) :
    ∀ (ls : List Link) (i : Nat) (count : Int) (rw : RefWriter) (r : Result) (e : Error),
      SameConfig a rw → writeLinksVia str get recurse n depth i ls count rw = some r →
      r.err = some e →
      (∃ st m j k, SameConfig a st ∧ get st m j k = .error e) ∨
        ∃ ctx sent, a.Ctx = some ctx ∧ ctx.Err sent = some e := by
  intro ls
  induction ls with
  | nil =>
    intro i count rw r e _ h he
    simp only [writeLinksVia, Option.some.injEq] at h
    subst h
    simp at he
  | cons l ls ih =>
    intro i count rw r e hC h he
    have hC1 : SameConfig a (visitLink str rw n.Cid l depth).2.2 :=
      sameConfig_trans hC (visitLink_extends str rw n.Cid l depth).1
    rcases writeLinksVia_cons_some h with ⟨_, h1⟩ | ⟨_, err, herr, h1⟩ | ⟨_, _, err, hnd, h1⟩ |
      ⟨_, _, nd, r1, hnd, hr1, h1⟩
    · exact ih _ count _ r e hC1 h1 he
    · subst h1
      simp only [Option.some.injEq] at he
      subst he
      right
      obtain ⟨vcfg, _, _⟩ := visit_frame rw l.Cid depth
      rcases visitLink_cases str rw n.Cid l depth with ⟨_, hv⟩ | ⟨_, _, err2, hc, hv⟩ |
        ⟨_, _, _, hv⟩ | ⟨_, _, _, hv⟩
      · rw [hv] at herr; simp at herr
      · rw [hv] at herr
        simp only [Option.some.injEq] at herr
        subst herr
        rw [vcfg.2.1, hC.2.1] at hc
        cases hCc : a.Ctx with
        | none => rw [hCc] at hc; simp at hc
        | some ctx =>
          rw [hCc] at hc
          simp only [Option.some_bind] at hc
          exact ⟨ctx, _, rfl, hc⟩
      · rw [hv] at herr; simp at herr
      · rw [hv] at herr; simp at herr
    · subst h1
      simp only [Option.some.injEq] at he
      subst he
      exact Or.inl ⟨_, n, i, l, hC1, hnd⟩
    · obtain ⟨q1, q2⟩ := hrec _ nd r1 e hC1 hr1
      rcases h1 with ⟨err, herr, h1⟩ | ⟨_, h1⟩
      · subst h1
        simp only [Option.some.injEq] at he
        subst he
        exact q2 herr
      · exact ih _ _ r1.rw r e q1 h1 he

/-- An error returned by the walker is the error of a failed fetch, delivered
to a writer with the configuration of `a`, or the error of the context of `a`. -/
theorem writeRefsRecursiveVia_err_source (str : Cid → GoString) (get : NodePromises)
    (a : RefWriter) :
    ∀ (fuel : Nat) (rw : RefWriter) (n : Node) (depth : Int) (r : Result) (e : Error),
      SameConfig a rw → rw.writeRefsRecursiveVia str get fuel n depth = some r →
      r.err = some e →
      (∃ st m j k, SameConfig a st ∧ get st m j k = .error e) ∨
        ∃ ctx sent, a.Ctx = some ctx ∧ ctx.Err sent = some e := by
  intro fuel
  induction fuel with
  | zero => intro rw n depth r e _ h; simp [RefWriter.writeRefsRecursiveVia] at h
  | succ fuel ih =>
    intro rw n depth r e hC h he
    rw [RefWriter.writeRefsRecursiveVia] at h
    exact writeLinksVia_err_source str get (RefWriter.writeRefsRecursiveVia str get fuel) n depth a
      (fun rw1 nd r1 e1 hC1 hr1 =>
        ⟨sameConfig_trans hC1
            (writeRefsRecursiveVia_extends str get fuel rw1 nd (depth + 1) r1 hr1).1,
          fun he1 => ih rw1 nd (depth + 1) r1 e1 hC1 hr1 he1⟩)
      n.Links 0 0 rw r e hC h he

/-- Whatever the fetches deliver, a call of the walker keeps the output channel
made of the records of the written edges only. -/
theorem writeRefsRecursiveVia_onlyEdgeRecords (str : Cid → GoString) (get : NodePromises)
    (fuel : Nat) (rw : RefWriter) (n : Node) (depth : Int) (r : Result)
    (hJ : OnlyEdgeRecords str rw)
    (h : rw.writeRefsRecursiveVia str get fuel n depth = some r) : OnlyEdgeRecords str r.rw := by
  obtain ⟨hc, new, he, ho, _⟩ := writeRefsRecursiveVia_extends str get fuel rw n depth r h
  unfold OnlyEdgeRecords at hJ ⊢
  rw [ho, he, hJ, hc.2.2.2.2, List.map_append]

/-- Roots traversed without error keep the configuration, and keep the output
channel made of edge records only. -/
theorem traversesVia_inv (str : Cid → GoString) (get : NodePromises) (fuel : Nat) :
    ∀ (os : List Node) (rw rw1 : RefWriter), TraversesVia str get fuel rw os rw1 →
      SameConfig rw rw1 ∧ (OnlyEdgeRecords str rw → OnlyEdgeRecords str rw1) := by
  intro os
  induction os with
  | nil =>
    intro rw rw1 h
    simp only [TraversesVia] at h
    subst h
    exact ⟨sameConfig_refl _, id⟩
  | cons o os ih =>
    intro rw rw1 h
    obtain ⟨r, hr, _, ht⟩ := h
    obtain ⟨c1, c2⟩ := ih r.rw rw1 ht
    exact ⟨sameConfig_trans (writeRefsRecursiveVia_extends str get fuel rw o 1 r hr).1 c1,
      fun hJ => c2 (writeRefsRecursiveVia_onlyEdgeRecords str get fuel rw o 1 r hJ hr)⟩

/-- The producer stops at the first root whose traversal returns an error: the
roots after it are not traversed. -/
theorem produceVia_stops (str : Cid → GoString) (get : NodePromises) (fuel : Nat)
    (sendWins : Bool) (ctx : Context) (o : Node) (os3 : List Node) (r : Result) (e : Error) :
    ∀ (os1 : List Node) (rw rw1 : RefWriter), TraversesVia str get fuel rw os1 rw1 →
      rw1.WriteRefsVia str get fuel o = some r → r.err = some e →
      produceVia str get fuel sendWins ctx rw (os1 ++ o :: os3) =
        some (sendError sendWins ctx r.rw e) := by
  intro os1
  induction os1 with
  | nil =>
    intro rw rw1 h hr he
    simp only [TraversesVia] at h
    subst h
    simp only [List.nil_append, produceVia, hr, he]
  | cons o1 os ih =>
    intro rw rw1 h hr he
    obtain ⟨r1, hr1, he1, ht⟩ := h
    simp only [List.cons_append, produceVia, hr1, he1]
    exact ih r1.rw rw1 ht hr he

/-- The producer either traverses every root without error, or reports the
error of the first root whose traversal fails. -/
theorem produceVia_cases (str : Cid → GoString) (get : NodePromises) (fuel : Nat)
    (sendWins : Bool) (ctx : Context) :
    ∀ (objs : List Node) (rw final : RefWriter),
      produceVia str get fuel sendWins ctx rw objs = some final →
      TraversesVia str get fuel rw objs final ∨
      ∃ os1 o os2 rw1 r e, objs = os1 ++ o :: os2 ∧ TraversesVia str get fuel rw os1 rw1 ∧
        rw1.WriteRefsVia str get fuel o = some r ∧ r.err = some e ∧
        final = sendError sendWins ctx r.rw e := by
  intro objs
  induction objs with
  | nil =>
    intro rw final h
    simp only [produceVia, Option.some.injEq] at h
    exact Or.inl h.symm
  | cons o os ih =>
    intro rw final h
    rw [produceVia] at h
    cases hr : rw.WriteRefsVia str get fuel o with
    | none => rw [hr] at h; simp at h
    | some r =>
      rw [hr] at h
      simp only at h
      cases he : r.err with
      | some e =>
        rw [he] at h
        simp only [Option.some.injEq] at h
        exact Or.inr ⟨[], o, os, rw, r, e, rfl, rfl, hr, he, h.symm⟩
      | none =>
        rw [he] at h
        rcases ih r.rw final h with ht | ⟨os1, o2, os2, rw1, r2, e, ho, ht, hr2, he2, hf⟩
        · exact Or.inl ⟨r, hr, he, ht⟩
        · exact Or.inr ⟨o :: os1, o2, os2, rw1, r2, e, by rw [ho]; rfl, ⟨r, hr, he, ht⟩,
            hr2, he2, hf⟩

/-- Once the context is done, the producer sends no reference record, whatever
the fetches deliver: at most one error record follows. -/
theorem produceVia_done (str : Cid → GoString) (get : NodePromises) (fuel : Nat)
    (sendWins : Bool) (ctx : Context) (e : Error) :
    ∀ (objs : List Node) (rw final : RefWriter), DoneWith rw ctx e →
      produceVia str get fuel sendWins ctx rw objs = some final →
      final.edges = rw.edges ∧
        (final.out = rw.out ∨ ∃ err, final.out = rw.out ++ [⟨[], err⟩]) := by
  intro objs
  induction objs with
  | nil =>
    intro rw final _ h
    simp only [produceVia, Option.some.injEq] at h
    subst h
    exact ⟨rfl, Or.inl rfl⟩
  | cons o os ih =>
    intro rw final hd h
    rw [produceVia] at h
    cases hr : rw.WriteRefsVia str get fuel o with
    | none => rw [hr] at h; simp at h
    | some r =>
      rw [hr] at h
      simp only at h
      obtain ⟨r1, r2, r3⟩ := writeRefsRecursiveVia_done str get ctx e fuel rw o 1 r hd hr
      cases herr : r.err with
      | none =>
        rw [herr] at h
        obtain ⟨q1, q2⟩ := ih r.rw final r1 h
        rw [r3] at q1
        rw [r2] at q2
        exact ⟨q1, q2⟩
      | some err =>
        rw [herr] at h
        simp only [Option.some.injEq] at h
        subst h
        unfold sendError
        split
        · split_ifs
          · exact ⟨r3, Or.inr ⟨err, by simp [r2]⟩⟩
          · exact ⟨r3, Or.inl r2⟩
        · exact ⟨r3, Or.inr ⟨err, by simp [r2]⟩⟩

/-- **C10**, amended.  The outcome of every fetch is left open: `get` gives what
each `ng.Get(rw.Ctx)` delivers, and may depend on the context and on the other
promises of the batch.
(1) If the loop of `writeRefsRecursive` has passed the first links `ls1` of a
node without error, the next link is explored and its fetch fails with `e`,
then the call returns `e` at once: the writer returned is the one the link step
left, so no further link is visited and nothing more is sent.
(2) If that fetch succeeds and the recursive call on the fetched node returns
an error `e`, the enclosing call returns `e` at once, with the writer of the
recursive call: an error passes through every enclosing level.
(3) Every call only appends the records of the edges it writes: the records
already sent stay in the output unchanged.
(4) When the request context is never done, the stream produced by
`RefsCmd.Run` either comes from traversing every root without error and holds
edge records only, or there is a first root whose traversal returns an error
`e`, which is the error of a failed fetch; then the records sent before stay
and exactly one error record carrying `e` follows them and ends the stream.
(5) When the request context is never done and the traversal of a root returns
an error `e` after the roots before it were traversed without error, the
stream is the output so far followed by the error record of `e`, whatever
roots follow: no later root is traversed.
(6) So, when the request context is never done, a stream without error record
means every root was traversed without error.
(7) When the request context is done at the time the error of a root is
reported, the `select` of the producer either sends the error record or drops
it: in the first case the stream is as in (5), in the second it is the output
so far, with no error record.
(8) With every fetch decided by the CID alone, the walker and the stream are
`writeRefsRecursive` and `stream`. -/
theorem C10_fetch_errors_amended (str : Cid → GoString) (get : NodePromises) :
    (∀ (fuel : Nat) (rw : RefWriter) (n : Node) (depth : Int) (ls1 : List Link) (l : Link)
        (ls2 : List Link) (r0 : Result) (e : Error),
      n.Links = ls1 ++ l :: ls2 →
      writeLinksVia str get (RefWriter.writeRefsRecursiveVia str get fuel) n depth 0 ls1 0 rw =
        some r0 →
      r0.err = none →
      (visitLink str r0.rw n.Cid l depth).1 = true →
      (visitLink str r0.rw n.Cid l depth).2.1 = none →
      get (visitLink str r0.rw n.Cid l depth).2.2 n ls1.length l = .error e →
      rw.writeRefsRecursiveVia str get (fuel + 1) n depth =
        some ⟨r0.count, some e, (visitLink str r0.rw n.Cid l depth).2.2⟩) ∧
    (∀ (fuel : Nat) (rw : RefWriter) (n : Node) (depth : Int) (ls1 : List Link) (l : Link)
        (ls2 : List Link) (r0 : Result) (nd : Node) (r1 : Result) (e : Error),
      n.Links = ls1 ++ l :: ls2 →
      writeLinksVia str get (RefWriter.writeRefsRecursiveVia str get fuel) n depth 0 ls1 0 rw =
        some r0 →
      r0.err = none →
      (visitLink str r0.rw n.Cid l depth).1 = true →
      (visitLink str r0.rw n.Cid l depth).2.1 = none →
      get (visitLink str r0.rw n.Cid l depth).2.2 n ls1.length l = .ok nd →
      (visitLink str r0.rw n.Cid l depth).2.2.writeRefsRecursiveVia str get fuel nd (depth + 1) =
        some r1 →
      r1.err = some e →
      rw.writeRefsRecursiveVia str get (fuel + 1) n depth =
        some ⟨r0.count + r1.count, some e, r1.rw⟩) ∧
    (∀ (fuel : Nat) (rw : RefWriter) (n : Node) (depth : Int) (r : Result),
      rw.writeRefsRecursiveVia str get fuel n depth = some r → Extends str depth rw r.rw) ∧
    (∀ (fuel : Nat) (sendWins : Bool) (ctx : Context) (DAG : Cid → Except Error Node)
        (unique : Bool) (format : GoString) (maxDepth : Int) (objs : List Node)
        (final : RefWriter),
      ctx.doneAfter = none →
      streamVia str get fuel sendWins ctx DAG unique format maxDepth objs = some final →
      (TraversesVia str get fuel (RefWriter.fresh DAG (some ctx) unique format maxDepth) objs
          final ∧ OnlyEdgeRecords str final) ∨
      ∃ os1 o os2 rw1 r e, objs = os1 ++ o :: os2 ∧
        TraversesVia str get fuel (RefWriter.fresh DAG (some ctx) unique format maxDepth) os1
          rw1 ∧
        rw1.WriteRefsVia str get fuel o = some r ∧ r.err = some e ∧
        (∃ st m j k, st.DAG = DAG ∧ get st m j k = .error e) ∧
        OnlyEdgeRecords str r.rw ∧
        final = { r.rw with out := r.rw.out ++ [⟨[], e⟩] }) ∧
    (∀ (fuel : Nat) (sendWins : Bool) (ctx : Context) (DAG : Cid → Except Error Node)
        (unique : Bool) (format : GoString) (maxDepth : Int) (os1 : List Node) (o : Node)
        (os3 : List Node) (rw1 : RefWriter) (r : Result) (e : Error),
      ctx.doneAfter = none →
      TraversesVia str get fuel (RefWriter.fresh DAG (some ctx) unique format maxDepth) os1
        rw1 →
      rw1.WriteRefsVia str get fuel o = some r → r.err = some e →
      streamVia str get fuel sendWins ctx DAG unique format maxDepth (os1 ++ o :: os3) =
        some { r.rw with out := r.rw.out ++ [⟨[], e⟩] }) ∧
    (∀ (fuel : Nat) (sendWins : Bool) (ctx : Context) (DAG : Cid → Except Error Node)
        (unique : Bool) (format : GoString) (maxDepth : Int) (objs : List Node)
        (final : RefWriter),
      ctx.doneAfter = none →
      streamVia str get fuel sendWins ctx DAG unique format maxDepth objs = some final →
      OnlyEdgeRecords str final →
      TraversesVia str get fuel (RefWriter.fresh DAG (some ctx) unique format maxDepth) objs
        final) ∧
    (∀ (fuel : Nat) (ctx : Context) (DAG : Cid → Except Error Node)
        (unique : Bool) (format : GoString) (maxDepth : Int) (os1 : List Node) (o : Node)
        (os3 : List Node) (rw1 : RefWriter) (r : Result) (e e2 : Error),
      TraversesVia str get fuel (RefWriter.fresh DAG (some ctx) unique format maxDepth) os1
        rw1 →
      rw1.WriteRefsVia str get fuel o = some r → r.err = some e →
      ctx.Err r.rw.out.length = some e2 →
      streamVia str get fuel true ctx DAG unique format maxDepth (os1 ++ o :: os3) =
          some { r.rw with out := r.rw.out ++ [⟨[], e⟩] } ∧
        streamVia str get fuel false ctx DAG unique format maxDepth (os1 ++ o :: os3) =
          some r.rw) ∧
    (∀ (fuel : Nat) (rw : RefWriter) (n : Node) (depth : Int),
      rw.writeRefsRecursiveVia str NodePromises.lookup fuel n depth =
        rw.writeRefsRecursive str fuel n depth) ∧
    (∀ (fuel : Nat) (sendWins : Bool) (ctx : Context) (DAG : Cid → Except Error Node)
        (unique : Bool) (format : GoString) (maxDepth : Int) (objs : List Node),
      streamVia str NodePromises.lookup fuel sendWins ctx DAG unique format maxDepth objs =
        stream str fuel sendWins ctx DAG unique format maxDepth objs) := by
  have hmain : ∀ (fuel : Nat) (sendWins : Bool) (ctx : Context)
      (DAG : Cid → Except Error Node) (unique : Bool) (format : GoString) (maxDepth : Int)
      (objs : List Node) (final : RefWriter),
      ctx.doneAfter = none →
      streamVia str get fuel sendWins ctx DAG unique format maxDepth objs = some final →
      (TraversesVia str get fuel (RefWriter.fresh DAG (some ctx) unique format maxDepth) objs
          final ∧ OnlyEdgeRecords str final) ∨
      ∃ os1 o os2 rw1 r e, objs = os1 ++ o :: os2 ∧
        TraversesVia str get fuel (RefWriter.fresh DAG (some ctx) unique format maxDepth) os1
          rw1 ∧
        rw1.WriteRefsVia str get fuel o = some r ∧ r.err = some e ∧
        (∃ st m j k, st.DAG = DAG ∧ get st m j k = .error e) ∧
        OnlyEdgeRecords str r.rw ∧
        final = { r.rw with out := r.rw.out ++ [⟨[], e⟩] } := by
    intro fuel sendWins ctx DAG unique format maxDepth objs final hctx h
    have hfreshJ : OnlyEdgeRecords str
        (RefWriter.fresh DAG (some ctx) unique format maxDepth) := by
      simp [OnlyEdgeRecords, RefWriter.fresh]
    rcases produceVia_cases str get fuel sendWins ctx objs _ final h with
      ht | ⟨os1, o, os2, rw1, r, e, ho, ht, hr, he, hf⟩
    · exact Or.inl ⟨ht, (traversesVia_inv str get fuel objs _ final ht).2 hfreshJ⟩
    · right
      obtain ⟨c1, c2⟩ := traversesVia_inv str get fuel os1 _ rw1 ht
      have hsrc := writeRefsRecursiveVia_err_source str get
        (RefWriter.fresh DAG (some ctx) unique format maxDepth) fuel rw1 o 1 r e c1 hr he
      have hfetch : ∃ st m j k, st.DAG = DAG ∧ get st m j k = .error e := by
        rcases hsrc with ⟨st, m, j, k, hst, hg⟩ | ⟨ctx1, sent, hc1, hc2⟩
        · exact ⟨st, m, j, k, hst.1, hg⟩
        · exfalso
          simp only [RefWriter.fresh, Option.some.injEq] at hc1
          subst hc1
          simp [Context.Err, hctx] at hc2
      rw [sendError_not_done sendWins ctx r.rw e hctx] at hf
      exact ⟨os1, o, os2, rw1, r, e, ho, ht, hr, he, hfetch,
        writeRefsRecursiveVia_onlyEdgeRecords str get fuel rw1 o 1 r (c2 hfreshJ) hr, hf⟩
  refine ⟨?_, ?_, ?_, hmain, ?_, ?_, ?_, writeRefsRecursiveVia_lookup str, ?_⟩
  · intro fuel rw n depth ls1 l ls2 r0 e hL h0 he0 hk hn hg
    rw [RefWriter.writeRefsRecursiveVia, hL,
      writeLinksVia_append_ok str get _ n depth (l :: ls2) ls1 0 0 rw r0 h0 he0, Nat.zero_add]
    exact writeLinksVia_cons_fetch_error str get _ n depth ls1.length l ls2 r0.count r0.rw e
      hk hn hg
  · intro fuel rw n depth ls1 l ls2 r0 nd r1 e hL h0 he0 hk hn hg hr he
    rw [RefWriter.writeRefsRecursiveVia, hL,
      writeLinksVia_append_ok str get _ n depth (l :: ls2) ls1 0 0 rw r0 h0 he0, Nat.zero_add]
    exact writeLinksVia_cons_nested_error str get _ n depth ls1.length l ls2 r0.count r0.rw nd
      r1 e hk hn hg hr he
  · intro fuel rw n depth r h
    exact writeRefsRecursiveVia_extends str get fuel rw n depth r h
  · intro fuel sendWins ctx DAG unique format maxDepth os1 o os3 rw1 r e hctx ht hr he
    unfold streamVia
    rw [produceVia_stops str get fuel sendWins ctx o os3 r e os1 _ rw1 ht hr he,
      sendError_not_done sendWins ctx r.rw e hctx]
  · intro fuel sendWins ctx DAG unique format maxDepth objs final hctx h hJ
    rcases hmain fuel sendWins ctx DAG unique format maxDepth objs final hctx h with
      ⟨ht, _⟩ | ⟨os1, o, os2, rw1, r, e, _, _, _, _, _, hJr, hf⟩
    · exact ht
    · exfalso
      unfold OnlyEdgeRecords at hJ hJr
      rw [hf] at hJ
      simp only at hJ
      rw [hJr] at hJ
      have := congrArg List.length hJ
      simp at this
  · intro fuel ctx DAG unique format maxDepth os1 o os3 rw1 r e e2 ht hr he hd
    unfold streamVia
    rw [produceVia_stops str get fuel true ctx o os3 r e os1 _ rw1 ht hr he,
      produceVia_stops str get fuel false ctx o os3 r e os1 _ rw1 ht hr he]
    simp [sendError, hd]
  · intro fuel sendWins ctx DAG unique format maxDepth objs
    unfold streamVia stream
    exact produceVia_lookup str fuel sendWins ctx objs _

/-- Witness of the amended C10.  On the scenario graph the first link of the
root `broken` cannot be fetched: the call returns the error after the record of
`Z`, and the link to `Y` is not visited.  On `holeDag` the root `R` links to
`X`, whose node links to the missing `Z`: the error of the nested call is
returned by the call on `R` after the records of `X` and `Z`, the link to `Y`
is not visited, and the stream over the roots `Y`, `R`, `X` ends with the one
error record, the root `X` not being traversed.  With a batch that fails as a
whole, the fetch of the first link of the root `late` already fails. -/
theorem C10_fetch_errors_amended_witness :
    (Example.plain.writeRefsRecursiveVia Example.str NodePromises.lookup 3 Example.broken 1 =
        some ⟨0, some "not found".toList,
          (visitLink Example.str Example.plain Example.R ⟨"z".toList, Example.Z⟩ 1).2.2⟩ ∧
      Example.outcome
          (Example.plain.writeRefsRecursiveVia Example.str NodePromises.lookup 3
            Example.broken 1) =
        some (some "not found", [("Z", "")])) ∧
    (NodePromises.lookup
          (visitLink Example.str Example.holed Example.R ⟨"a".toList, Example.X⟩ 1).2.2
          Example.nodeR 0 ⟨"a".toList, Example.X⟩ = .ok Example.holeX ∧
      Example.outcome
          ((visitLink Example.str Example.holed Example.R
            ⟨"a".toList, Example.X⟩ 1).2.2.writeRefsRecursiveVia
            Example.str NodePromises.lookup 2 Example.holeX 2) =
        some (some "not found", [("X", ""), ("Z", "")]) ∧
      Example.outcome
          (Example.holed.writeRefsRecursiveVia Example.str NodePromises.lookup 3
            Example.nodeR 1) =
        some (some "not found", [("X", ""), ("Z", "")])) ∧
    Example.records
        (streamVia Example.str NodePromises.lookup 3 true Example.background Example.holeDag
          false [] (-1) [Example.nodeY, Example.nodeR, Example.nodeX]) =
      some [("X", ""), ("Z", ""), ("", "not found")] ∧
    (Example.outcome
          (Example.plain.writeRefsRecursiveVia Example.str Example.batch 3 Example.late 1) =
        some (some "not found", [("Y", "")]) ∧
      Example.outcome
          (Example.plain.writeRefsRecursiveVia Example.str NodePromises.lookup 3
            Example.late 1) =
        some (some "not found", [("Y", ""), ("Z", "")])) :=
  have ha := (C10_fetch_errors_amended Example.str NodePromises.lookup).1 2 Example.plain
    Example.broken 1 [] ⟨"z".toList, Example.Z⟩ [⟨"y".toList, Example.Y⟩]
    ⟨0, none, Example.plain⟩ "not found".toList rfl rfl rfl (by decide) (by decide) rfl
  have hsome : ((visitLink Example.str Example.holed Example.R
      ⟨"a".toList, Example.X⟩ 1).2.2.writeRefsRecursiveVia
      Example.str NodePromises.lookup 2 Example.holeX 2).isSome = true := by decide
  have hb := (C10_fetch_errors_amended Example.str NodePromises.lookup).2.1 2 Example.holed
    Example.nodeR 1 [] ⟨"a".toList, Example.X⟩ [⟨"b".toList, Example.Y⟩]
    ⟨0, none, Example.holed⟩ Example.holeX (Option.get _ hsome) "not found".toList
    rfl rfl rfl (by decide) (by decide) rfl (Option.some_get hsome).symm rfl
  have hroot : (Example.holed.WriteRefsVia Example.str NodePromises.lookup 3
      Example.nodeR).isSome = true := by decide
  have hc := (C10_fetch_errors_amended Example.str NodePromises.lookup).2.2.2.2.1 3 true
    Example.background Example.holeDag false [] (-1) [Example.nodeY] Example.nodeR
    [Example.nodeX] Example.holed (Option.get _ hroot) "not found".toList rfl
    ⟨⟨0, none, Example.holed⟩, rfl, rfl, rfl⟩ (Option.some_get hroot).symm rfl
  have hd := (C10_fetch_errors_amended Example.str Example.batch).1 2 Example.plain
    Example.late 1 [] ⟨"y".toList, Example.Y⟩ [⟨"z".toList, Example.Z⟩]
    ⟨0, none, Example.plain⟩ "not found".toList rfl rfl rfl (by decide) (by decide) rfl
  ⟨⟨ha, by rw [ha]; decide⟩,
    ⟨rfl, by decide, by rw [hb]; rfl⟩,
    by
      have hc2 : [Example.nodeY, Example.nodeR, Example.nodeX] =
          [Example.nodeY] ++ Example.nodeR :: [Example.nodeX] := rfl
      rw [hc2, hc]; rfl,
    ⟨by rw [hd]; decide, by decide⟩⟩

/-- The error of a done context is the error the context was cancelled with. -/
theorem Context.err_of_done {ctx : Context} {sent : Nat} {e : Error}
    (h : ctx.Err sent = some e) : e = ctx.err := by
  unfold Context.Err at h
  cases hk : ctx.doneAfter with
  | none => rw [hk] at h; simp at h
  | some k =>
    rw [hk] at h
    simp only at h
    split_ifs at h
    simp only [Option.some.injEq] at h
    exact h.symm

/-- **C13** Cancellation.  The outcome of every fetch is left open (`get`).
Let the context of the writer `rw` be done, with error `e`.
(1) `WriteEdge` on `rw` sends no record and returns `e`.
(2) If the loop of `writeRefsRecursive` has passed the first links `ls1` of a
node without error and has reached `rw`, and `visit` asks to write the edge of
the next link (`keepGoing`, and not seen before or duplicates allowed), then
the call of `writeRefsRecursive` returns `e` at once: the writer returned is
the one `visit` left, so no record is sent, nothing is fetched, there is no
recursive call and the links that follow are not visited.
(3) An error returned by a recursive call is returned at once by the enclosing
call, with the writer of the recursive call.
(4) Every call of `writeRefsRecursive` on `rw` leaves the output channel and
the log of written edges as they are, and an error it returns is `e` or the
error of a failed fetch.
(5) Every run of the producer of `RefsCmd.Run` from `rw` writes no edge and
sends no reference record: the output is unchanged, or one error record was
added.
(6) With every fetch decided by the CID alone, the walker and the producer are
`writeRefsRecursive` and `produce`. -/
theorem C13_cancellation (str : Cid → GoString) (get : NodePromises) (rw : RefWriter)
    (ctx : Context) (e : Error)
    (hctx : rw.Ctx = some ctx) (hdone : ctx.Err rw.out.length = some e) :
    (∀ (src dst : Cid) (name : GoString), rw.WriteEdge str src dst name = (some e, rw)) ∧
    (∀ (fuel : Nat) (rw0 : RefWriter) (n : Node) (depth : Int) (ls1 : List Link) (l : Link)
        (ls2 : List Link) (count : Int),
      n.Links = ls1 ++ l :: ls2 →
      writeLinksVia str get (RefWriter.writeRefsRecursiveVia str get fuel) n depth 0 ls1 0 rw0 =
        some ⟨count, none, rw⟩ →
      (rw.visit l.Cid depth).1.1 = true →
      ((rw.visit l.Cid depth).1.2 = false ∨ rw.Unique = false) →
      rw0.writeRefsRecursiveVia str get (fuel + 1) n depth =
        some ⟨count, some e, (rw.visit l.Cid depth).2⟩) ∧
    (∀ (fuel : Nat) (rw0 : RefWriter) (n : Node) (depth : Int) (ls1 : List Link) (l : Link)
        (ls2 : List Link) (r0 : Result) (nd : Node) (r1 : Result) (e1 : Error),
      n.Links = ls1 ++ l :: ls2 →
      writeLinksVia str get (RefWriter.writeRefsRecursiveVia str get fuel) n depth 0 ls1 0 rw0 =
        some r0 →
      r0.err = none →
      (visitLink str r0.rw n.Cid l depth).1 = true →
      (visitLink str r0.rw n.Cid l depth).2.1 = none →
      get (visitLink str r0.rw n.Cid l depth).2.2 n ls1.length l = .ok nd →
      (visitLink str r0.rw n.Cid l depth).2.2.writeRefsRecursiveVia str get fuel nd (depth + 1) =
        some r1 →
      r1.err = some e1 →
      rw0.writeRefsRecursiveVia str get (fuel + 1) n depth =
        some ⟨r0.count + r1.count, some e1, r1.rw⟩) ∧
    (∀ (fuel : Nat) (n : Node) (depth : Int) (r : Result),
      rw.writeRefsRecursiveVia str get fuel n depth = some r →
      r.rw.out = rw.out ∧ r.rw.edges = rw.edges ∧
        ∀ e1, r.err = some e1 → e1 = e ∨ ∃ st m j k, get st m j k = .error e1) ∧
    (∀ (fuel : Nat) (sendWins : Bool) (objs : List Node) (final : RefWriter),
      produceVia str get fuel sendWins ctx rw objs = some final →
      final.edges = rw.edges ∧
        (final.out = rw.out ∨ ∃ err, final.out = rw.out ++ [⟨[], err⟩])) ∧
    (∀ (fuel : Nat) (rw0 : RefWriter) (n : Node) (depth : Int),
      rw0.writeRefsRecursiveVia str NodePromises.lookup fuel n depth =
        rw0.writeRefsRecursive str fuel n depth) ∧
    (∀ (fuel : Nat) (sendWins : Bool) (ctx0 : Context) (rw0 : RefWriter) (objs : List Node),
      produceVia str NodePromises.lookup fuel sendWins ctx0 rw0 objs =
        produce str fuel sendWins ctx0 rw0 objs) := by
  have hD : DoneWith rw ctx e := ⟨hctx, hdone⟩
  refine ⟨fun src dst name => WriteEdge_done str rw ctx e hctx hdone src dst name, ?_, ?_, ?_,
    ?_, writeRefsRecursiveVia_lookup str, ?_⟩
  · intro fuel rw0 n depth ls1 l ls2 count hL h0 hk hw
    have hv := visitLink_cancelled str rw ctx e hD n.Cid l depth hk hw
    rw [RefWriter.writeRefsRecursiveVia, hL,
      writeLinksVia_append_ok str get _ n depth (l :: ls2) ls1 0 0 rw0 ⟨count, none, rw⟩ h0 rfl,
      Nat.zero_add]
    have := writeLinksVia_cons_write_error str get
      (RefWriter.writeRefsRecursiveVia str get fuel) n depth ls1.length l ls2 count rw e
      (by rw [hv]) (by rw [hv])
    rw [hv] at this
    exact this
  · intro fuel rw0 n depth ls1 l ls2 r0 nd r1 e1 hL h0 he0 hk hn hg hr he
    rw [RefWriter.writeRefsRecursiveVia, hL,
      writeLinksVia_append_ok str get _ n depth (l :: ls2) ls1 0 0 rw0 r0 h0 he0, Nat.zero_add]
    exact writeLinksVia_cons_nested_error str get _ n depth ls1.length l ls2 r0.count r0.rw nd
      r1 e1 hk hn hg hr he
  · intro fuel n depth r h
    obtain ⟨_, q2, q3⟩ := writeRefsRecursiveVia_done str get ctx e fuel rw n depth r hD h
    refine ⟨q2, q3, ?_⟩
    intro e1 he1
    rcases writeRefsRecursiveVia_err_source str get rw fuel rw n depth r e1 (sameConfig_refl rw)
      h he1 with ⟨st, m, j, k, _, hg⟩ | ⟨ctx1, sent, hc1, hc2⟩
    · exact Or.inr ⟨st, m, j, k, hg⟩
    · left
      rw [hctx] at hc1
      simp only [Option.some.injEq] at hc1
      subst hc1
      rw [Context.err_of_done hc2, Context.err_of_done hdone]
  · intro fuel sendWins objs final h
    exact produceVia_done str get fuel sendWins ctx e objs rw final hD h
  · intro fuel sendWins ctx0 rw0 objs
    exact produceVia_lookup str fuel sendWins ctx0 objs rw0

/-- Witness of C13.  With a context cancelled from the start, `WriteEdge` sends
nothing and the call on the root `R` returns the context error at its first
link, with nothing sent.  With a context cancelled once one record was sent,
the record of `X` is sent, the nested call on the node of `X` returns the
context error at the link to `Y`, and the call on `R` returns it in turn: the
output holds the record of `X` only, and the link to `Y` of `R` is not
visited. -/
theorem C13_cancellation_witness :
    (Example.stopped.WriteEdge Example.str Example.R Example.X "a".toList =
        (some "context canceled".toList, Example.stopped) ∧
      Example.stopped.writeRefsRecursiveVia Example.str NodePromises.lookup 3 Example.nodeR 1 =
        some ⟨0, some "context canceled".toList, (Example.stopped.visit Example.X 1).2⟩ ∧
      Example.outcome
          (Example.stopped.writeRefsRecursiveVia Example.str NodePromises.lookup 3
            Example.nodeR 1) =
        some (some "context canceled", [])) ∧
    ((visitLink Example.str Example.stopping Example.R ⟨"a".toList, Example.X⟩ 1).2.2.out.length
        = 1 ∧
      (visitLink Example.str Example.stopping Example.R
          ⟨"a".toList, Example.X⟩ 1).2.2.writeRefsRecursiveVia
          Example.str NodePromises.lookup 2 Example.nodeX 2 =
        some ⟨0, some "context canceled".toList,
          ((visitLink Example.str Example.stopping Example.R
            ⟨"a".toList, Example.X⟩ 1).2.2.visit Example.Y 2).2⟩ ∧
      Example.outcome
          (Example.stopping.writeRefsRecursiveVia Example.str NodePromises.lookup 3
            Example.nodeR 1) =
        some (some "context canceled", [("X", "")])) :=
  have h0 := C13_cancellation Example.str NodePromises.lookup Example.stopped
    Example.cancelled0 "context canceled".toList rfl rfl
  have h0b := h0.2.1 2 Example.stopped Example.nodeR 1 [] ⟨"a".toList, Example.X⟩
    [⟨"b".toList, Example.Y⟩] 0 rfl rfl (by decide) (Or.inl (by decide))
  have h1 := C13_cancellation Example.str NodePromises.lookup
    (visitLink Example.str Example.stopping Example.R ⟨"a".toList, Example.X⟩ 1).2.2
    Example.cancelled1 "context canceled".toList rfl rfl
  have h1b := h1.2.1 1
    (visitLink Example.str Example.stopping Example.R ⟨"a".toList, Example.X⟩ 1).2.2
    Example.nodeX 2 [] ⟨"".toList, Example.Y⟩ [] 0 rfl rfl (by decide) (Or.inl (by decide))
  have h1c := h1.2.2.1 2 Example.stopping Example.nodeR 1 [] ⟨"a".toList, Example.X⟩
    [⟨"b".toList, Example.Y⟩] ⟨0, none, Example.stopping⟩ Example.nodeX
    ⟨0, some "context canceled".toList,
      ((visitLink Example.str Example.stopping Example.R
        ⟨"a".toList, Example.X⟩ 1).2.2.visit Example.Y 2).2⟩
    "context canceled".toList rfl rfl rfl (by decide) (by decide) rfl h1b rfl
  ⟨⟨h0.1 Example.R Example.X "a".toList, h0b, by rw [h0b]; decide⟩,
    ⟨by decide, h1b, by rw [h1c]; decide⟩⟩

end Refs
